import Mathlib

/-!
# Verification of the pyrexplorer SPADE miner

A shallow embedding of `pyrexplorer/spade/element.py` and
`pyrexplorer/spade/spade.py` (a SPADE-family sequential-pattern miner),
together with theorems settling the specification claims.

Modelling conventions (fixed once, used throughout):

* Items and sequence ids (`sid`) are integers (`Int`); event ids (`eid`)
  flowing through the miner are 0-based ranks (`Nat`), because
  `generate_frequent_sequences` replaces caller event labels by their rank.
* Python `dict`s are modelled as association lists in insertion order;
  Python `set`s as duplicate-free lists in insertion order.  Python 2
  leaves dict/set iteration order unspecified; the embedding fixes the
  canonical insertion order.
* Python `list.sort` / `sorted` are stable sorts; they are modelled with
  Mathlib's stable `List.insertionSort`.
* Places where the Python code would raise `KeyError`/`TypeError` on inputs
  that cannot occur in the mining pipeline (for example `cmap` lookups of
  items that were never entered) are totalised with a default; each such
  place is marked in its doc comment.
* The recursive depth-first enumeration (a `while` loop on a work queue
  in the source) takes an explicit fuel parameter; when fuel runs out the
  state reached so far is returned.
-/

/-- Items are opaque totally ordered symbols; the demo datasets use
integers, and `SPADEm.grouped` negates items, so `Int` is the faithful
carrier. -/
abbrev Item := Int

/-- A sequential pattern: a tuple of itemsets (`tuple of tuples` in the
source). -/
abbrev Sequence := List (List Item)

/-- `Event` namedtuple from `element.py`: one witness `(sid, eid)`.  The
`eid` is the 0-based event rank within the input sequence `sid`. -/
structure Event where
  sid : Int
  eid : Nat
deriving DecidableEq, Repr

/-- `UNKNOWN_ATOM_TYPE = 0` -/
def UNKNOWN_ATOM_TYPE : Nat := 0

/-- `EVENT_ATOM_TYPE = 1` -/
def EVENT_ATOM_TYPE : Nat := 1

/-- `SEQUENCE_ATOM_TYPE = 2` -/
def SEQUENCE_ATOM_TYPE : Nat := 2

/-- The `Element` class: an atom (key item, prefix, connection type) with
its id-list.  The Python attribute `prefix` is called `pfx` here; `none`
is Python's `None`.  The id-list (a Python `set`) is a duplicate-free
list in insertion order. -/
structure Element where
  key_item : Item
  pfx : Option Sequence
  conn_type : Nat
  id_list : List Event
deriving DecidableEq, Repr

/-- Python `self.id_list.add(ev)`: insert into a set, modelled as
append-if-new. -/
def insertEvent (l : List Event) (ev : Event) : List Event :=
  if ev ∈ l then l else l ++ [ev]

/-- `Element.update_id_list(id_list=evs)`: add every event of `evs`. -/
def updateIdList (l : List Event) (evs : List Event) : List Event :=
  evs.foldl insertEvent l

/-- `Element(item, prefix, conn_type)` with no initial event
(`sid=None, eid=None`); `conn_type or UNKNOWN_ATOM_TYPE` is the identity
on the `Nat` codes used here. -/
def mkElement (item : Item) (pfx : Option Sequence) (conn_type : Nat) : Element :=
  ⟨item, pfx, conn_type, []⟩

/-- Python truthiness `prefix or ((),)`: `None` and the empty tuple fall
back to `((),)`. -/
def pyPfxOrDefault (p : Option Sequence) : Sequence :=
  match p with
  | none => [[]]
  | some q => if q = [] then [[]] else q

/-- Python truthiness `self.prefix or ()`: `None` falls back to `()`. -/
def pyPfxOrEmpty (p : Option Sequence) : Sequence :=
  match p with
  | none => []
  | some q => q

/-- `Element.generate_sequence` (element.py:66): prefix ++ last item, as an
event atom (item appended to the last itemset) or a sequence atom (item
as a fresh itemset). -/
def Element.generate_sequence (last_item : Item) (pfx : Option Sequence)
    (is_sequence_atom : Bool) : Sequence :=
  let p := pyPfxOrDefault pfx
  if is_sequence_atom then p ++ [[last_item]]
  else p.dropLast ++ [p.getLastD [] ++ [last_item]]

/-- `Element.sequence_length` (element.py:88): total number of item
occurrences, `sum(len(x) for x in prefix or ()) + 1`. -/
def Element.sequence_length (e : Element) : Nat :=
  ((pyPfxOrEmpty e.pfx).map List.length).sum + 1

/-- `Element.sequence_size` (element.py:98), transcribed with Python's
operator precedence: the conditional expression covers the whole sum, so
the result is `len(prefix or ((),)) + 1` for sequence atoms and `0`
otherwise. -/
def Element.sequence_size (e : Element) : Nat :=
  if e.conn_type = SEQUENCE_ATOM_TYPE then (pyPfxOrDefault e.pfx).length + 1 else 0

/-- `Element.support` (element.py:109): number of distinct sids in the
id-list. -/
def Element.support (e : Element) : Nat :=
  ((e.id_list.map Event.sid).dedup).length

/-- `Element.sequence` (element.py:122). -/
def Element.sequence (e : Element) : Sequence :=
  Element.generate_sequence e.key_item e.pfx (e.conn_type = SEQUENCE_ATOM_TYPE)

/-- Total item occurrences of a pattern (the spec's pattern *length* `k`). -/
def itemCount (s : Sequence) : Nat :=
  (s.map List.length).sum

/-- Number of itemsets of a pattern (the spec's pattern *size*). -/
def itemsetCount (s : Sequence) : Nat :=
  s.length

/-! ## `ElementDict` (element.py:245), generic in the key type

The source uses the same dictionary class with item keys (frequent
1-sequences) and pattern keys (everything else); the embedding is
parametric in the key. -/

/-- `ElementDict`: association list from keys to `Element`s, in insertion
order. -/
structure ElementDict (κ : Type) where
  data : List (κ × Element)
deriving DecidableEq, Repr

/-- The empty dictionary (`ElementDict()`). -/
def ElementDict.empty (κ : Type) : ElementDict κ := ⟨[]⟩

/-- First-occurrence association lookup. -/
def assocGet {κ : Type} [DecidableEq κ] (k : κ) : List (κ × Element) → Option Element
  | [] => none
  | (k', e) :: t => if k' = k then some e else assocGet k t

/-- `ElementDict.get` (element.py:253). -/
def ElementDict.get {κ : Type} [DecidableEq κ] (d : ElementDict κ) (k : κ) : Option Element :=
  assocGet k d.data

/-- `key in dict` (element.py:352). -/
def ElementDict.containsKey {κ : Type} [DecidableEq κ] (d : ElementDict κ) (k : κ) : Bool :=
  (d.get k).isSome

/-- Replace the value stored at the first occurrence of `k`. -/
def assocReplace {κ : Type} [DecidableEq κ] (k : κ) (e : Element) :
    List (κ × Element) → List (κ × Element)
  | [] => []
  | (k', e') :: t => if k' = k then (k', e) :: t else (k', e') :: assocReplace k e t

/-- `ElementDict.set` (element.py:264): assign, keeping the key's position
if it already exists, appending otherwise. -/
def ElementDict.set {κ : Type} [DecidableEq κ] (d : ElementDict κ) (k : κ) (e : Element) :
    ElementDict κ :=
  if d.containsKey k then ⟨assocReplace k e d.data⟩ else ⟨d.data ++ [(k, e)]⟩

/-- Remove the first occurrence of `k`. -/
def assocErase {κ : Type} [DecidableEq κ] (k : κ) : List (κ × Element) → List (κ × Element)
  | [] => []
  | (k', e') :: t => if k' = k then t else (k', e') :: assocErase k t

/-- `ElementDict.remove` (element.py:275). -/
def ElementDict.remove {κ : Type} [DecidableEq κ] (d : ElementDict κ) (k : κ) : ElementDict κ :=
  if d.containsKey k then ⟨assocErase k d.data⟩ else d

/-- `ElementDict.get_keys` (element.py:285). -/
def ElementDict.get_keys {κ : Type} (d : ElementDict κ) : List κ :=
  d.data.map Prod.fst

/-- `ElementDict.get_elements` (element.py:294). -/
def ElementDict.get_elements {κ : Type} (d : ElementDict κ) : List Element :=
  d.data.map Prod.snd

/-- Merge `evs` into the id-list of the element stored at `k`
(`self.get(key).update_id_list(id_list=...)`). -/
def assocMergeIdList {κ : Type} [DecidableEq κ] (k : κ) (evs : List Event) :
    List (κ × Element) → List (κ × Element)
  | [] => []
  | (k', e') :: t =>
    if k' = k then (k', { e' with id_list := updateIdList e'.id_list evs }) :: t
    else (k', e') :: assocMergeIdList k evs t

/-- `ElementDict.update` (element.py:303): merge id-lists if the key is
present, otherwise assign. -/
def ElementDict.update {κ : Type} [DecidableEq κ] (d : ElementDict κ) (k : κ) (e : Element) :
    ElementDict κ :=
  if d.containsKey k then ⟨assocMergeIdList k e.id_list d.data⟩ else d.set k e

/-- `ElementDict.add_event` (element.py:318): add one event to the key's
element; a missing key is silently ignored. -/
def ElementDict.add_event {κ : Type} [DecidableEq κ] (d : ElementDict κ) (k : κ)
    (sid : Int) (eid : Nat) : ElementDict κ :=
  if d.containsKey k then ⟨assocMergeIdList k [⟨sid, eid⟩] d.data⟩ else d

/-- `len(dict)` (element.py:355). -/
def ElementDict.size {κ : Type} (d : ElementDict κ) : Nat :=
  d.data.length

/-! ## CMAP (co-occurrence map)

`self._cmap` in `spade.py`: for each item two sets of connected items,
one per atom type.  A lookup of an item that is not a key would raise
`KeyError` in Python; the embedding returns empty sets (such lookups do
not happen in the pipeline, since `update_cmap` enters both items of
every frequent 2-sequence). -/

/-- One `cmap` entry: `{EVENT_ATOM_TYPE: set, SEQUENCE_ATOM_TYPE: set}`. -/
structure CMapEntry where
  ev : List Item
  sq : List Item
deriving DecidableEq, Repr

/-- The co-occurrence map. -/
abbrev CMap := List (Item × CMapEntry)

/-- Association lookup in the cmap (totalised with empty sets). -/
def cmapGet (cm : CMap) (it : Item) : CMapEntry :=
  match cm.find? (fun p => p.1 = it) with
  | some p => p.2
  | none => ⟨[], []⟩

/-- `item_j in cmap[item_i][EVENT_ATOM_TYPE]`. -/
def cmapHasEv (cm : CMap) (it j : Item) : Bool :=
  j ∈ (cmapGet cm it).ev

/-- `item_j in cmap[item_i][SEQUENCE_ATOM_TYPE]`. -/
def cmapHasSq (cm : CMap) (it j : Item) : Bool :=
  j ∈ (cmapGet cm it).sq

/-! ## `Element.join` (element.py:136) -/

/-- The `skip_by_cmap` computation of `Element.join` (element.py:152-178),
run only when `cmap` is truthy (present and non-empty). -/
def joinSkipByCmap (element_i element_j : Element) (cmap : Option CMap) : Bool :=
  match cmap with
  | none => false
  | some cm =>
    if cm = [] then false
    else if element_i.conn_type = EVENT_ATOM_TYPE ∧ element_j.conn_type = EVENT_ATOM_TYPE then
      decide (element_i.key_item = element_j.key_item)
      || (decide (element_i.key_item < element_j.key_item)
          && !cmapHasEv cm element_i.key_item element_j.key_item)
      || (decide (element_j.key_item < element_i.key_item)
          && !cmapHasEv cm element_j.key_item element_i.key_item)
    else if element_i.conn_type = SEQUENCE_ATOM_TYPE ∧ element_j.conn_type = EVENT_ATOM_TYPE then
      !cmapHasSq cm element_j.key_item element_i.key_item
    else if element_j.conn_type = SEQUENCE_ATOM_TYPE ∧ element_i.conn_type = EVENT_ATOM_TYPE then
      !cmapHasSq cm element_i.key_item element_j.key_item
    else false

/-- The atom a pair `(pair_i, pair_j)` of witnesses contributes in
`Element.join` (element.py:185-219): key item, prefix sequence, connection
type and witness eid, or `none` when the pair is skipped. -/
def joinAtom (element_i element_j : Element) (pair_i pair_j : Event) :
    Option (Item × Sequence × Nat × Nat) :=
  if pair_i.sid ≠ pair_j.sid then none
  else if pair_i.eid = pair_j.eid then
    -- create event atom
    if element_i.conn_type ≠ element_j.conn_type ∨ element_i.key_item = element_j.key_item then
      none
    else if element_i.key_item < element_j.key_item then
      some (element_j.key_item, element_i.sequence, EVENT_ATOM_TYPE, pair_i.eid)
    else
      some (element_i.key_item, element_j.sequence, EVENT_ATOM_TYPE, pair_i.eid)
  else if pair_i.eid < pair_j.eid then
    -- create sequence atom, forward
    if element_j.conn_type = EVENT_ATOM_TYPE then none
    else some (element_j.key_item, element_i.sequence, SEQUENCE_ATOM_TYPE, pair_j.eid)
  else
    -- create sequence atom, backward
    if element_i.conn_type = EVENT_ATOM_TYPE then none
    else some (element_i.key_item, element_j.sequence, SEQUENCE_ATOM_TYPE, pair_i.eid)

/-- The sequence generated for an atom contribution. -/
def atomSeq (o : Item × Sequence × Nat × Nat) : Sequence :=
  Element.generate_sequence o.1 (some o.2.1) (o.2.2.1 = SEQUENCE_ATOM_TYPE)

/-- The fresh element created for an atom contribution. -/
def atomElem (o : Item × Sequence × Nat × Nat) : Element :=
  mkElement o.1 (some o.2.1) o.2.2.1

/-- Loop body of `Element.join` (element.py:221-230): generate the atom's
sequence, create the element on first sight, then add the witness. -/
def joinStep (element_i element_j : Element) (pair_i pair_j : Event)
    (out : ElementDict Sequence) : ElementDict Sequence :=
  match joinAtom element_i element_j pair_i pair_j with
  | none => out
  | some o =>
    (if out.containsKey (atomSeq o) then out
     else out.set (atomSeq o) (atomElem o)).add_event (atomSeq o) pair_i.sid o.2.2.2

/-- Inner loop of `Element.join`: one `pair_i` against every `pair_j`. -/
def joinInner (element_i element_j : Element) (pair_i : Event)
    (pairs_j : List Event) (out : ElementDict Sequence) : ElementDict Sequence :=
  pairs_j.foldl (fun acc pair_j => joinStep element_i element_j pair_i pair_j acc) out

/-- `Element.join` (element.py:136): temporal join of two elements,
optionally pruned by the cmap. -/
def Element.join (element_i element_j : Element) (cmap : Option CMap) :
    ElementDict Sequence :=
  if joinSkipByCmap element_i element_j cmap then ElementDict.empty _
  else
    element_i.id_list.foldl
      (fun acc pair_i => joinInner element_i element_j pair_i element_j.id_list acc)
      (ElementDict.empty _)

/-! ## Python comparisons and stable sorting

Python compares tuples and lists lexicographically (a strict prefix is
smaller) and `list.sort` / `sorted` are stable.  Strict orders are given
as `Bool`-valued functions; sorting by a key uses Mathlib's stable
`List.insertionSort` with the reflexive closure of the key order. -/

/-- Strict order on `Int` (Python `<` on ints). -/
def intLt (a b : Int) : Bool := a < b

/-- Strict order on `Nat`. -/
def natLt (a b : Nat) : Bool := a < b

/-- Lexicographic order on pairs (Python tuple comparison). -/
def pairLt (lt1 : α → α → Bool) (lt2 : β → β → Bool) (p q : α × β) : Bool :=
  if lt1 p.1 q.1 then true else if lt1 q.1 p.1 then false else lt2 p.2 q.2

/-- Lexicographic order on lists (Python tuple/list comparison: a strict
prefix compares smaller). -/
def listLt (lt : α → α → Bool) : List α → List α → Bool
  | [], [] => false
  | [], _ :: _ => true
  | _ :: _, [] => false
  | a :: as, b :: bs => if lt a b then true else if lt b a then false else listLt lt as bs

/-- Order on `Option` values: Python 2 compares `None` below everything. -/
def optionLt (lt : α → α → Bool) : Option α → Option α → Bool
  | none, none => false
  | none, some _ => true
  | some _, none => false
  | some a, some b => lt a b

/-- Python comparison on itemsets. -/
def itemsetLt : List Item → List Item → Bool := listLt intLt

/-- Python comparison on pattern sequences (tuples of tuples). -/
def sequenceLt : Sequence → Sequence → Bool := listLt itemsetLt

/-- Laws making a `Bool`-valued strict order behave like a Python key
comparison: irreflexive, asymmetric, transitive, and connected (keys that
compare equal are equal). -/
structure PyLt (lt : α → α → Bool) : Prop where
  irrefl : ∀ a, lt a a = false
  asymm : ∀ {a b}, lt a b = true → lt b a = false
  trans : ∀ {a b c}, lt a b = true → lt b c = true → lt a c = true
  conn : ∀ {a b}, lt a b = false → lt b a = false → a = b

theorem pyLt_intLt : PyLt intLt := by
  constructor <;> intros <;> simp_all [intLt] <;> omega

theorem pyLt_natLt : PyLt natLt := by
  constructor <;> intros <;> simp_all [natLt] <;> omega

theorem pyLt_pairLt {lt1 : α → α → Bool} {lt2 : β → β → Bool}
    (h1 : PyLt lt1) (h2 : PyLt lt2) : PyLt (pairLt lt1 lt2) := by
  constructor
  · intro a
    simp [pairLt, h1.irrefl, h2.irrefl]
  · rintro ⟨a1, a2⟩ ⟨b1, b2⟩ hab
    cases hx : lt1 a1 b1 with
    | true => simp [pairLt, hx, h1.asymm hx]
    | false =>
      cases hy : lt1 b1 a1 with
      | true => simp [pairLt, hx, hy] at hab
      | false =>
        have e : a1 = b1 := h1.conn hx hy
        subst e
        simp only [pairLt, hx, if_false] at hab ⊢
        simp [h2.asymm hab]
  · rintro ⟨a1, a2⟩ ⟨b1, b2⟩ ⟨c1, c2⟩ hab hbc
    cases hx : lt1 a1 b1 with
    | true =>
      cases hy : lt1 b1 c1 with
      | true => simp [pairLt, h1.trans hx hy]
      | false =>
        cases hz : lt1 c1 b1 with
        | true => simp [pairLt, hx, hy, hz] at hbc
        | false =>
          have e : b1 = c1 := h1.conn hy hz
          subst e
          simp [pairLt, hx]
    | false =>
      cases hy : lt1 b1 a1 with
      | true => simp [pairLt, hx, hy] at hab
      | false =>
        have e : a1 = b1 := h1.conn hx hy
        subst e
        simp only [pairLt, hx, if_false] at hab
        cases hz : lt1 a1 c1 with
        | true => simp [pairLt, hz]
        | false =>
          cases hw : lt1 c1 a1 with
          | true => simp [pairLt, hz, hw] at hbc
          | false =>
            have e2 : a1 = c1 := h1.conn hz hw
            subst e2
            simp only [pairLt, hz, if_false] at hbc ⊢
            exact h2.trans hab hbc
  · rintro ⟨a1, a2⟩ ⟨b1, b2⟩ hab hba
    cases hx : lt1 a1 b1 with
    | true => simp [pairLt, hx] at hab
    | false =>
      cases hy : lt1 b1 a1 with
      | true => simp [pairLt, hy] at hba
      | false =>
        have e : a1 = b1 := h1.conn hx hy
        subst e
        simp only [pairLt, hx, if_false] at hab hba
        rw [h2.conn hab hba]

theorem pyLt_listLt {lt : α → α → Bool} (h : PyLt lt) : PyLt (listLt lt) := by
  have asym : ∀ a b : List α, listLt lt a b = true → listLt lt b a = false := by
    intro a
    induction a with
    | nil =>
      intro b _
      cases b with
      | nil => rfl
      | cons y ys => simp [listLt]
    | cons x xs ih =>
      intro b hab
      cases b with
      | nil => simp [listLt] at hab
      | cons y ys =>
        cases hx : lt x y with
        | true => simp [listLt, hx, h.asymm hx]
        | false =>
          cases hy : lt y x with
          | true => simp [listLt, hx, hy] at hab
          | false =>
            have e : x = y := h.conn hx hy
            subst e
            simp only [listLt, hx, if_false] at hab ⊢
            exact ih _ hab
  constructor
  · intro a
    induction a with
    | nil => rfl
    | cons x xs ih => simp [listLt, h.irrefl, ih]
  · intro a b hab
    exact asym _ _ hab
  · intro a b c hab hbc
    induction a generalizing b c with
    | nil =>
      cases b with
      | nil => simp [listLt] at hab
      | cons y ys =>
        cases c with
        | nil => simp [listLt] at hbc
        | cons z zs => simp [listLt]
    | cons x xs ih =>
      cases b with
      | nil => simp [listLt] at hab
      | cons y ys =>
        cases c with
        | nil => simp [listLt] at hbc
        | cons z zs =>
          cases hx : lt x y with
          | true =>
            cases hy : lt y z with
            | true => simp [listLt, h.trans hx hy]
            | false =>
              cases hz : lt z y with
              | true => simp [listLt, hy, hz] at hbc
              | false =>
                have e : y = z := h.conn hy hz
                subst e
                simp [listLt, hx]
          | false =>
            cases hy : lt y x with
            | true => simp [listLt, hx, hy] at hab
            | false =>
              have e : x = y := h.conn hx hy
              subst e
              simp [listLt, hx] at hab
              cases hz : lt x z with
              | true => simp [listLt, hz]
              | false =>
                cases hw : lt z x with
                | true => simp [listLt, hz, hw] at hbc
                | false =>
                  have e2 : x = z := h.conn hz hw
                  subst e2
                  simp [listLt, hz] at hbc ⊢
                  exact ih hab hbc
  · intro a b hab hba
    induction a generalizing b with
    | nil =>
      cases b with
      | nil => rfl
      | cons y ys => simp [listLt] at hab
    | cons x xs ih =>
      cases b with
      | nil => simp [listLt] at hba
      | cons y ys =>
        cases hx : lt x y with
        | true => simp [listLt, hx] at hab
        | false =>
          cases hy : lt y x with
          | true => simp [listLt, hy] at hba
          | false =>
            have e : x = y := h.conn hx hy
            subst e
            simp [listLt, hx] at hab hba
            rw [ih hab hba]

theorem pyLt_optionLt {lt : α → α → Bool} (h : PyLt lt) : PyLt (optionLt lt) := by
  constructor
  · intro a
    cases a <;> simp [optionLt, h.irrefl]
  · intro a b hab
    cases a <;> cases b <;> simp_all [optionLt]
    exact h.asymm hab
  · intro a b c hab hbc
    cases a <;> cases b <;> cases c <;> simp_all [optionLt]
    exact h.trans hab hbc
  · intro a b hab hba
    cases a <;> cases b <;> simp_all [optionLt]
    exact h.conn hab hba

theorem pyLt_itemsetLt : PyLt itemsetLt := pyLt_listLt pyLt_intLt

theorem pyLt_sequenceLt : PyLt sequenceLt := pyLt_listLt pyLt_itemsetLt

/-- Stable ascending sort by a key function (`sorted(xs, key=kf)` /
`xs.sort(key=kf)`). -/
def pySortByKey (kf : α → κ) (klt : κ → κ → Bool) (l : List α) : List α :=
  List.insertionSort (fun x y => klt (kf y) (kf x) = false) l

/-- Stable descending sort by a key function (`xs.sort(key=kf, reverse=True)`). -/
def pySortByKeyDesc (kf : α → κ) (klt : κ → κ → Bool) (l : List α) : List α :=
  List.insertionSort (fun x y => klt (kf x) (kf y) = false) l

/-- `sorted` on integers. -/
def pySortInt (l : List Int) : List Int := pySortByKey id intLt l

/-! ## `is_subsequence` (spade.py:21)

The source routine is called at two "levels": `level=0` compares flat
integer tuples (taking `abs` of the master's item while matching the
first item), `level=1` compares tuples of itemsets by inclusion.  Both
are the same greedy first-fit scan; they are transcribed as two
functions because the two levels operate on different types. -/

/-- `is_subsequence(si, sj, level=0)`; `isFirst` tracks `idx_i == 0`, for
which the master item is taken absolute. -/
def is_subsequence_level0 : Bool → List Int → List Int → Bool
  | _, [], _ => true
  | _, _ :: _, [] => false
  | isFirst, a :: as, b :: bs =>
    if a = (if isFirst then |b| else b) then is_subsequence_level0 false as bs
    else is_subsequence_level0 isFirst (a :: as) bs

/-- `is_subsequence(si, sj, level=1)`: greedy matching of itemsets by
membership inclusion. -/
def is_subsequence_level1 : Sequence → Sequence → Bool
  | [], _ => true
  | _ :: _, [] => false
  | a :: as, b :: bs =>
    if a.all (fun x => x ∈ b) then is_subsequence_level1 as bs
    else is_subsequence_level1 (a :: as) bs

/-! ## Generic association-list helpers (Python dicts with non-Element
values) -/

/-- First-occurrence lookup. -/
def alistGet {κ ν : Type} [DecidableEq κ] (k : κ) : List (κ × ν) → Option ν
  | [] => none
  | p :: t => if p.1 = k then some p.2 else alistGet k t

/-- Replace the value at the first occurrence of `k` (identity if absent). -/
def alistSet {κ ν : Type} [DecidableEq κ] (k : κ) (v : ν) : List (κ × ν) → List (κ × ν)
  | [] => []
  | p :: t => if p.1 = k then (k, v) :: t else p :: alistSet k v t

/-- Python `set.add` on insertion-ordered duplicate-free lists. -/
def pyInsert {α : Type} [DecidableEq α] (l : List α) (x : α) : List α :=
  if x ∈ l then l else l ++ [x]

/-- Python `set(xs)` as a first-seen-order duplicate-free list. -/
def pyUniq {α : Type} [DecidableEq α] (l : List α) : List α :=
  l.foldl pyInsert []

/-! ## Dataset and the vertical id-lists (`generate_frequent_sequences`,
spade.py:300) -/

/-- One input sequence: `{event_label: itemset}`. -/
abbrev EventMap := List (Int × List Item)

/-- The input data: `{sid: {event_label: itemset}}`. -/
abbrev Dataset := List (Int × EventMap)

/-- Itemset of a given event label (`self._sequences[sid][eid]`). -/
def lookupEvs (k : Int) (evs : EventMap) : List Item :=
  ((evs.find? (fun p => p.1 = k)).map Prod.snd).getD []

/-- `sorted(self._sequences[sid])`: the event labels in ascending order
(first-seen de-duplication models dict keys). -/
def rankedKeysOf (evs : EventMap) : List Int :=
  pySortInt (pyUniq (evs.map Prod.fst))

/-- `sorted(set(itemset))`. -/
def pyItemset (l : List Item) : List Item :=
  pySortInt (pyUniq l)

/-- The itemsets of one input sequence in temporal (rank) order, each
sorted and de-duplicated: position `r` is the itemset the miner matches
at event rank `r`. -/
def rankedItemsets (evs : EventMap) : List (List Item) :=
  (rankedKeysOf evs).map (fun k => pyItemset (lookupEvs k evs))

/-- Ranked itemsets of the input sequence `sid`. -/
def rankedOf (ds : Dataset) (sid : Int) : List (List Item) :=
  match ds.find? (fun p => p.1 = sid) with
  | some p => rankedItemsets p.2
  | none => []

/-- `enumerate` with a starting index. -/
def enumFrom {α : Type} (n : Nat) : List α → List (Nat × α)
  | [] => []
  | a :: t => (n, a) :: enumFrom (n + 1) t

/-- The vertical id-lists: `{item: {sid: [event ranks]}}`. -/
abbrev IdLists := List (Item × List (Int × List Nat))

/-- `id_lists.setdefault(item, {}).setdefault(sid, []).append(e_idx)`. -/
def idlAdd (idl : IdLists) (item : Item) (sid : Int) (eidx : Nat) : IdLists :=
  match alistGet item idl with
  | none => idl ++ [(item, [(sid, [eidx])])]
  | some sl =>
    match alistGet sid sl with
    | none => alistSet item (sl ++ [(sid, [eidx])]) idl
    | some eids => alistSet item (alistSet sid (eids ++ [eidx]) sl) idl

/-- `sequences.setdefault(sid, [])`. -/
def seqsEnsure (seqs : List (Int × List Item)) (sid : Int) : List (Int × List Item) :=
  if (alistGet sid seqs).isSome then seqs else seqs ++ [(sid, [])]

/-- `sequences[sid].append(item)`. -/
def seqsAppend (seqs : List (Int × List Item)) (sid : Int) (item : Item) :
    List (Int × List Item) :=
  alistSet sid (((alistGet sid seqs).getD []) ++ [item]) seqs

/-- The id-list/flattened-sequence construction of
`generate_frequent_sequences` (spade.py:312-322).  The per-sid dict
access `self._sequences[sid]` is modelled by the entry being iterated
(identical when sids are unique, which `dict` inputs guarantee). -/
def buildVertical (ds : Dataset) : IdLists × List (Int × List Item) :=
  ds.foldl (fun acc entry =>
    let acc1 := (acc.1, seqsEnsure acc.2 entry.1)
    (enumFrom 0 (rankedKeysOf entry.2)).foldl (fun acc2 p =>
       (pyItemset (lookupEvs p.2 entry.2)).foldl
         (fun acc3 it => (idlAdd acc3.1 it entry.1 p.1, seqsAppend acc3.2 entry.1 it))
         acc2)
       acc1)
    ([], [])

/-- Frequent 1-sequences (spade.py:324-332): keep items whose id-list
covers at least `minimum_support` sids, as prefix-less elements. -/
def addEventsSid (item : Item) (sid : Int) (d : ElementDict Item) (eids : List Nat) :
    ElementDict Item :=
  eids.foldl (fun d3 eid => d3.add_event item sid eid) d

/-- The per-item witness loop of spade.py:330-332. -/
def addEventsAll (item : Item) (d : ElementDict Item) (sl : List (Int × List Nat)) :
    ElementDict Item :=
  sl.foldl (fun d2 q => addEventsSid item q.1 d2 q.2) d

def buildFreq1 (idl : IdLists) (ms : Int) : ElementDict Item :=
  idl.foldl (fun d p =>
    if (p.2.length : Int) < ms then d
    else addEventsAll p.1 (d.set p.1 (mkElement p.1 none UNKNOWN_ATOM_TYPE)) p.2)
    (ElementDict.empty _)

/-- All position-ordered pairs of a list (the nested `idx_i < idx_j` loop
of spade.py:337-339). -/
def pairsOrdered {α : Type} : List α → List (α × α)
  | [] => []
  | x :: t => t.map (fun y => (x, y)) ++ pairsOrdered t

/-- `itemspair_frequency` counters. -/
abbrev PairCounts := List ((Item × Item) × Nat)

/-- `itemspair_frequency[pair] += 1` (a `defaultdict(int)`). -/
def pairCountsAdd (pc : PairCounts) (k : Item × Item) : PairCounts :=
  match alistGet k pc with
  | none => pc ++ [(k, 1)]
  | some n => alistSet k (n + 1) pc

/-- Per-sid pair counting over frequent items (spade.py:334-339). -/
def countPairs (freq1 : ElementDict Item) (seqs : List (Int × List Item)) : PairCounts :=
  seqs.foldl (fun pc p =>
    (pairsOrdered (p.2.filter (fun it => freq1.containsKey it))).foldl pairCountsAdd pc)
    []

/-- `tuple(sorted((a, b)))`. -/
def pySortPair (p : Item × Item) : Item × Item :=
  if p.2 < p.1 then (p.2, p.1) else (p.1, p.2)

/-- The candidate pair set of spade.py:346-348. -/
def candidatePairs (pc : PairCounts) (ms : Int) : List (Item × Item) :=
  pyUniq ((pc.filter (fun p => (p.2 : Int) ≥ ms)).map (fun p => pySortPair p.1))

/-- `prefix[0][0]` of an element's prefix, totalised with `0` (in the
pipeline `update_cmap` only sees 2-sequence elements, whose prefix is a
singleton-itemset sequence). -/
def headHead (s : Sequence) : Item :=
  match s with
  | (m :: _) :: _ => m
  | _ => 0

/-- `SPADEm.update_cmap` (spade.py:287): enter both items, then add the
connected item under the master's set for the element's atom type. -/
def update_cmap (cm : CMap) (e : Element) : CMap :=
  let master := headHead (pyPfxOrEmpty e.pfx)
  let connected := e.key_item
  let cm1 := if (cm.find? (fun p => p.1 = master)).isSome then cm
    else cm ++ [(master, ⟨[], []⟩)]
  let cm2 := if (cm1.find? (fun p => p.1 = connected)).isSome then cm1
    else cm1 ++ [(connected, ⟨[], []⟩)]
  cm2.map (fun p =>
    if p.1 = master then
      if e.conn_type = EVENT_ATOM_TYPE then (p.1, ⟨pyInsert p.2.ev connected, p.2.sq⟩)
      else if e.conn_type = SEQUENCE_ATOM_TYPE then (p.1, ⟨p.2.ev, pyInsert p.2.sq connected⟩)
      else p
    else p)

/-- The joins of candidate pairs (spade.py:346-367): builds the frequent
2-sequences, the cmap, and the set of used frequent items.  The lookups
`freq_1s_elementdict[item]` are totalised with a fresh empty element
(unreachable: candidate pairs only contain frequent items). -/
def generate2Inner (ms : Int) (acc2 : ElementDict Sequence × CMap × Nat)
    (q : Sequence × Element) : ElementDict Sequence × CMap × Nat :=
  if (q.2.support : Int) < ms then acc2
  else
    ((acc2.1.update q.1 q.2),
     (if acc2.1.containsKey q.1 then acc2.2.1 else update_cmap acc2.2.1 q.2),
     acc2.2.2 + 1)

def generate2Step (freq1 : ElementDict Item) (ms : Int)
    (acc : ElementDict Sequence × CMap × List Item) (pr : Item × Item) :
    ElementDict Sequence × CMap × List Item :=
  let el_i := (freq1.get pr.1).getD (mkElement pr.1 none UNKNOWN_ATOM_TYPE)
  let el_j := (freq1.get pr.2).getD (mkElement pr.2 none UNKNOWN_ATOM_TYPE)
  let res := (Element.join el_i el_j none).data.foldl (generate2Inner ms) (acc.1, acc.2.1, 0)
  (res.1, res.2.1, if res.2.2 ≠ 0 then pyInsert (pyInsert acc.2.2 pr.1) pr.2 else acc.2.2)

def generate2 (freq1 : ElementDict Item) (pairs : List (Item × Item)) (ms : Int) :
    ElementDict Sequence × CMap × List Item :=
  pairs.foldl (generate2Step freq1 ms) (ElementDict.empty _, [], [])

/-- `max_length is None or max_length > 1`. -/
def pyMlGt1 : Option Int → Bool
  | none => true
  | some L => L > 1

/-- `SPADEm.generate_frequent_sequences` (spade.py:300), minus the raise
(checked by `execute` in the embedding): frequent 1- and 2-sequences and
the cmap; used frequent items are removed from the 1-sequences. -/
def generate_frequent_sequences (ds : Dataset) (ms : Int) (max_length : Option Int) :
    ElementDict Item × ElementDict Sequence × CMap :=
  if pyMlGt1 max_length then
    ((generate2 (buildFreq1 (buildVertical ds).1 ms)
        (candidatePairs (countPairs (buildFreq1 (buildVertical ds).1 ms) (buildVertical ds).2) ms)
        ms).2.2.foldl (fun d it => d.remove it) (buildFreq1 (buildVertical ds).1 ms),
     (generate2 (buildFreq1 (buildVertical ds).1 ms)
        (candidatePairs (countPairs (buildFreq1 (buildVertical ds).1 ms) (buildVertical ds).2) ms)
        ms).1,
     (generate2 (buildFreq1 (buildVertical ds).1 ms)
        (candidatePairs (countPairs (buildFreq1 (buildVertical ds).1 ms) (buildVertical ds).2) ms)
        ms).2.1)
  else (buildFreq1 (buildVertical ds).1 ms, ElementDict.empty _, [])

/-! ## `SPADEm.grouped` (spade.py:134) -/

/-- One entry of the work queue built by `grouped`: master indices and the
elements of one equivalence class (entries become `none` once consumed as
masters in `enumerate_frequent_sequences`). -/
structure GroupData where
  idx : List Nat
  elements : List (Option Element)
deriving DecidableEq, Repr

/-- `min_eids`: per-sid minimum witness rank. -/
abbrev MinEids := List (Int × Nat)

/-- Fold step of spade.py:150-153. -/
def minEidsAdd (acc : MinEids) (ev : Event) : MinEids :=
  match alistGet ev.sid acc with
  | none => acc ++ [(ev.sid, ev.eid)]
  | some m => if ev.eid < m then alistSet ev.sid ev.eid acc else acc

/-- `min_eids` of one element. -/
def minEidsOf (idl : List Event) : MinEids :=
  idl.foldl minEidsAdd []

/-- `tuple(sorted(min_eids.items()))`. -/
def sortedMinEids (m : MinEids) : MinEids :=
  pySortByKey id (pairLt intLt natLt) m

/-- Merge one element's `min_eids` into the prefix accumulator
(spade.py:155-159). -/
def mergeMinEids (target : MinEids) (m : MinEids) : MinEids :=
  m.foldl (fun acc p =>
    match alistGet p.1 acc with
    | none => acc ++ [p]
    | some e => if p.2 < e then alistSet p.1 p.2 acc else acc) target

/-- Per-prefix accumulator of `grouped`: merged `min_eids` and the member
elements with their sorted `min_eids` snapshots. -/
abbrev GroupAcc := List (Option Sequence × (MinEids × List (Element × MinEids)))

/-- The `prefixes` / `grouped_elements` construction (spade.py:145-162).
`elements.pop()` consumes the input back to front. -/
def collectStep (acc : GroupAcc) (e : Element) : GroupAcc :=
  match alistGet e.pfx acc with
  | none => acc ++ [(e.pfx, (mergeMinEids [] (minEidsOf e.id_list),
      [(e, sortedMinEids (minEidsOf e.id_list))]))]
  | some info =>
    alistSet e.pfx (mergeMinEids info.1 (minEidsOf e.id_list),
      info.2 ++ [(e, sortedMinEids (minEidsOf e.id_list))]) acc

def collectGroups (elements : List Element) : GroupAcc :=
  elements.reverse.foldl collectStep []

/-- `sum(prefix_eids.values())`. -/
def sumVals (m : MinEids) : Nat :=
  (m.map Prod.snd).sum

/-- `min(prefix_eids.values())`, totalised with `0` for the (unreachable)
empty dict. -/
def minVals (m : MinEids) : Nat :=
  match m.map Prod.snd with
  | [] => 0
  | x :: t => t.foldl Nat.min x

/-- `len(prefix)`, totalised with `0` for `None` (pipeline prefixes of
grouped elements are never `None`). -/
def pyLenOptSeq : Option Sequence → Nat
  | none => 0
  | some s => s.length

/-- The prefix sort key of spade.py:165-169. -/
def groupSortKey (g : Option Sequence × (MinEids × List (Element × MinEids))) :
    Nat × Nat × Nat × Option Sequence :=
  (sumVals g.2.1, minVals g.2.1, pyLenOptSeq g.1, g.1)

/-- Order for the prefix sort key. -/
def groupKeyLt : (Nat × Nat × Nat × Option Sequence) → (Nat × Nat × Nat × Option Sequence) → Bool :=
  pairLt natLt (pairLt natLt (pairLt natLt (optionLt sequenceLt)))

/-- `sid_parameters` (spade.py:173-177): per sid, the (eid, conn_type,
key_item) triples of all members. -/
def sidParamsOf (members : List (Element × MinEids)) : List (Int × List (Nat × Nat × Item)) :=
  members.foldl (fun acc m =>
    m.1.id_list.foldl (fun acc2 ev =>
      match alistGet ev.sid acc2 with
      | none => acc2 ++ [(ev.sid, [(ev.eid, m.1.conn_type, m.1.key_item)])]
      | some l => alistSet ev.sid (l ++ [(ev.eid, m.1.conn_type, m.1.key_item)]) acc2)
      acc)
    []

/-- Order on `(eid, conn_type, key_item)` triples. -/
def tripleLt : (Nat × Nat × Item) → (Nat × Nat × Item) → Bool :=
  pairLt natLt (pairLt natLt intLt)

/-- `prefix[-1][-1]`, totalised with `0`. -/
def pfxLastLast (p : Option Sequence) : Int :=
  ((pyPfxOrEmpty p).getLastD []).getLastD 0

/-- `sequences_per_sid` (spade.py:179-186): flat signed item signatures,
sequence-atom items negated. -/
abbrev SeqsPerSid := List (Int × List Int)

def seqsPerSidOf (pfx : Option Sequence) (members : List (Element × MinEids)) : SeqsPerSid :=
  (sidParamsOf members).map (fun p =>
    (p.1, pfxLastLast pfx ::
      (pySortByKey id tripleLt p.2).map
        (fun t => if t.2.1 = SEQUENCE_ATOM_TYPE then -t.2.2 else t.2.2)))

/-- The rotating filter of spade.py:188-201: drop queue entries all of
whose signatures embed into the new prefix's, rotate the others. -/
def rotateFilter (seqs : SeqsPerSid) : Nat → List SeqsPerSid → List SeqsPerSid
  | 0, gms => gms
  | _ + 1, [] => []
  | n + 1, h :: t =>
    if h.all (fun p => is_subsequence_level0 true p.2 ((alistGet p.1 seqs).getD []))
    then rotateFilter seqs n t
    else rotateFilter seqs n (t ++ [h])

/-- The `skip_prefix` test of spade.py:203-215. -/
def skipPrefixCheck (gms : List SeqsPerSid) (seqs : SeqsPerSid) : Bool :=
  gms.any (fun gs => seqs.all (fun p => is_subsequence_level0 true p.2 ((alistGet p.1 gs).getD [])))

/-- The member sort key of spade.py:229-231. -/
def memberSortKey (m : Element × MinEids) : Nat × MinEids × Int :=
  (m.1.conn_type, m.2, m.1.key_item)

/-- Order for the member sort key. -/
def memberKeyLt : (Nat × MinEids × Int) → (Nat × MinEids × Int) → Bool :=
  pairLt natLt (pairLt (listLt (pairLt intLt natLt)) intLt)

/-- The master-index scan of spade.py:235-244 (event-atom groups): one
index per distinct `min_eids` snapshot, stopping at the first
non-event-atom member. -/
def eventIdxScan : List (Element × MinEids) → Nat → Option MinEids → List Nat
  | [], _, _ => []
  | m :: rest, i, prev =>
    if m.1.conn_type ≠ EVENT_ATOM_TYPE then []
    else if some m.2 ≠ prev then i :: eventIdxScan rest (i + 1) (some m.2)
    else eventIdxScan rest (i + 1) prev

/-- The `idx_dict` scan of spade.py:256-278 (sequence-atom groups): group
each member with its cmap event-co-occurring successors, skipping groups
covered by an earlier one. -/
def idxDictScan (cm : CMap) (elements_ : List Element) : List (Nat × List Item) :=
  (enumFrom 0 elements_).foldl (fun acc p =>
    let item := p.2.key_item
    let grp0 := ((enumFrom 0 elements_).filter (fun q => p.1 < q.1)).foldl
      (fun g q => if cmapHasEv cm item q.2.key_item then pyInsert g q.2.key_item else g) []
    let grp := pyInsert grp0 item
    if acc.any (fun e => grp.all (fun x => x ∈ e.2)) then acc
    else acc ++ [(p.1, grp)])
    []

/-- The multi-member arm of the queue-entry construction
(spade.py:229-283), taking the `(conn_type, min_eids, key_item)`-sorted
members. -/
def buildGroupEntryMulti (cm : CMap) (sorted : List (Element × MinEids)) : GroupData :=
  match sorted with
  | [] => ⟨[], []⟩
  | m0 :: _ =>
    if m0.1.conn_type = EVENT_ATOM_TYPE then
      ⟨eventIdxScan sorted 0 none, sorted.map (fun m => some m.1)⟩
    else
      ⟨(idxDictScan cm
          ((pySortByKey (fun m : Element × MinEids => m.1.key_item) intLt sorted).map
            Prod.fst)).map Prod.fst,
       (((pySortByKey (fun m : Element × MinEids => m.1.key_item) intLt sorted).map
            Prod.fst)).map some⟩

/-- Build the queue entry for one equivalence class (spade.py:222-283). -/
def buildGroupEntry (cm : CMap) (members : List (Element × MinEids)) : GroupData :=
  match members with
  | [m] => ⟨[0], [some m.1]⟩
  | _ => buildGroupEntryMulti cm (pySortByKey memberSortKey memberKeyLt members)

/-- `SPADEm.grouped` (spade.py:134): filter and group elements into
equivalence classes, in deterministic prefix order. -/
def groupedStep (cm : CMap) (multi : Bool) (st : List SeqsPerSid × List GroupData)
    (g : Option Sequence × (MinEids × List (Element × MinEids))) :
    List SeqsPerSid × List GroupData :=
  if multi then
    if skipPrefixCheck (rotateFilter (seqsPerSidOf g.1 g.2.2) st.1.length st.1)
        (seqsPerSidOf g.1 g.2.2)
    then (rotateFilter (seqsPerSidOf g.1 g.2.2) st.1.length st.1, st.2)
    else (rotateFilter (seqsPerSidOf g.1 g.2.2) st.1.length st.1 ++ [seqsPerSidOf g.1 g.2.2],
          st.2 ++ [buildGroupEntry cm g.2.2])
  else (st.1, st.2 ++ [buildGroupEntry cm g.2.2])

def grouped (cm : CMap) (elements : List Element) : List GroupData :=
  ((pySortByKey groupSortKey groupKeyLt (collectGroups elements)).foldl
    (groupedStep cm ((collectGroups elements).length > 1)) ([], [])).2

/-! ## The frequent pool, `add_elements`, `is_maximal_sequence`,
`enumerate_frequent_sequences`, `execute` (spade.py:69-492)

`self._frequent_elementdict` holds item keys (from frequent 1-sequences)
next to pattern keys; the key type is their sum.  Python 2 compares an
`int` below a `tuple` (by type name), which fixes the order on mixed
keys. -/

/-- A key of the frequent pool: an item (frequent 1-sequences are stored
under their bare item) or a pattern. -/
inductive FKey where
  | item : Item → FKey
  | seq : Sequence → FKey
deriving DecidableEq, Repr

/-- Python 2 comparison on pool keys: `int < tuple`. -/
def fkeyLt : FKey → FKey → Bool
  | .item a, .item b => intLt a b
  | .item _, .seq _ => true
  | .seq _, .item _ => false
  | .seq s, .seq t => sequenceLt s t

/-- `is_subsequence(element_sequence, pool_key, level=1)`; an item key
would raise `TypeError` in Python (unreachable: the pool holds only
pattern keys while `enumerate_frequent_sequences` runs), totalised as
`false`. -/
def fkeyIsSubseqOfKey (es : Sequence) : FKey → Bool
  | .item _ => false
  | .seq s => is_subsequence_level1 es s

/-- `is_subsequence(pool_key, sequence, level=1)`, totalised likewise. -/
def fkeySubOf (fk : FKey) (s : Sequence) : Bool :=
  match fk with
  | .item _ => false
  | .seq t => is_subsequence_level1 t s

/-- `SPADEm.is_maximal_sequence` (spade.py:93): no frequent pool pattern
strictly embeds the candidate. -/
def is_maximal_sequence (pool : ElementDict FKey) (es : Sequence) : Bool :=
  pool.data.all (fun p => !(fkeyIsSubseqOfKey es p.1))

/-- Python truthiness of `top_number`. -/
def topTruthy : Option Int → Bool
  | none => false
  | some v => v ≠ 0

/-- Value of `top_number` for arithmetic (only used when truthy). -/
def topVal : Option Int → Int
  | none => 0
  | some v => v

/-- Python slice `l[n:]` with possibly negative `n`. -/
def pySliceFrom {α : Type} (n : Int) (l : List α) : List α :=
  if n < 0 then l.drop ((l.length : Int) + n).toNat else l.drop n.toNat

/-- Order on the `(sequence_length, sequence_size, key)` tuples sorted in
`add_elements`. -/
def addKeyLt : (Nat × Nat × FKey) → (Nat × Nat × FKey) → Bool :=
  pairLt natLt (pairLt natLt fkeyLt)

/-- The trim step of `add_elements` (spade.py:123-132). -/
def addTrim (pool1 : ElementDict FKey) (top_number : Option Int) : ElementDict FKey :=
  (pyUniq ((pySliceFrom (topVal top_number)
      (pySortByKeyDesc id addKeyLt
        (pool1.data.map (fun q => (q.2.sequence_length, q.2.sequence_size, q.1))))).map
      (fun t => t.2.2))).foldl
    (fun p k => p.remove k) pool1

/-- `SPADEm.add_elements` (spade.py:111): merge into the frequent pool,
then, when `top_number` is truthy and exceeded, keep only the
`top_number` largest `(sequence_length, sequence_size, key)` entries. -/
def add_elements (pool : ElementDict FKey) (entries : List (FKey × Element))
    (top_number : Option Int) : ElementDict FKey :=
  let pool1 := entries.foldl (fun p q => p.update q.1 q.2) pool
  if topTruthy top_number ∧ (pool1.size : Int) > topVal top_number then addTrim pool1 top_number
  else pool1

/-- `data['elements'][0].sequence_length` (spade.py:393); queue entries
always start with a live element. -/
def currentLenOf (elems : List (Option Element)) : Nat :=
  match elems with
  | some e :: _ => e.sequence_length
  | _ => 0

/-- `(current_element_length + 1) != max_length` (`x != None` is true). -/
def pyNeOptInt (v : Int) : Option Int → Bool
  | none => true
  | some L => v ≠ L

/-- One supported join result entering the inner pool (spade.py:409-415). -/
def masterInnerStep (ms : Int) (acc2 : ElementDict Sequence × Nat) (q : Sequence × Element) :
    ElementDict Sequence × Nat :=
  if (q.2.support : Int) < ms then acc2
  else (acc2.1.update q.1 q.2, acc2.2 + 1)

/-- One master joined against every live element (spade.py:399-415). -/
def masterJoinFold (ms : Int) (cm : CMap) (master : Element) (elems : List (Option Element))
    (inner : ElementDict Sequence) : ElementDict Sequence × Nat :=
  elems.foldl (fun acc cur =>
    match cur with
    | none => acc
    | some c => (Element.join master c (some cm)).data.foldl (masterInnerStep ms) acc)
    (inner, 0)

/-- The master loop of `enumerate_frequent_sequences` (spade.py:395-422):
join each master with every live element, collect supported results into
the inner pool, record masters with no surviving extension that are
maximal, and retire each master. -/
def processMasters (ms : Int) (cm : CMap) (pool : ElementDict FKey) :
    List Nat → List (Option Element) → ElementDict Sequence → ElementDict Sequence →
    List (Option Element) × ElementDict Sequence × ElementDict Sequence
  | [], elems, inner, masterD => (elems, inner, masterD)
  | mi :: rest, elems, inner, masterD =>
    match elems.getD mi none with
    | none => processMasters ms cm pool rest (elems.set mi none) inner masterD
    | some master =>
      processMasters ms cm pool rest (elems.set mi none)
        (masterJoinFold ms cm master elems inner).1
        (if (masterJoinFold ms cm master elems inner).2 = 0
            ∧ is_maximal_sequence pool master.sequence
         then masterD.set master.sequence master else masterD)

/-- The promotion filter of spade.py:436-444: drop non-maximal inner
patterns; evict pool patterns embedded in a surviving one. -/
def promoteInner (pool : ElementDict FKey) (inner : ElementDict Sequence) :
    ElementDict Sequence × ElementDict FKey :=
  inner.get_keys.foldl (fun (acc : ElementDict Sequence × ElementDict FKey) s =>
    if ¬ is_maximal_sequence acc.2 s then (acc.1.remove s, acc.2)
    else
      (acc.1, acc.2.get_keys.foldl (fun p fs => if fkeySubOf fs s then p.remove fs else p) acc.2))
    (inner, pool)

/-- `processMasters` on a fresh inner pool and master dictionary. -/
def pmOf (ms : Int) (cm : CMap) (pool : ElementDict FKey) (g : GroupData) :
    List (Option Element) × ElementDict Sequence × ElementDict Sequence :=
  processMasters ms cm pool g.idx g.elements (ElementDict.empty _) (ElementDict.empty _)

/-- Promotion of the inner pool into the frequent pool
(spade.py:434-447). -/
def innerPromotePool (tn : Option Int) (pool : ElementDict FKey)
    (inner : ElementDict Sequence) : ElementDict FKey :=
  add_elements (promoteInner pool inner).2
    ((promoteInner pool inner).1.data.map (fun q => (FKey.seq q.1, q.2))) tn

/-- Queue extension and pool after the inner-pool branch of one loop
iteration (spade.py:424-447). -/
def enumQP (ms : Int) (cm : CMap) (max_length top_number : Option Int)
    (pool : ElementDict FKey) (g : GroupData) : List GroupData × ElementDict FKey :=
  if (pmOf ms cm pool g).2.1.size > 1
      ∧ pyNeOptInt ((currentLenOf g.elements : Int) + 1) max_length = true
  then (grouped cm (pmOf ms cm pool g).2.1.get_elements, pool)
  else if (pmOf ms cm pool g).2.1.size ≠ 0
  then ([], innerPromotePool top_number pool (pmOf ms cm pool g).2.1)
  else ([], pool)

/-- Pool after the master additions of one loop iteration
(spade.py:449-450; no `top_number`). -/
def enumPool2 (ms : Int) (cm : CMap) (max_length top_number : Option Int)
    (pool : ElementDict FKey) (g : GroupData) : ElementDict FKey :=
  if (pmOf ms cm pool g).2.2.size ≠ 0
  then add_elements (enumQP ms cm max_length top_number pool g).2
    ((pmOf ms cm pool g).2.2.data.map (fun q => (FKey.seq q.1, q.2))) none
  else (enumQP ms cm max_length top_number pool g).2

/-- `SPADEm.enumerate_frequent_sequences` (spade.py:374): depth-first
work-queue loop, with explicit fuel standing in for the `while`. -/
def enumLoop (ms : Int) (cm : CMap) (max_length top_number : Option Int) :
    Nat → List GroupData → ElementDict FKey → ElementDict FKey
  | 0, _, pool => pool
  | _ + 1, [], pool => pool
  | fuel + 1, g :: rest, pool =>
    enumLoop ms cm max_length top_number fuel
      ((enumQP ms cm max_length top_number pool g).1 ++ rest)
      (enumPool2 ms cm max_length top_number pool g)

/-- Python truthiness of the configured dataset. -/
def dsTruthy (ds : Dataset) : Bool :=
  ds ≠ []

/-- Python truthiness of the configured minimum support (`None` and `0`
are falsy; negative ints are truthy). -/
def msTruthy : Option Int → Bool
  | none => false
  | some v => v ≠ 0

/-- The final output sort key of spade.py:487-490. -/
def execSortKey (e : Element) : Nat × Nat × Option Sequence × Int :=
  (e.sequence_length, e.sequence_size, e.pfx, e.key_item)

/-- Order for the final output sort key. -/
def execKeyLt : (Nat × Nat × Option Sequence × Int) → (Nat × Nat × Option Sequence × Int) → Bool :=
  pairLt natLt (pairLt natLt (pairLt (optionLt sequenceLt) intLt))

/-- `max_length is None or max_length > 2`. -/
def pyMlGt2 : Option Int → Bool
  | none => true
  | some L => L > 2

/-- The pool after the optional depth-first enumeration
(spade.py:474-479). -/
def execPool1 (ds : Dataset) (ms : Int) (max_length top_number : Option Int) (fuel : Nat) :
    ElementDict FKey :=
  if (generate_frequent_sequences ds ms max_length).2.1.size ≠ 0
      ∧ pyMlGt2 max_length = true
  then enumLoop ms (generate_frequent_sequences ds ms max_length).2.2 max_length top_number
    fuel
    (grouped (generate_frequent_sequences ds ms max_length).2.2
      (generate_frequent_sequences ds ms max_length).2.1.get_elements)
    (ElementDict.empty _)
  else ElementDict.empty _

/-- The pool after the optional addition of the remaining frequent
1-sequences (spade.py:481-483). -/
def execPool2 (ds : Dataset) (ms : Int) (max_length top_number : Option Int) (fuel : Nat) :
    ElementDict FKey :=
  if (generate_frequent_sequences ds ms max_length).1.size ≠ 0
  then add_elements (execPool1 ds ms max_length top_number fuel)
    ((generate_frequent_sequences ds ms max_length).1.data.map (fun q => (FKey.item q.1, q.2)))
    top_number
  else execPool1 ds ms max_length top_number fuel

/-- `SPADEm.execute` (spade.py:455) over a fresh engine configured with
`ds` and `minimum_support`: the raise of `generate_frequent_sequences`
(spade.py:309-310) is the configuration check; on success the frequent
pool is assembled and optionally sorted. -/
def SPADEm.execute (ds : Dataset) (minimum_support : Option Int) (sort : Bool)
    (max_length top_number : Option Int) (fuel : Nat) : Except String (List Element) :=
  if ¬ dsTruthy ds ∨ ¬ msTruthy minimum_support then
    .error "Initial sequences/support are not set"
  else
    .ok (if sort
      then pySortByKey execSortKey execKeyLt
        (execPool2 ds (minimum_support.getD 0) max_length top_number fuel).get_elements
      else (execPool2 ds (minimum_support.getD 0) max_length top_number fuel).get_elements)

/-! ## Concrete datasets

Scenario 1 of the spec with `A,B,C,D` encoded as `1,2,3,4`, and two
further datasets exercising the top-N trim and the output ordering. -/

/-- Scenario-1 dataset `{1:{1:[A,B], 2:[C]}, 2:{1:[A], 2:[B,C]},
3:{1:[A,B], 2:[C]}, 4:{1:[D]}}` with `A,B,C,D = 1,2,3,4`. -/
def dsS1 : Dataset :=
  [(1, [(1, [1, 2]), (2, [3])]),
   (2, [(1, [1]), (2, [2, 3])]),
   (3, [(1, [1, 2]), (2, [3])]),
   (4, [(1, [4])])]

/-- `execute` output on scenario 1 with `min_support = 2` and default
options. -/
def s1out : List Element :=
  ((SPADEm.execute dsS1 (some 2) false none none 32).toOption).getD []

/-- Two independent groups of sids, each supporting one maximal
2-sequence (`(1)(2)` in sids 1-2, `(3)(4)` in sids 3-4). -/
def dsTop : Dataset :=
  [(1, [(1, [1]), (2, [2])]),
   (2, [(1, [1]), (2, [2])]),
   (3, [(1, [3]), (2, [4])]),
   (4, [(1, [3]), (2, [4])])]

/-- Two independent groups of sids whose maximal patterns are
`((7),(8,9))` (an event-atom element) and `((1,2),(3))` (a sequence-atom
element), both of pattern length 3 and two itemsets. -/
def dsOrd : Dataset :=
  [(1, [(1, [7]), (2, [8, 9])]),
   (2, [(1, [7]), (2, [8, 9])]),
   (3, [(1, [1, 2]), (2, [3])]),
   (4, [(1, [1, 2]), (2, [3])])]

/-- Sorted `execute` output on `dsOrd` with `min_support = 2`. -/
def ordOut : List Element :=
  ((SPADEm.execute dsOrd (some 2) true none none 32).toOption).getD []

/-! ## Claim C1 -/

/-- C1 (counterexample): on the scenario-1 dataset with minimum support 2
and default options, the returned patterns do not include the singleton
`((A,),)` (nor, a fortiori, the other listed non-maximal patterns): the
claimed inclusion fails at this input. -/
theorem spade_scenario1_missing_singleton :
    [[(1 : Item)]] ∉ s1out.map Element.sequence := by decide

/-- C1 (amended): on the scenario-1 dataset with minimum support 2 and
default options, `execute` returns exactly the maximal pattern
`((A,B),(C,))` with support 2.  The singleton 1-sequences and the other
non-maximal patterns are absent: 1-Elements used by retained 2-Elements
are removed unconditionally (there is no `maximal` option), and the
depth-first enumeration promotes only maximal patterns. -/
theorem spade_scenario1_output :
    s1out.map (fun e => (e.sequence, e.support)) = [([[1, 2], [3]], 2)] := by decide

/-! ## Claim C4 -/

/-- C4 (code bug): with `top_number = 1` on `dsTop`, `execute` succeeds
and returns two elements — both maximal 2-sequences enter the pool via
the master path of `enumerate_frequent_sequences` (spade.py:449-450),
which calls `add_elements` without `top_number`, so the top-N trim never
runs and the documented bound `top_number` is exceeded. -/
theorem execute_top1_returns_two :
    (SPADEm.execute dsTop (some 2) false none (some 1) 32).isOk = true
    ∧ ((SPADEm.execute dsTop (some 2) false none (some 1) 32).toOption.getD []).length = 2 := by
  decide

/-! ## Claim C7 -/

/-- C7 (counterexample): a negative minimum support, `max_length = 0 < 1`
and `top_n = 0` are all accepted without any configuration failure —
`execute` only rejects falsy values (`not self._sequences or
not self._minimum_support`), and `-1` is truthy in Python. -/
theorem execute_bad_config_no_error :
    (SPADEm.execute dsS1 (some (-1)) false none none 32).isOk = true
    ∧ (SPADEm.execute dsS1 (some 2) false (some 0) none 32).isOk = true
    ∧ (SPADEm.execute dsS1 (some 2) false none (some 0) 32).isOk = true := by
  decide

/-! ## Claim C8 -/

/-- C8 (code bug): `sequence_size` returns `0` instead of the number of
itemsets for any element that is not a sequence atom, because the
conditional expression in element.py:106-107 binds the whole sum: for a
prefix-less 1-element and for an event-atom element the property returns
`0` although their sequences consist of one itemset. -/
theorem sequence_size_drops_itemsets :
    (mkElement 1 none UNKNOWN_ATOM_TYPE).sequence_size = 0
    ∧ itemsetCount (mkElement 1 none UNKNOWN_ATOM_TYPE).sequence = 1
    ∧ (Element.mk 2 (some [[1]]) EVENT_ATOM_TYPE []).sequence_size = 0
    ∧ itemsetCount (Element.mk 2 (some [[1]]) EVENT_ATOM_TYPE []).sequence = 1
    ∧ (Element.mk 3 (some [[1]]) SEQUENCE_ATOM_TYPE []).sequence_size = 2 := by
  decide

/-! ## Claim C9 -/

/-- The ordering claimed by the spec: ascending by
`(length, size, sequence)` where length counts item occurrences, size
counts itemsets, and sequences compare lexicographically. -/
def specOrdKey (e : Element) : Nat × Nat × Sequence :=
  (itemCount e.sequence, itemsetCount e.sequence, e.sequence)

/-- Order for `specOrdKey`. -/
def specOrdLt : (Nat × Nat × Sequence) → (Nat × Nat × Sequence) → Bool :=
  pairLt natLt (pairLt natLt sequenceLt)

/-- C9 (counterexample): on `dsOrd` with `sort` set, the returned list is
`[((7),(8,9)), ((1,2),(3))]`; both have pattern length 3 and two
itemsets, so the claimed `(length, size, sequence)` order demands
`((1,2),(3))` first, but the implementation sorts by the
`sequence_size` property (which is 0 for the event-atom element) and
puts `((7),(8,9))` first. -/
theorem execute_sort_spec_order_violated :
    ordOut.map Element.sequence = [[[7], [8, 9]], [[1, 2], [3]]]
    ∧ ¬ ordOut.Pairwise (fun a b => specOrdLt (specOrdKey b) (specOrdKey a) = false) := by
  decide

/-! ## Claim C10 -/

/-- C10: `ElementDict.add_event` with a key that is not in the dictionary
leaves the dictionary unchanged — the witness is silently dropped. -/
theorem add_event_missing_key_noop {κ : Type} [DecidableEq κ] (d : ElementDict κ)
    (k : κ) (sid : Int) (eid : Nat) (h : d.containsKey k = false) :
    d.add_event k sid eid = d := by
  simp [ElementDict.add_event, h]

/-- Witness for `add_event_missing_key_noop` at a concrete dictionary and
missing key. -/
theorem add_event_missing_key_noop_witness :
    (ElementDict.mk [([[1]], mkElement 1 none UNKNOWN_ATOM_TYPE)] :
      ElementDict Sequence).containsKey [[2]] = false
    ∧ (ElementDict.mk [([[1]], mkElement 1 none UNKNOWN_ATOM_TYPE)] :
      ElementDict Sequence).add_event [[2]] 5 0 =
      ElementDict.mk [([[1]], mkElement 1 none UNKNOWN_ATOM_TYPE)] :=
  ⟨by decide, add_event_missing_key_noop _ _ _ _ (by decide)⟩

/-! ## Claim C7 (amended theorem) -/

/-- C7 (amended): `execute` fails — with no output, by the shape of the
result type — exactly when the dataset is empty or the minimum support
is unset or zero; any other configuration (negative support, any
`max_length`, any `top_n`) runs to completion. -/
theorem execute_error_iff (ds : Dataset) (ms : Option Int) (sort : Bool)
    (ml tn : Option Int) (fuel : Nat) :
    (SPADEm.execute ds ms sort ml tn fuel).isOk = (dsTruthy ds && msTruthy ms) := by
  by_cases h1 : dsTruthy ds = true <;> by_cases h2 : msTruthy ms = true <;>
    simp [SPADEm.execute, h1, h2, Except.isOk, Except.toBool]

/-! ## Sortedness of the stable sorts -/

/-- Keys that compare equal under a lawful strict order chain through
`≤`. -/
theorem PyLt.le_trans {lt : κ → κ → Bool} (h : PyLt lt) {a b c : κ}
    (hab : lt b a = false) (hbc : lt c b = false) : lt c a = false := by
  cases hca : lt c a with
  | false => rfl
  | true =>
    cases hx : lt a b with
    | true => rw [h.trans hca hx] at hbc; cases hbc
    | false =>
      have e : a = b := h.conn hx hab
      subst e
      rw [hca] at hbc
      cases hbc

/-- A stable key sort is sorted: no later element has a strictly smaller
key. -/
theorem sorted_pySortByKey {α κ : Type} (kf : α → κ) (klt : κ → κ → Bool)
    (h : PyLt klt) (l : List α) :
    (pySortByKey kf klt l).Pairwise (fun a b => klt (kf b) (kf a) = false) := by
  letI : IsTotal α (fun a b => klt (kf b) (kf a) = false) := ⟨by
    intro a b
    cases hx : klt (kf b) (kf a) with
    | false => exact Or.inl rfl
    | true => exact Or.inr (h.asymm hx)⟩
  letI : IsTrans α (fun a b => klt (kf b) (kf a) = false) := ⟨by
    intro a b c hab hbc
    exact h.le_trans hab hbc⟩
  exact List.sorted_insertionSort _ l

/-- The sorts permute their input (membership is preserved). -/
theorem mem_pySortByKey {α κ : Type} (kf : α → κ) (klt : κ → κ → Bool)
    (l : List α) (x : α) : x ∈ pySortByKey kf klt l ↔ x ∈ l :=
  (List.perm_insertionSort _ l).mem_iff

/-- Membership is preserved by the descending sort as well. -/
theorem mem_pySortByKeyDesc {α κ : Type} (kf : α → κ) (klt : κ → κ → Bool)
    (l : List α) (x : α) : x ∈ pySortByKeyDesc kf klt l ↔ x ∈ l :=
  (List.perm_insertionSort _ l).mem_iff

/-! ## Claim C9 (amended theorem) -/

theorem pyLt_execKeyLt : PyLt execKeyLt :=
  pyLt_pairLt pyLt_natLt (pyLt_pairLt pyLt_natLt
    (pyLt_pairLt (pyLt_optionLt pyLt_sequenceLt) pyLt_intLt))

/-- The output ordering the implementation produces when `sort` is set:
ascending by `(sequence_length, sequence_size, prefix, key_item)` with
the implemented (`0` for non-sequence-atoms) `sequence_size` and with
`None` prefixes least. -/
def SortedByImplKey : Except String (List Element) → Prop
  | .error _ => True
  | .ok l => l.Pairwise (fun a b => execKeyLt (execSortKey b) (execSortKey a) = false)

/-- C9 (amended): whenever `execute` is called with the sort flag set and
succeeds, its output is ordered ascending by the implementation key
`(sequence_length, sequence_size, prefix, key_item)`. -/
theorem execute_sorted_by_impl_key (ds : Dataset) (ms : Option Int)
    (ml tn : Option Int) (fuel : Nat) :
    SortedByImplKey (SPADEm.execute ds ms true ml tn fuel) := by
  unfold SPADEm.execute
  split
  · simp [SortedByImplKey]
  · simp only [SortedByImplKey, if_pos rfl]
    exact sorted_pySortByKey execSortKey execKeyLt pyLt_execKeyLt _

/-! ## Claim C5 (counterexample) -/

/-- C5 (counterexample): with `max_length = 0` (which the code accepts,
see C7) the scenario-1 run returns the three frequent 1-sequences, each
of pattern length `1 > 0`: the claimed bound fails for `L < 1`. -/
theorem execute_max_length_zero_violation :
    (SPADEm.execute dsS1 (some 2) false (some 0) none 32).isOk = true
    ∧ ¬ (∀ e ∈ (SPADEm.execute dsS1 (some 2) false (some 0) none 32).toOption.getD [],
          (itemCount e.sequence : Int) ≤ 0) := by
  decide

/-! ## Structural lemmas about id-lists and dictionaries -/

/-- Merging an element's id-list (the effect of `ElementDict.update` on a
present key). -/
def mergeEl (e0 el : Element) : Element :=
  { e0 with id_list := updateIdList e0.id_list el.id_list }

/-- Adding one event (the effect of `ElementDict.add_event` on a present
key). -/
def addEv (e0 : Element) (sid : Int) (eid : Nat) : Element :=
  { e0 with id_list := insertEvent e0.id_list ⟨sid, eid⟩ }

theorem mem_insertEvent {l : List Event} {v x : Event} :
    x ∈ insertEvent l v ↔ x ∈ l ∨ x = v := by
  unfold insertEvent
  split
  · constructor
    · exact fun h => Or.inl h
    · rintro (h | rfl)
      · exact h
      · assumption
  · simp

theorem mem_updateIdList {l evs : List Event} {x : Event} :
    x ∈ updateIdList l evs ↔ x ∈ l ∨ x ∈ evs := by
  induction evs generalizing l with
  | nil => simp [updateIdList]
  | cons v t ih =>
    show x ∈ updateIdList (insertEvent l v) t ↔ _
    rw [ih, mem_insertEvent]
    constructor
    · rintro ((h | rfl) | h)
      · exact Or.inl h
      · exact Or.inr (List.mem_cons_self _ _)
      · exact Or.inr (List.mem_cons_of_mem _ h)
    · rintro (h | h)
      · exact Or.inl (Or.inl h)
      · rcases List.mem_cons.mp h with rfl | h
        · exact Or.inl (Or.inr rfl)
        · exact Or.inr h

/-- Distinct-count monotonicity along `⊆`. -/
theorem dedup_length_le {l1 l2 : List Int} (h : ∀ x ∈ l1, x ∈ l2) :
    l1.dedup.length ≤ l2.dedup.length := by
  have hsub : l1.dedup ⊆ l2.dedup := by
    intro x hx
    exact List.mem_dedup.mpr (h x (List.mem_dedup.mp hx))
  exact ((List.nodup_dedup l1).subperm hsub).length_le

/-- Support is monotone in the id-list. -/
theorem support_mono {e1 e2 : Element} (h : ∀ x ∈ e1.id_list, x ∈ e2.id_list) :
    e1.support ≤ e2.support := by
  apply dedup_length_le
  intro s hs
  rcases List.mem_map.mp hs with ⟨ev, hev, rfl⟩
  exact List.mem_map.mpr ⟨ev, h ev hev, rfl⟩

theorem support_mergeEl (e0 el : Element) : e0.support ≤ (mergeEl e0 el).support :=
  support_mono (fun _ hx => mem_updateIdList.mpr (Or.inl hx))

theorem support_addEv (e0 : Element) (sid : Int) (eid : Nat) :
    e0.support ≤ (addEv e0 sid eid).support :=
  support_mono (fun _ hx => mem_insertEvent.mpr (Or.inl hx))

theorem mergeEl_fields (e0 el : Element) :
    (mergeEl e0 el).key_item = e0.key_item ∧ (mergeEl e0 el).pfx = e0.pfx
    ∧ (mergeEl e0 el).conn_type = e0.conn_type :=
  ⟨rfl, rfl, rfl⟩

/-- Values after `assocReplace` come from the old values or are the new
element. -/
theorem mem_snd_assocReplace {κ : Type} [DecidableEq κ] {k : κ} {el e : Element}
    {l : List (κ × Element)} (h : e ∈ (assocReplace k el l).map Prod.snd) :
    e ∈ l.map Prod.snd ∨ e = el := by
  induction l with
  | nil => simp [assocReplace] at h
  | cons p t ih =>
    unfold assocReplace at h
    split at h
    · rcases List.mem_map.mp h with ⟨q, hq, rfl⟩
      rcases List.mem_cons.mp hq with rfl | hq
      · exact Or.inr rfl
      · exact Or.inl (List.mem_map.mpr ⟨q, List.mem_cons_of_mem _ hq, rfl⟩)
    · rcases List.mem_map.mp h with ⟨q, hq, rfl⟩
      rcases List.mem_cons.mp hq with rfl | hq
      · exact Or.inl (List.mem_map.mpr ⟨p, List.mem_cons_self _ _, rfl⟩)
      · rcases ih (List.mem_map.mpr ⟨q, hq, rfl⟩) with h1 | h1
        · rcases List.mem_map.mp h1 with ⟨r, hr, hh⟩
          exact Or.inl (List.mem_map.mpr ⟨r, List.mem_cons_of_mem _ hr, hh⟩)
        · exact Or.inr h1

/-- Values after `assocMergeIdList` come from the old values, possibly
merged with the new id-list. -/
theorem mem_snd_assocMergeIdList {κ : Type} [DecidableEq κ] {k : κ} {evs : List Event}
    {e : Element} {l : List (κ × Element)}
    (h : e ∈ (assocMergeIdList k evs l).map Prod.snd) :
    e ∈ l.map Prod.snd ∨ ∃ e0, e0 ∈ l.map Prod.snd ∧ e = { e0 with id_list := updateIdList e0.id_list evs } := by
  induction l with
  | nil => simp [assocMergeIdList] at h
  | cons p t ih =>
    unfold assocMergeIdList at h
    split at h
    · rcases List.mem_map.mp h with ⟨q, hq, rfl⟩
      rcases List.mem_cons.mp hq with rfl | hq
      · exact Or.inr ⟨p.2, List.mem_map.mpr ⟨p, List.mem_cons_self _ _, rfl⟩, rfl⟩
      · exact Or.inl (List.mem_map.mpr ⟨q, List.mem_cons_of_mem _ hq, rfl⟩)
    · rcases List.mem_map.mp h with ⟨q, hq, rfl⟩
      rcases List.mem_cons.mp hq with rfl | hq
      · exact Or.inl (List.mem_map.mpr ⟨p, List.mem_cons_self _ _, rfl⟩)
      · rcases ih (List.mem_map.mpr ⟨q, hq, rfl⟩) with h1 | ⟨e0, he0, hh⟩
        · rcases List.mem_map.mp h1 with ⟨r, hr, hh⟩
          exact Or.inl (List.mem_map.mpr ⟨r, List.mem_cons_of_mem _ hr, hh⟩)
        · rcases List.mem_map.mp he0 with ⟨r, hr, hh2⟩
          exact Or.inr ⟨e0, List.mem_map.mpr ⟨r, List.mem_cons_of_mem _ hr, hh2⟩, hh⟩

/-- Values after `assocErase` come from the old values. -/
theorem mem_snd_assocErase {κ : Type} [DecidableEq κ] {k : κ} {e : Element}
    {l : List (κ × Element)} (h : e ∈ (assocErase k l).map Prod.snd) :
    e ∈ l.map Prod.snd := by
  induction l with
  | nil => simp [assocErase] at h
  | cons p t ih =>
    unfold assocErase at h
    split at h
    · rcases List.mem_map.mp h with ⟨q, hq, rfl⟩
      exact List.mem_map.mpr ⟨q, List.mem_cons_of_mem _ hq, rfl⟩
    · rcases List.mem_map.mp h with ⟨q, hq, rfl⟩
      rcases List.mem_cons.mp hq with rfl | hq
      · exact List.mem_map.mpr ⟨p, List.mem_cons_self _ _, rfl⟩
      · exact List.mem_map.mpr ((List.mem_map.mp (ih (List.mem_map.mpr ⟨q, hq, rfl⟩))).imp
          (fun r hr => ⟨List.mem_cons_of_mem _ hr.1, hr.2⟩))

theorem mem_get_elements_set {κ : Type} [DecidableEq κ] {d : ElementDict κ} {k : κ}
    {el e : Element} (h : e ∈ (d.set k el).get_elements) :
    e ∈ d.get_elements ∨ e = el := by
  unfold ElementDict.set at h
  split at h
  · exact mem_snd_assocReplace h
  · unfold ElementDict.get_elements at h ⊢
    simp only [List.map_append, List.mem_append] at h
    rcases h with h | h
    · exact Or.inl h
    · simp at h
      exact Or.inr h

theorem mem_get_elements_update {κ : Type} [DecidableEq κ] {d : ElementDict κ} {k : κ}
    {el e : Element} (h : e ∈ (d.update k el).get_elements) :
    e ∈ d.get_elements ∨ e = el ∨ ∃ e0, e0 ∈ d.get_elements ∧ e = mergeEl e0 el := by
  unfold ElementDict.update at h
  split at h
  · rcases mem_snd_assocMergeIdList h with h1 | ⟨e0, he0, hh⟩
    · exact Or.inl h1
    · exact Or.inr (Or.inr ⟨e0, he0, hh⟩)
  · rcases mem_get_elements_set h with h1 | h1
    · exact Or.inl h1
    · exact Or.inr (Or.inl h1)

theorem mem_get_elements_add_event {κ : Type} [DecidableEq κ] {d : ElementDict κ} {k : κ}
    {sid : Int} {eid : Nat} {e : Element} (h : e ∈ (d.add_event k sid eid).get_elements) :
    e ∈ d.get_elements ∨ ∃ e0, e0 ∈ d.get_elements ∧ e = addEv e0 sid eid := by
  unfold ElementDict.add_event at h
  split at h
  · rcases mem_snd_assocMergeIdList h with h1 | ⟨e0, he0, hh⟩
    · exact Or.inl h1
    · refine Or.inr ⟨e0, he0, ?_⟩
      rw [hh]
      rfl
  · exact Or.inl h

theorem mem_get_elements_remove {κ : Type} [DecidableEq κ] {d : ElementDict κ} {k : κ}
    {e : Element} (h : e ∈ (d.remove k).get_elements) : e ∈ d.get_elements := by
  unfold ElementDict.remove at h
  split at h
  · exact mem_snd_assocErase h
  · exact h

/-! ## Key-indexed lemmas for the dictionary operations -/

theorem assocGet_append_right {κ : Type} [DecidableEq κ] {k : κ} {l : List (κ × Element)}
    (h : assocGet k l = none) (el : Element) : assocGet k (l ++ [(k, el)]) = some el := by
  induction l with
  | nil => simp [assocGet]
  | cons p t ih =>
    simp only [assocGet] at h
    simp only [List.cons_append, assocGet]
    by_cases hp : p.1 = k
    · rw [if_pos hp] at h
      cases h
    · rw [if_neg hp] at h
      rw [if_neg hp]
      exact ih h

theorem assocGet_append_right_other {κ : Type} [DecidableEq κ] {k k' : κ}
    {l : List (κ × Element)} (h : k' ≠ k) (el : Element) :
    assocGet k' (l ++ [(k, el)]) = assocGet k' l := by
  induction l with
  | nil =>
    simp only [List.nil_append, assocGet]
    rw [if_neg (fun hh => h hh.symm)]
  | cons p t ih =>
    simp only [List.cons_append, assocGet]
    by_cases hp : p.1 = k'
    · rw [if_pos hp, if_pos hp]
    · rw [if_neg hp, if_neg hp]
      exact ih

theorem assocGet_replace_self {κ : Type} [DecidableEq κ] {k : κ} {l : List (κ × Element)}
    {e : Element} (h : assocGet k l = some e) (el : Element) :
    assocGet k (assocReplace k el l) = some el := by
  induction l with
  | nil => cases h
  | cons p t ih =>
    simp only [assocGet] at h
    simp only [assocReplace]
    by_cases hp : p.1 = k
    · rw [if_pos hp]
      simp only [assocGet]
      rw [if_pos hp]
    · rw [if_neg hp] at h
      rw [if_neg hp]
      simp only [assocGet]
      rw [if_neg hp]
      exact ih h

theorem assocGet_replace_other {κ : Type} [DecidableEq κ] {k k' : κ} {l : List (κ × Element)}
    (h : k' ≠ k) (el : Element) :
    assocGet k' (assocReplace k el l) = assocGet k' l := by
  induction l with
  | nil => rfl
  | cons p t ih =>
    simp only [assocReplace]
    by_cases hp : p.1 = k
    · have hn : ¬ p.1 = k' := fun hh => h (hh.symm.trans hp)
      rw [if_pos hp]
      simp only [assocGet]
      rw [if_neg hn, if_neg hn]
    · rw [if_neg hp]
      simp only [assocGet]
      by_cases hq : p.1 = k'
      · rw [if_pos hq, if_pos hq]
      · rw [if_neg hq, if_neg hq]
        exact ih

theorem assocGet_mergeIdList_self {κ : Type} [DecidableEq κ] {k : κ} {l : List (κ × Element)}
    {e : Element} (h : assocGet k l = some e) (evs : List Event) :
    assocGet k (assocMergeIdList k evs l) =
      some { e with id_list := updateIdList e.id_list evs } := by
  induction l with
  | nil => cases h
  | cons p t ih =>
    simp only [assocGet] at h
    simp only [assocMergeIdList]
    by_cases hp : p.1 = k
    · rw [if_pos hp] at h
      cases h
      rw [if_pos hp]
      simp only [assocGet]
      rw [if_pos hp]
    · rw [if_neg hp] at h
      rw [if_neg hp]
      simp only [assocGet]
      rw [if_neg hp]
      exact ih h

theorem assocGet_mergeIdList_other {κ : Type} [DecidableEq κ] {k k' : κ}
    {l : List (κ × Element)} (h : k' ≠ k) (evs : List Event) :
    assocGet k' (assocMergeIdList k evs l) = assocGet k' l := by
  induction l with
  | nil => rfl
  | cons p t ih =>
    simp only [assocMergeIdList]
    by_cases hp : p.1 = k
    · have hn : ¬ p.1 = k' := fun hh => h (hh.symm.trans hp)
      rw [if_pos hp]
      simp only [assocGet]
      rw [if_neg hn, if_neg hn]
    · rw [if_neg hp]
      simp only [assocGet]
      by_cases hq : p.1 = k'
      · rw [if_pos hq, if_pos hq]
      · rw [if_neg hq, if_neg hq]
        exact ih

theorem containsKey_of_get {κ : Type} [DecidableEq κ] {d : ElementDict κ} {k : κ}
    {e : Element} (h : d.get k = some e) : d.containsKey k = true := by
  unfold ElementDict.containsKey
  rw [h]
  rfl

theorem get_set_self {κ : Type} [DecidableEq κ] (d : ElementDict κ) (k : κ) (el : Element) :
    (d.set k el).get k = some el := by
  unfold ElementDict.set
  by_cases h : d.containsKey k = true
  · rw [if_pos h]
    unfold ElementDict.containsKey ElementDict.get at h
    show assocGet k (assocReplace k el d.data) = some el
    rcases ho : assocGet k d.data with _ | e
    · rw [ho] at h
      cases h
    · exact assocGet_replace_self ho el
  · rw [if_neg h]
    unfold ElementDict.containsKey ElementDict.get at h
    show assocGet k (d.data ++ [(k, el)]) = some el
    rcases ho : assocGet k d.data with _ | e
    · exact assocGet_append_right ho el
    · rw [ho] at h
      simp at h

theorem get_set_other {κ : Type} [DecidableEq κ] (d : ElementDict κ) {k k' : κ}
    (h : k' ≠ k) (el : Element) : (d.set k el).get k' = d.get k' := by
  unfold ElementDict.set
  split
  · exact assocGet_replace_other h el
  · exact assocGet_append_right_other h el

theorem get_add_event_self {κ : Type} [DecidableEq κ] {d : ElementDict κ} {k : κ}
    {e : Element} (h : d.get k = some e) (sid : Int) (eid : Nat) :
    (d.add_event k sid eid).get k = some (addEv e sid eid) := by
  unfold ElementDict.add_event
  rw [if_pos (containsKey_of_get h)]
  show assocGet k (assocMergeIdList k [⟨sid, eid⟩] d.data) = _
  rw [assocGet_mergeIdList_self h]
  rfl

theorem get_add_event_other {κ : Type} [DecidableEq κ] (d : ElementDict κ) {k k' : κ}
    (h : k' ≠ k) (sid : Int) (eid : Nat) :
    (d.add_event k sid eid).get k' = d.get k' := by
  unfold ElementDict.add_event
  split
  · exact assocGet_mergeIdList_other h _
  · rfl

theorem assocGet_mem {κ : Type} [DecidableEq κ] {k : κ} {e : Element}
    {l : List (κ × Element)} (h : assocGet k l = some e) : e ∈ l.map Prod.snd := by
  induction l with
  | nil => cases h
  | cons p t ih =>
    simp only [assocGet] at h
    by_cases hp : p.1 = k
    · rw [if_pos hp] at h
      cases h
      exact List.mem_map.mpr ⟨p, List.mem_cons_self _ _, rfl⟩
    · rw [if_neg hp] at h
      rcases List.mem_map.mp (ih h) with ⟨q, hq, hh⟩
      exact List.mem_map.mpr ⟨q, List.mem_cons_of_mem _ hq, hh⟩

theorem mem_of_get {κ : Type} [DecidableEq κ] {d : ElementDict κ} {k : κ} {e : Element}
    (h : d.get k = some e) : e ∈ d.get_elements :=
  assocGet_mem h

/-! ## Generic association-list lemmas and key uniqueness -/

theorem mem_alistSet {κ ν : Type} [DecidableEq κ] {k : κ} {v : ν} {l : List (κ × ν)}
    {q : κ × ν} (h : q ∈ alistSet k v l) : q ∈ l ∨ q = (k, v) := by
  induction l with
  | nil => simp [alistSet] at h
  | cons p t ih =>
    unfold alistSet at h
    split at h
    · rcases List.mem_cons.mp h with rfl | hq
      · exact Or.inr rfl
      · exact Or.inl (List.mem_cons_of_mem _ hq)
    · rcases List.mem_cons.mp h with rfl | hq
      · exact Or.inl (List.mem_cons_self _ _)
      · rcases ih hq with h1 | h1
        · exact Or.inl (List.mem_cons_of_mem _ h1)
        · exact Or.inr h1

theorem alistSet_keys {κ ν : Type} [DecidableEq κ] (k : κ) (v : ν) (l : List (κ × ν)) :
    (alistSet k v l).map Prod.fst = l.map Prod.fst := by
  induction l with
  | nil => rfl
  | cons p t ih =>
    unfold alistSet
    split
    · simp only [List.map_cons]
      rename_i hp
      rw [hp]
    · simp only [List.map_cons, ih]

theorem alistGet_mem {κ ν : Type} [DecidableEq κ] {k : κ} {v : ν} {l : List (κ × ν)}
    (h : alistGet k l = some v) : (k, v) ∈ l := by
  induction l with
  | nil => cases h
  | cons p t ih =>
    unfold alistGet at h
    split at h
    · cases h
      rename_i hp
      rcases p with ⟨pk, pv⟩
      cases hp
      exact List.mem_cons_self _ _
    · exact List.mem_cons_of_mem _ (ih h)

theorem alistGet_none_not_mem {κ ν : Type} [DecidableEq κ] {k : κ} {l : List (κ × ν)}
    (h : alistGet k l = none) : k ∉ l.map Prod.fst := by
  induction l with
  | nil => simp
  | cons p t ih =>
    unfold alistGet at h
    split at h
    · cases h
    · simp only [List.map_cons, List.mem_cons]
      rintro (rfl | hk)
      · rename_i hp
        exact hp rfl
      · exact ih h hk

/-- Key uniqueness of a dictionary (all pipeline dictionaries keep it). -/
def NodupKeys {κ : Type} (d : ElementDict κ) : Prop :=
  (d.data.map Prod.fst).Nodup

theorem assocReplace_keys {κ : Type} [DecidableEq κ] (k : κ) (el : Element)
    (l : List (κ × Element)) :
    (assocReplace k el l).map Prod.fst = l.map Prod.fst := by
  induction l with
  | nil => rfl
  | cons p t ih =>
    unfold assocReplace
    split
    · simp only [List.map_cons]
    · simp only [List.map_cons, ih]

theorem assocMergeIdList_keys {κ : Type} [DecidableEq κ] (k : κ) (evs : List Event)
    (l : List (κ × Element)) :
    (assocMergeIdList k evs l).map Prod.fst = l.map Prod.fst := by
  induction l with
  | nil => rfl
  | cons p t ih =>
    unfold assocMergeIdList
    split
    · simp only [List.map_cons]
    · simp only [List.map_cons, ih]

theorem assocErase_keys_sublist {κ : Type} [DecidableEq κ] (k : κ)
    (l : List (κ × Element)) :
    ((assocErase k l).map Prod.fst).Sublist (l.map Prod.fst) := by
  induction l with
  | nil => simp [assocErase]
  | cons p t ih =>
    unfold assocErase
    split
    · simp only [List.map_cons]
      exact (List.sublist_cons_self _ _)
    · simp only [List.map_cons]
      exact ih.cons₂ _

theorem assocGet_none_not_mem_keys {κ : Type} [DecidableEq κ] {k : κ}
    {l : List (κ × Element)} (h : assocGet k l = none) : k ∉ l.map Prod.fst := by
  induction l with
  | nil => simp
  | cons p t ih =>
    simp only [assocGet] at h
    by_cases hp : p.1 = k
    · rw [if_pos hp] at h
      cases h
    · rw [if_neg hp] at h
      simp only [List.map_cons, List.mem_cons]
      rintro (rfl | hk)
      · exact hp rfl
      · exact ih h hk

theorem nodupKeys_set {κ : Type} [DecidableEq κ] {d : ElementDict κ} (h : NodupKeys d)
    (k : κ) (el : Element) : NodupKeys (d.set k el) := by
  unfold ElementDict.set
  split
  · show ((assocReplace k el d.data).map Prod.fst).Nodup
    rw [assocReplace_keys]
    exact h
  · show ((d.data ++ [(k, el)]).map Prod.fst).Nodup
    rename_i hc
    unfold ElementDict.containsKey ElementDict.get at hc
    rcases ho : assocGet k d.data with _ | e
    · simp only [List.map_append, List.map_cons, List.map_nil]
      rw [List.nodup_append]
      exact ⟨h, List.nodup_singleton _,
        fun a ha => by simp only [List.mem_singleton]; rintro rfl; exact assocGet_none_not_mem_keys ho ha⟩
    · rw [ho] at hc
      simp at hc

theorem nodupKeys_update {κ : Type} [DecidableEq κ] {d : ElementDict κ} (h : NodupKeys d)
    (k : κ) (el : Element) : NodupKeys (d.update k el) := by
  unfold ElementDict.update
  split
  · show ((assocMergeIdList k el.id_list d.data).map Prod.fst).Nodup
    rw [assocMergeIdList_keys]
    exact h
  · exact nodupKeys_set h k el

theorem add_event_keys {κ : Type} [DecidableEq κ] (d : ElementDict κ) (k : κ)
    (sid : Int) (eid : Nat) :
    (d.add_event k sid eid).data.map Prod.fst = d.data.map Prod.fst := by
  unfold ElementDict.add_event
  split
  · exact assocMergeIdList_keys _ _ _
  · rfl

theorem nodupKeys_add_event {κ : Type} [DecidableEq κ] {d : ElementDict κ}
    (h : NodupKeys d) (k : κ) (sid : Int) (eid : Nat) : NodupKeys (d.add_event k sid eid) := by
  unfold NodupKeys
  rw [add_event_keys]
  exact h

theorem nodupKeys_remove {κ : Type} [DecidableEq κ] {d : ElementDict κ} (h : NodupKeys d)
    (k : κ) : NodupKeys (d.remove k) := by
  unfold ElementDict.remove
  split
  · exact (assocErase_keys_sublist k d.data).nodup h
  · exact h

theorem assocGet_some_key_mem {κ : Type} [DecidableEq κ] {k : κ} {e : Element}
    {l : List (κ × Element)} (h : assocGet k l = some e) : k ∈ l.map Prod.fst := by
  induction l with
  | nil => cases h
  | cons p t ih =>
    simp only [assocGet] at h
    by_cases hp : p.1 = k
    · simp only [List.map_cons, List.mem_cons]
      exact Or.inl hp.symm
    · rw [if_neg hp] at h
      exact List.mem_cons_of_mem _ (ih h)

theorem assocGet_exists_of_mem_snd {κ : Type} [DecidableEq κ] {e : Element} :
    ∀ {l : List (κ × Element)}, (l.map Prod.fst).Nodup → e ∈ l.map Prod.snd →
      ∃ k, assocGet k l = some e := by
  intro l
  induction l with
  | nil => intro _ he; simp at he
  | cons p t ih =>
    intro h he
    simp only [List.map_cons, List.nodup_cons] at h
    rcases List.mem_map.mp he with ⟨q, hq, rfl⟩
    rcases List.mem_cons.mp hq with rfl | hq
    · refine ⟨q.1, ?_⟩
      simp [assocGet]
    · rcases ih h.2 (List.mem_map.mpr ⟨q, hq, rfl⟩) with ⟨k, hk⟩
      refine ⟨k, ?_⟩
      simp only [assocGet]
      rw [if_neg ?_]
      · exact hk
      · rintro rfl
        exact h.1 (assocGet_some_key_mem hk)

/-- With unique keys, every stored value is reachable through `get`. -/
theorem get_of_mem_elements {κ : Type} [DecidableEq κ] {d : ElementDict κ}
    (h : NodupKeys d) {e : Element} (he : e ∈ d.get_elements) :
    ∃ k, d.get k = some e :=
  assocGet_exists_of_mem_snd h he

/-! ## Characterisation of the frequent 1-sequence construction -/

theorem addEventsSid_spec (item : Item) (sid : Int) :
    ∀ (eids : List Nat) (d : ElementDict Item) (e : Element),
      d.get item = some e →
      ∃ e', (addEventsSid item sid d eids).get item = some e'
        ∧ (∀ k, k ≠ item → (addEventsSid item sid d eids).get k = d.get k)
        ∧ e'.key_item = e.key_item ∧ e'.pfx = e.pfx ∧ e'.conn_type = e.conn_type
        ∧ (∀ ev ∈ e.id_list, ev ∈ e'.id_list)
        ∧ (∀ ev ∈ e'.id_list, ev ∈ e.id_list ∨ (ev.sid = sid ∧ ev.eid ∈ eids))
        ∧ (eids ≠ [] → ∃ ev ∈ e'.id_list, ev.sid = sid) := by
  intro eids
  induction eids with
  | nil =>
    intro d e h
    exact ⟨e, h, fun k _ => rfl, rfl, rfl, rfl, fun ev hev => hev,
      fun ev hev => Or.inl hev, fun hne => absurd rfl hne⟩
  | cons eid t ih =>
    intro d e h
    have h1 : (d.add_event item sid eid).get item = some (addEv e sid eid) :=
      get_add_event_self h sid eid
    rcases ih (d.add_event item sid eid) (addEv e sid eid) h1 with
      ⟨e', hg, hother, hk, hp, hc, hold, hnew, hne⟩
    refine ⟨e', hg, ?_, hk, hp, hc, ?_, ?_, ?_⟩
    · intro k hk2
      show (addEventsSid item sid (d.add_event item sid eid) t).get k = d.get k
      rw [hother k hk2, get_add_event_other d hk2]
    · intro ev hev
      exact hold ev (mem_insertEvent.mpr (Or.inl hev))
    · intro ev hev
      rcases hnew ev hev with h2 | ⟨hs, he⟩
      · rcases mem_insertEvent.mp h2 with h3 | rfl
        · exact Or.inl h3
        · exact Or.inr ⟨rfl, List.mem_cons_self _ _⟩
      · exact Or.inr ⟨hs, List.mem_cons_of_mem _ he⟩
    · intro _
      exact ⟨⟨sid, eid⟩, hold _ (mem_insertEvent.mpr (Or.inr rfl)), rfl⟩

theorem addEventsAll_spec (item : Item) :
    ∀ (sl : List (Int × List Nat)) (d : ElementDict Item) (e : Element),
      d.get item = some e →
      ∃ e', (addEventsAll item d sl).get item = some e'
        ∧ (∀ k, k ≠ item → (addEventsAll item d sl).get k = d.get k)
        ∧ e'.key_item = e.key_item ∧ e'.pfx = e.pfx ∧ e'.conn_type = e.conn_type
        ∧ (∀ ev ∈ e.id_list, ev ∈ e'.id_list)
        ∧ (∀ ev ∈ e'.id_list, ev ∈ e.id_list ∨ ∃ q, q ∈ sl ∧ ev.sid = q.1 ∧ ev.eid ∈ q.2)
        ∧ (∀ q ∈ sl, q.2 ≠ [] → ∃ ev ∈ e'.id_list, ev.sid = q.1) := by
  intro sl
  induction sl with
  | nil =>
    intro d e h
    exact ⟨e, h, fun k _ => rfl, rfl, rfl, rfl, fun ev hev => hev,
      fun ev hev => Or.inl hev, fun q hq => absurd hq (List.not_mem_nil q)⟩
  | cons q t ih =>
    intro d e h
    rcases addEventsSid_spec item q.1 q.2 d e h with
      ⟨e1, hg1, hother1, hk1, hp1, hc1, hold1, hnew1, hne1⟩
    rcases ih (addEventsSid item q.1 d q.2) e1 hg1 with
      ⟨e', hg, hother, hk, hp, hc, hold, hnew, hne⟩
    refine ⟨e', hg, ?_, hk.trans hk1, hp.trans hp1, hc.trans hc1, ?_, ?_, ?_⟩
    · intro k hk2
      show (addEventsAll item (addEventsSid item q.1 d q.2) t).get k = d.get k
      rw [hother k hk2, hother1 k hk2]
    · intro ev hev
      exact hold ev (hold1 ev hev)
    · intro ev hev
      rcases hnew ev hev with h2 | ⟨r, hr, hs, he⟩
      · rcases hnew1 ev h2 with h3 | ⟨hs, he⟩
        · exact Or.inl h3
        · exact Or.inr ⟨q, List.mem_cons_self _ _, hs, he⟩
      · exact Or.inr ⟨r, List.mem_cons_of_mem _ hr, hs, he⟩
    · intro r hr hne2
      rcases List.mem_cons.mp hr with rfl | hr
      · rcases hne1 hne2 with ⟨ev, hev, hs⟩
        exact ⟨ev, hold ev hev, hs⟩
      · exact hne r hr hne2

theorem addEventsSid_keys (item : Item) (sid : Int) (eids : List Nat) (d : ElementDict Item) :
    (addEventsSid item sid d eids).data.map Prod.fst = d.data.map Prod.fst := by
  induction eids generalizing d with
  | nil => rfl
  | cons eid t ih =>
    show (addEventsSid item sid (d.add_event item sid eid) t).data.map Prod.fst = _
    rw [ih, add_event_keys]

theorem addEventsAll_keys (item : Item) (sl : List (Int × List Nat)) (d : ElementDict Item) :
    (addEventsAll item d sl).data.map Prod.fst = d.data.map Prod.fst := by
  induction sl generalizing d with
  | nil => rfl
  | cons q t ih =>
    show (addEventsAll item (addEventsSid item q.1 d q.2) t).data.map Prod.fst = _
    rw [ih, addEventsSid_keys]

/-- The shape and witness origin of every frequent 1-sequence element:
it records an item whose id-list entry passed the support check, it has
no prefix and unknown connection type, its witnesses all come from that
entry, and every sid of the entry with at least one rank is witnessed. -/
def Freq1Spec (idl : IdLists) (ms : Int) (e : Element) : Prop :=
  ∃ p, p ∈ idl ∧ (ms ≤ (p.2.length : Int)) ∧ e.key_item = p.1 ∧ e.pfx = none
    ∧ e.conn_type = UNKNOWN_ATOM_TYPE
    ∧ (∀ ev ∈ e.id_list, ∃ q, q ∈ p.2 ∧ ev.sid = q.1 ∧ ev.eid ∈ q.2)
    ∧ (∀ q ∈ p.2, q.2 ≠ [] → ∃ ev ∈ e.id_list, ev.sid = q.1)

theorem buildFreq1_spec (idl : IdLists) (ms : Int) :
    NodupKeys (buildFreq1 idl ms)
    ∧ ∀ e ∈ (buildFreq1 idl ms).get_elements, Freq1Spec idl ms e := by
  have main : ∀ (l : List (Item × List (Int × List Nat))) (d : ElementDict Item),
      (∀ p ∈ l, p ∈ idl) → NodupKeys d →
      (∀ k e, d.get k = some e → Freq1Spec idl ms e) →
      NodupKeys (l.foldl (fun d p =>
          if (p.2.length : Int) < ms then d
          else addEventsAll p.1 (d.set p.1 (mkElement p.1 none UNKNOWN_ATOM_TYPE)) p.2) d)
      ∧ (∀ k e, (l.foldl (fun d p =>
          if (p.2.length : Int) < ms then d
          else addEventsAll p.1 (d.set p.1 (mkElement p.1 none UNKNOWN_ATOM_TYPE)) p.2) d).get k
            = some e → Freq1Spec idl ms e) := by
    intro l
    induction l with
    | nil => exact fun d _ hn hs => ⟨hn, hs⟩
    | cons p t ih =>
      intro d hmem hn hs
      simp only [List.foldl_cons]
      by_cases hlen : (p.2.length : Int) < ms
      · rw [if_pos hlen]
        exact ih d (fun q hq => hmem q (List.mem_cons_of_mem _ hq)) hn hs
      · rw [if_neg hlen]
        set d1 := d.set p.1 (mkElement p.1 none UNKNOWN_ATOM_TYPE) with hd1
        have hget1 : d1.get p.1 = some (mkElement p.1 none UNKNOWN_ATOM_TYPE) :=
          get_set_self d p.1 _
        rcases addEventsAll_spec p.1 p.2 d1 _ hget1 with
          ⟨e', hg, hother, hk, hp, hc, _, hnew, hne⟩
        apply ih
        · exact fun q hq => hmem q (List.mem_cons_of_mem _ hq)
        · show ((addEventsAll p.1 d1 p.2).data.map Prod.fst).Nodup
          rw [addEventsAll_keys]
          exact nodupKeys_set hn p.1 _
        · intro k e hke
          by_cases hkp : k = p.1
          · subst hkp
            rw [hg] at hke
            cases hke
            refine ⟨p, hmem p (List.mem_cons_self _ _), le_of_not_lt hlen, hk, hp, hc, ?_, ?_⟩
            · intro ev hev
              rcases hnew ev hev with h2 | h2
              · cases h2
              · exact h2
            · exact hne
          · rw [hother k hkp, hd1, get_set_other d hkp] at hke
            exact hs k e hke
  have base := main idl (ElementDict.empty _) (fun p hp => hp) (by simp [NodupKeys, ElementDict.empty])
    (fun k e hke => by cases hke)
  refine ⟨base.1, fun e he => ?_⟩
  rcases get_of_mem_elements base.1 he with ⟨k, hk⟩
  exact base.2 k e hk

/-- Well-formedness of the vertical id-lists: per item, sids are unique
and every sid has at least one recorded rank. -/
def IdlWF (idl : IdLists) : Prop :=
  ∀ p ∈ idl, ((p.2.map Prod.fst).Nodup ∧ ∀ q ∈ p.2, q.2 ≠ [])

theorem nodup_append_singleton {l : List Int} {x : Int} (h : l.Nodup) (hx : x ∉ l) :
    (l ++ [x]).Nodup := by
  rw [List.nodup_append]
  exact ⟨h, List.nodup_singleton _,
    fun a ha => by simp only [List.mem_singleton]; rintro rfl; exact hx ha⟩

theorem idlAdd_eq_new {idl : IdLists} {item : Item} (h : alistGet item idl = none)
    (sid : Int) (eidx : Nat) :
    idlAdd idl item sid eidx = idl ++ [(item, [(sid, [eidx])])] := by
  unfold idlAdd
  rw [h]

theorem idlAdd_eq_newsid {idl : IdLists} {item : Item} {sl : List (Int × List Nat)}
    (h : alistGet item idl = some sl) {sid : Int} (h2 : alistGet sid sl = none)
    (eidx : Nat) :
    idlAdd idl item sid eidx = alistSet item (sl ++ [(sid, [eidx])]) idl := by
  unfold idlAdd
  rw [h]
  show (match alistGet sid sl with
    | none => alistSet item (sl ++ [(sid, [eidx])]) idl
    | some eids => alistSet item (alistSet sid (eids ++ [eidx]) sl) idl) = _
  rw [h2]

theorem idlAdd_eq_oldsid {idl : IdLists} {item : Item} {sl : List (Int × List Nat)}
    (h : alistGet item idl = some sl) {sid : Int} {eids : List Nat}
    (h2 : alistGet sid sl = some eids) (eidx : Nat) :
    idlAdd idl item sid eidx = alistSet item (alistSet sid (eids ++ [eidx]) sl) idl := by
  unfold idlAdd
  rw [h]
  show (match alistGet sid sl with
    | none => alistSet item (sl ++ [(sid, [eidx])]) idl
    | some eids2 => alistSet item (alistSet sid (eids2 ++ [eidx]) sl) idl) = _
  rw [h2]

theorem idlAdd_wf {idl : IdLists} (h : IdlWF idl) (item : Item) (sid : Int) (eidx : Nat) :
    IdlWF (idlAdd idl item sid eidx) := by
  rcases hi : alistGet item idl with _ | sl
  · rw [idlAdd_eq_new hi]
    intro p hp
    rcases List.mem_append.mp hp with hp | hp
    · exact h p hp
    · simp only [List.mem_singleton] at hp
      subst hp
      refine ⟨List.nodup_singleton _, ?_⟩
      rintro q hq
      simp only [List.mem_singleton] at hq
      subst hq
      simp
  · rcases hs : alistGet sid sl with _ | eids
    · rw [idlAdd_eq_newsid hi hs]
      intro p hp
      rcases mem_alistSet hp with hp | rfl
      · exact h p hp
      · have hsl := h (item, sl) (alistGet_mem hi)
        constructor
        · simp only [List.map_append, List.map_cons, List.map_nil]
          exact nodup_append_singleton hsl.1 (alistGet_none_not_mem hs)
        · intro q hq
          rcases List.mem_append.mp hq with hq | hq
          · exact hsl.2 q hq
          · simp only [List.mem_singleton] at hq
            subst hq
            simp
    · rw [idlAdd_eq_oldsid hi hs]
      intro p hp
      rcases mem_alistSet hp with hp | rfl
      · exact h p hp
      · have hsl := h (item, sl) (alistGet_mem hi)
        constructor
        · show ((alistSet sid (eids ++ [eidx]) sl).map Prod.fst).Nodup
          rw [alistSet_keys]
          exact hsl.1
        · intro q hq
          rcases mem_alistSet hq with hq | rfl
          · exact hsl.2 q hq
          · simp

theorem foldl_preserve {σ α : Type} {P : σ → Prop} {f : σ → α → σ}
    (h : ∀ s a, P s → P (f s a)) : ∀ (l : List α) (s : σ), P s → P (l.foldl f s) := by
  intro l
  induction l with
  | nil => exact fun s hs => hs
  | cons a t ih => exact fun s hs => ih (f s a) (h s a hs)

theorem buildVertical_wf (ds : Dataset) : IdlWF (buildVertical ds).1 := by
  unfold buildVertical
  have step : ∀ (acc : IdLists × List (Int × List Item)) entry, IdlWF acc.1 →
      IdlWF (((enumFrom 0 (rankedKeysOf (Prod.snd entry))).foldl (fun acc2 p =>
       (pyItemset (lookupEvs p.2 entry.2)).foldl
         (fun acc3 it => (idlAdd acc3.1 it entry.1 p.1, seqsAppend acc3.2 entry.1 it))
         acc2)
       (acc.1, seqsEnsure acc.2 entry.1)).1) := by
    intro acc entry hacc
    apply foldl_preserve (P := fun (s : IdLists × List (Int × List Item)) => IdlWF s.1)
    · intro s p hs
      apply foldl_preserve (P := fun (s : IdLists × List (Int × List Item)) => IdlWF s.1)
      · intro s2 it hs2
        exact idlAdd_wf hs2 it entry.1 p.1
      · exact hs
    · exact hacc
  apply foldl_preserve (P := fun (s : IdLists × List (Int × List Item)) => IdlWF s.1)
  · intro s entry hs
    exact step s entry hs
  · intro p hp
    cases hp

/-- Each frequent 1-sequence element of a well-formed id-list table has
support at least the minimum support. -/
theorem freq1_support {idl : IdLists} {ms : Int} (hwf : IdlWF idl) {e : Element}
    (hspec : Freq1Spec idl ms e) : ms ≤ (e.support : Int) := by
  obtain ⟨p, hp, hlen, _, _, _, _, hcov⟩ := hspec
  obtain ⟨hnodup, hne⟩ := hwf p hp
  have hsub : ∀ s ∈ p.2.map Prod.fst, s ∈ e.id_list.map Event.sid := by
    intro s hs
    rcases List.mem_map.mp hs with ⟨q, hq, rfl⟩
    rcases hcov q hq (hne q hq) with ⟨ev, hev, hsid⟩
    exact List.mem_map.mpr ⟨ev, hev, hsid⟩
  have h1 : (p.2.map Prod.fst).dedup.length ≤ (e.id_list.map Event.sid).dedup.length :=
    dedup_length_le hsub
  rw [List.Nodup.dedup hnodup] at h1
  have h2 : p.2.length ≤ e.support := by
    unfold Element.support
    calc p.2.length = (p.2.map Prod.fst).length := (List.length_map _ _).symm
    _ ≤ _ := h1
  omega

/-! ## Support-floor invariants (claim C2) -/

/-- The support floor. -/
def SuppOK (ms : Int) (e : Element) : Prop :=
  ms ≤ (e.support : Int)

theorem suppOK_mergeEl {ms : Int} {e0 : Element} (h : SuppOK ms e0) (el : Element) :
    SuppOK ms (mergeEl e0 el) :=
  le_trans h (Int.ofNat_le.mpr (support_mergeEl e0 el))

/-- `foldl` preservation with membership information about the folded
elements. -/
theorem foldl_preserve_mem {σ α : Type} {P : σ → Prop} {f : σ → α → σ} {C : α → Prop} :
    ∀ (l : List α), (∀ a ∈ l, C a) → (∀ s a, C a → P s → P (f s a)) →
      ∀ s, P s → P (l.foldl f s) := by
  intro l
  induction l with
  | nil => exact fun _ _ s hs => hs
  | cons a t ih =>
    intro hC h s hs
    exact ih (fun x hx => hC x (List.mem_cons_of_mem _ hx)) h (f s a)
      (h s a (hC a (List.mem_cons_self _ _)) hs)

theorem update_OK {κ : Type} [DecidableEq κ] {P : Element → Prop}
    (hmerge : ∀ e0 el, P e0 → P el → P (mergeEl e0 el))
    {d : ElementDict κ} (hd : ∀ e ∈ d.get_elements, P e) {k : κ} {el : Element}
    (hel : P el) : ∀ e ∈ (d.update k el).get_elements, P e := by
  intro e he
  rcases mem_get_elements_update he with h1 | h1 | ⟨e0, he0, rfl⟩
  · exact hd e h1
  · exact h1 ▸ hel
  · exact hmerge e0 el (hd e0 he0) hel

/-- Every element of the frequent 2-sequence dictionary passed the
support check or was merged from elements that did. -/
theorem generate2Inner_OK {ms : Int} {acc2 : ElementDict Sequence × CMap × Nat}
    (hacc2 : ∀ e ∈ acc2.1.get_elements, SuppOK ms e) (q : Sequence × Element) :
    ∀ e ∈ (generate2Inner ms acc2 q).1.get_elements, SuppOK ms e := by
  unfold generate2Inner
  by_cases hq : (q.2.support : Int) < ms
  · rw [if_pos hq]
    exact hacc2
  · rw [if_neg hq]
    exact update_OK (fun e0 el h0 _ => suppOK_mergeEl h0 el) hacc2 (le_of_not_lt hq)

theorem generate2Step_OK {freq1 : ElementDict Item} {ms : Int}
    {acc : ElementDict Sequence × CMap × List Item}
    (hacc : ∀ e ∈ acc.1.get_elements, SuppOK ms e) (pr : Item × Item) :
    ∀ e ∈ (generate2Step freq1 ms acc pr).1.get_elements, SuppOK ms e := by
  have he : (generate2Step freq1 ms acc pr).1 =
      ((Element.join ((freq1.get pr.1).getD (mkElement pr.1 none UNKNOWN_ATOM_TYPE))
        ((freq1.get pr.2).getD (mkElement pr.2 none UNKNOWN_ATOM_TYPE)) none).data.foldl
        (generate2Inner ms) (acc.1, acc.2.1, 0)).1 := rfl
  rw [he]
  apply foldl_preserve
    (P := fun (acc2 : ElementDict Sequence × CMap × Nat) =>
      ∀ e ∈ acc2.1.get_elements, SuppOK ms e)
  · intro acc2 q hacc2
    exact generate2Inner_OK hacc2 q
  · exact hacc

theorem generate2_suppOK (freq1 : ElementDict Item) (pairs : List (Item × Item)) (ms : Int) :
    ∀ e ∈ (generate2 freq1 pairs ms).1.get_elements, SuppOK ms e := by
  unfold generate2
  apply foldl_preserve
    (P := fun (acc : ElementDict Sequence × CMap × List Item) =>
      ∀ e ∈ acc.1.get_elements, SuppOK ms e)
  · intro acc pr hacc
    exact generate2Step_OK hacc pr
  · intro e he
    simp [ElementDict.empty, ElementDict.get_elements] at he

theorem remove_fold_OK {κ₂ : Type} [DecidableEq κ₂] {P : Element → Prop}
    {d : ElementDict κ₂} (hd : ∀ e ∈ d.get_elements, P e) (ks : List κ₂) :
    ∀ e ∈ (ks.foldl (fun p k => p.remove k) d).get_elements, P e := by
  apply foldl_preserve (P := fun (p : ElementDict κ₂) => ∀ e ∈ p.get_elements, P e)
  · intro p k hp e he
    exact hp e (mem_get_elements_remove he)
  · exact hd

theorem add_elements_OK {P : Element → Prop}
    (hmerge : ∀ e0 el, P e0 → P el → P (mergeEl e0 el))
    {pool : ElementDict FKey} (hpool : ∀ e ∈ pool.get_elements, P e)
    {entries : List (FKey × Element)} (hent : ∀ q ∈ entries, P q.2)
    (tn : Option Int) : ∀ e ∈ (add_elements pool entries tn).get_elements, P e := by
  have h1 : ∀ e ∈ (entries.foldl (fun p q => p.update q.1 q.2) pool).get_elements, P e := by
    apply foldl_preserve_mem (P := fun (d : ElementDict FKey) => ∀ e ∈ d.get_elements, P e)
      entries hent
    · intro p q hq hp
      exact update_OK hmerge hp hq
    · exact hpool
  show ∀ e ∈ (if topTruthy tn ∧ ((entries.foldl (fun p q => p.update q.1 q.2) pool).size : Int)
      > topVal tn
    then addTrim (entries.foldl (fun p q => p.update q.1 q.2) pool) tn
    else entries.foldl (fun p q => p.update q.1 q.2) pool).get_elements, P e
  split
  · exact remove_fold_OK h1 _
  · exact h1

theorem promoteInner_OK {Q1 Q2 : Element → Prop} {pool : ElementDict FKey}
    {inner : ElementDict Sequence}
    (h1 : ∀ e ∈ inner.get_elements, Q1 e) (h2 : ∀ e ∈ pool.get_elements, Q2 e) :
    (∀ e ∈ (promoteInner pool inner).1.get_elements, Q1 e)
    ∧ (∀ e ∈ (promoteInner pool inner).2.get_elements, Q2 e) := by
  unfold promoteInner
  apply foldl_preserve
    (P := fun (acc : ElementDict Sequence × ElementDict FKey) =>
      (∀ e ∈ acc.1.get_elements, Q1 e) ∧ (∀ e ∈ acc.2.get_elements, Q2 e))
  · intro acc s hacc
    split
    · exact ⟨fun e he => hacc.1 e (mem_get_elements_remove he), hacc.2⟩
    · refine ⟨hacc.1, ?_⟩
      apply foldl_preserve (P := fun (p : ElementDict FKey) => ∀ e ∈ p.get_elements, Q2 e)
      · intro p fs hp e he
        split at he
        · exact hp e (mem_get_elements_remove he)
        · exact hp e he
      · exact hacc.2
  · exact ⟨h1, h2⟩

/-! ## Origin of the elements placed on the work queue -/

theorem collectStep_eq_new {acc : GroupAcc} {e : Element} (h : alistGet e.pfx acc = none) :
    collectStep acc e = acc ++ [(e.pfx, (mergeMinEids [] (minEidsOf e.id_list),
      [(e, sortedMinEids (minEidsOf e.id_list))]))] := by
  unfold collectStep
  rw [h]

theorem collectStep_eq_old {acc : GroupAcc} {e : Element}
    {info : MinEids × List (Element × MinEids)} (h : alistGet e.pfx acc = some info) :
    collectStep acc e = alistSet e.pfx (mergeMinEids info.1 (minEidsOf e.id_list),
      info.2 ++ [(e, sortedMinEids (minEidsOf e.id_list))]) acc := by
  unfold collectStep
  rw [h]

/-- Every group collected holds a non-empty member list drawn from the
input elements. -/
theorem collectGroups_members (elements : List Element) :
    ∀ entry ∈ collectGroups elements,
      entry.2.2 ≠ [] ∧ ∀ m ∈ entry.2.2, m.1 ∈ elements := by
  unfold collectGroups
  apply foldl_preserve_mem (P := fun (acc : GroupAcc) => ∀ entry ∈ acc,
      entry.2.2 ≠ [] ∧ ∀ m ∈ entry.2.2, m.1 ∈ elements)
    (C := fun e => e ∈ elements) elements.reverse (fun e he => List.mem_reverse.mp he)
  · intro acc e he hacc
    rcases hi : alistGet e.pfx acc with _ | info
    · rw [collectStep_eq_new hi]
      intro entry hentry
      rcases List.mem_append.mp hentry with h1 | h1
      · exact hacc entry h1
      · simp only [List.mem_singleton] at h1
        subst h1
        refine ⟨by simp, ?_⟩
        rintro m hm
        simp only [List.mem_singleton] at hm
        subst hm
        exact he
    · rw [collectStep_eq_old hi]
      intro entry hentry
      rcases mem_alistSet hentry with h1 | rfl
      · exact hacc entry h1
      · have hold := hacc (e.pfx, info) (alistGet_mem hi)
        refine ⟨by simp, ?_⟩
        rintro m hm
        rcases List.mem_append.mp hm with h2 | h2
        · exact hold.2 m h2
        · simp only [List.mem_singleton] at h2
          subst h2
          exact he
  · intro entry hentry
    cases hentry

/-- The queue entry built from a member list is a list of live elements
drawn from the members, non-empty when the members are. -/
theorem buildGroupEntry_shape (cm : CMap) (members : List (Element × MinEids)) :
    ∃ l : List Element, (buildGroupEntry cm members).elements = l.map some
      ∧ (∀ x ∈ l, ∃ m ∈ members, m.1 = x) ∧ (members ≠ [] → l ≠ []) := by
  have hperm : (pySortByKey memberSortKey memberKeyLt members).length = members.length :=
    (List.perm_insertionSort _ members).length_eq
  rcases members with _ | ⟨m1, _ | ⟨m2, rest⟩⟩
  · refine ⟨[], rfl, by simp, fun h => absurd rfl h⟩
  · refine ⟨[m1.1], rfl, ?_, ?_⟩
    · rintro x hx
      simp only [List.mem_singleton] at hx
      subst hx
      exact ⟨m1, List.mem_cons_self _ _, rfl⟩
    · intro _
      simp
  · show ∃ l, (buildGroupEntryMulti cm (pySortByKey memberSortKey memberKeyLt
      (m1 :: m2 :: rest))).elements = l.map some
      ∧ (∀ x ∈ l, ∃ m ∈ m1 :: m2 :: rest, m.1 = x) ∧ (m1 :: m2 :: rest ≠ [] → l ≠ [])
    rcases hs : pySortByKey memberSortKey memberKeyLt (m1 :: m2 :: rest) with _ | ⟨m0, srest⟩
    · rw [hs] at hperm
      cases hperm
    · have hsortmem : ∀ m ∈ m0 :: srest, m ∈ m1 :: m2 :: rest := by
        intro m hm
        rw [← hs] at hm
        exact (mem_pySortByKey _ _ _ m).mp hm
      simp only [buildGroupEntryMulti]
      split
      · refine ⟨(m0 :: srest).map Prod.fst, by simp, ?_, fun _ => by simp⟩
        intro x hx
        rcases List.mem_map.mp hx with ⟨m, hm, rfl⟩
        exact ⟨m, hsortmem m hm, rfl⟩
      · refine ⟨((pySortByKey (fun m : Element × MinEids => m.1.key_item) intLt
          (m0 :: srest)).map Prod.fst), rfl, ?_, ?_⟩
        · intro x hx
          rcases List.mem_map.mp hx with ⟨m, hm, rfl⟩
          exact ⟨m, hsortmem m ((mem_pySortByKey _ _ _ m).mp hm), rfl⟩
        · intro _
          have hlen : (pySortByKey (fun m : Element × MinEids => m.1.key_item) intLt
              (m0 :: srest)).length = (m0 :: srest).length :=
            (List.perm_insertionSort _ _).length_eq
          intro hc
          rw [List.map_eq_nil_iff] at hc
          rw [hc] at hlen
          cases hlen

/-- Every live element of every work-queue entry produced by `grouped`
comes from the input list, and every entry starts with a live element. -/
theorem grouped_shape (cm : CMap) (elements : List Element) :
    ∀ g ∈ grouped cm elements, ∃ l : List Element, g.elements = l.map some
      ∧ (∀ x ∈ l, x ∈ elements) ∧ l ≠ [] := by
  unfold grouped
  have hmem := collectGroups_members elements
  apply foldl_preserve_mem
    (P := fun (st : List SeqsPerSid × List GroupData) => ∀ g ∈ st.2,
      ∃ l : List Element, g.elements = l.map some ∧ (∀ x ∈ l, x ∈ elements) ∧ l ≠ [])
    (C := fun g => g ∈ collectGroups elements)
    (pySortByKey groupSortKey groupKeyLt (collectGroups elements))
    (fun g hg => (mem_pySortByKey _ _ _ g).mp hg)
  · intro st g hg hst
    have hg2 := hmem g hg
    have hbge : ∃ l : List Element, (buildGroupEntry cm g.2.2).elements = l.map some
        ∧ (∀ x ∈ l, x ∈ elements) ∧ l ≠ [] := by
      rcases buildGroupEntry_shape cm g.2.2 with ⟨l, h1, h2, h3⟩
      refine ⟨l, h1, ?_, h3 hg2.1⟩
      intro x hx
      rcases h2 x hx with ⟨m, hm, rfl⟩
      exact hg2.2 m hm
    unfold groupedStep
    split
    · split
      · exact hst
      · intro g2 hg2m
        rcases List.mem_append.mp hg2m with h1 | h1
        · exact hst g2 h1
        · simp only [List.mem_singleton] at h1
          subst h1
          exact hbge
    · intro g2 hg2m
      rcases List.mem_append.mp hg2m with h1 | h1
      · exact hst g2 h1
      · simp only [List.mem_singleton] at h1
        subst h1
        exact hbge
  · intro g hg
    cases hg

/-! ## Invariants of the master loop and the DFS queue loop -/

theorem getD_some_mem {l : List (Option Element)} {mi : Nat} {master : Element}
    (h : l.getD mi none = some master) : some master ∈ l := by
  induction l generalizing mi with
  | nil => simp [List.getD] at h
  | cons x t ih =>
    cases mi with
    | zero =>
      simp only [List.getD_cons_zero] at h
      rw [h]
      exact List.mem_cons_self _ _
    | succ n =>
      simp only [List.getD_cons_succ] at h
      exact List.mem_cons_of_mem _ (ih h)

theorem mem_set_cases {l : List (Option Element)} {n : Nat} {v x : Option Element}
    (h : x ∈ l.set n v) : x ∈ l ∨ x = v := by
  induction l generalizing n with
  | nil => simp [List.set] at h
  | cons a t ih =>
    cases n with
    | zero =>
      rcases List.mem_cons.mp h with rfl | hx
      · exact Or.inr rfl
      · exact Or.inl (List.mem_cons_of_mem _ hx)
    | succ m =>
      rcases List.mem_cons.mp h with rfl | hx
      · exact Or.inl (List.mem_cons_self _ _)
      · rcases ih hx with h1 | h1
        · exact Or.inl (List.mem_cons_of_mem _ h1)
        · exact Or.inr h1

theorem masterJoinFold_OK {P Q : Element → Prop} {ms : Int} {cm : CMap}
    (hmergeQ : ∀ e0 el, Q e0 → Q el → Q (mergeEl e0 el))
    (hjoin : ∀ master c, P master → P c →
      ∀ q ∈ (Element.join master c (some cm)).data, ¬((q.2.support : Int) < ms) → Q q.2)
    {master : Element} (hmaster : P master) {elems : List (Option Element)}
    (helems : ∀ oe ∈ elems, ∀ e, oe = some e → P e)
    {inner : ElementDict Sequence} (hinner : ∀ e ∈ inner.get_elements, Q e) :
    ∀ e ∈ (masterJoinFold ms cm master elems inner).1.get_elements, Q e := by
  unfold masterJoinFold
  apply foldl_preserve_mem
    (P := fun (acc : ElementDict Sequence × Nat) => ∀ e ∈ acc.1.get_elements, Q e)
    (C := fun oe => ∀ e, oe = some e → P e) elems helems
  · intro acc cur hcur hacc
    cases cur with
    | none => exact hacc
    | some c =>
      apply foldl_preserve_mem
        (P := fun (acc2 : ElementDict Sequence × Nat) => ∀ e ∈ acc2.1.get_elements, Q e)
        (C := fun q => q ∈ (Element.join master c (some cm)).data) _ (fun q hq => hq)
      · intro acc2 q hq hacc2
        unfold masterInnerStep
        by_cases hsup : (q.2.support : Int) < ms
        · rw [if_pos hsup]
          exact hacc2
        · rw [if_neg hsup]
          exact update_OK hmergeQ hacc2 (hjoin master c hmaster (hcur c rfl) q hq hsup)
      · exact hacc
  · exact hinner

theorem processMasters_OK {P Q : Element → Prop} {ms : Int} {cm : CMap}
    {pool : ElementDict FKey}
    (hmergeQ : ∀ e0 el, Q e0 → Q el → Q (mergeEl e0 el))
    (hjoin : ∀ master c, P master → P c →
      ∀ q ∈ (Element.join master c (some cm)).data, ¬((q.2.support : Int) < ms) → Q q.2) :
    ∀ (idxs : List Nat) (elems : List (Option Element)) (inner : ElementDict Sequence)
      (masterD : ElementDict Sequence),
      (∀ oe ∈ elems, ∀ e, oe = some e → P e) →
      (∀ e ∈ inner.get_elements, Q e) →
      (∀ e ∈ masterD.get_elements, P e) →
      (∀ e ∈ (processMasters ms cm pool idxs elems inner masterD).2.1.get_elements, Q e)
      ∧ (∀ e ∈ (processMasters ms cm pool idxs elems inner masterD).2.2.get_elements, P e) := by
  intro idxs
  induction idxs with
  | nil => exact fun elems inner masterD _ hinner hmaster => ⟨hinner, hmaster⟩
  | cons mi rest ih =>
    intro elems inner masterD helems hinner hmaster
    show (∀ e ∈ (match elems.getD mi none with
        | none => processMasters ms cm pool rest (elems.set mi none) inner masterD
        | some master => processMasters ms cm pool rest (elems.set mi none)
            (masterJoinFold ms cm master elems inner).1
            (if (masterJoinFold ms cm master elems inner).2 = 0
                ∧ is_maximal_sequence pool master.sequence
             then masterD.set master.sequence master else masterD)).2.1.get_elements, Q e)
      ∧ (∀ e ∈ (match elems.getD mi none with
        | none => processMasters ms cm pool rest (elems.set mi none) inner masterD
        | some master => processMasters ms cm pool rest (elems.set mi none)
            (masterJoinFold ms cm master elems inner).1
            (if (masterJoinFold ms cm master elems inner).2 = 0
                ∧ is_maximal_sequence pool master.sequence
             then masterD.set master.sequence master else masterD)).2.2.get_elements, P e)
    have helems2 : ∀ oe ∈ elems.set mi none, ∀ e, oe = some e → P e := by
      intro oe hoe e hoee
      rcases mem_set_cases hoe with h1 | rfl
      · exact helems oe h1 e hoee
      · cases hoee
    rcases hget : elems.getD mi none with _ | master
    · exact ih (elems.set mi none) inner masterD helems2 hinner hmaster
    · have hmasterP : P master := helems (some master) (getD_some_mem hget) master rfl
      apply ih (elems.set mi none) _ _ helems2
      · exact masterJoinFold_OK hmergeQ hjoin hmasterP helems hinner
      · split
        · intro e he
          rcases mem_get_elements_set he with h1 | rfl
          · exact hmaster e h1
          · exact hmasterP
        · exact hmaster

theorem mem_map_snd {κ κ' : Type} (f : κ → κ') {d : List (κ × Element)} {q : κ' × Element}
    (h : q ∈ d.map (fun p => (f p.1, p.2))) : q.2 ∈ d.map Prod.snd := by
  rcases List.mem_map.mp h with ⟨p, hp, rfl⟩
  exact List.mem_map.mpr ⟨p, hp, rfl⟩

/-- The support floor holds in both dictionaries built by
`generate_frequent_sequences`. -/
theorem generate_suppOK (ds : Dataset) (ms : Int) (ml : Option Int) :
    (∀ e ∈ (generate_frequent_sequences ds ms ml).1.get_elements, SuppOK ms e)
    ∧ (∀ e ∈ (generate_frequent_sequences ds ms ml).2.1.get_elements, SuppOK ms e) := by
  have hfreq1 : ∀ e ∈ (buildFreq1 (buildVertical ds).1 ms).get_elements, SuppOK ms e := by
    intro e he
    exact freq1_support (buildVertical_wf ds)
      ((buildFreq1_spec (buildVertical ds).1 ms).2 e he)
  unfold generate_frequent_sequences
  split
  · constructor
    · exact remove_fold_OK hfreq1 _
    · exact generate2_suppOK _ _ _
  · constructor
    · exact hfreq1
    · intro e he
      simp [ElementDict.empty, ElementDict.get_elements] at he

/-- The support floor is maintained by the whole DFS queue loop. -/
theorem enumLoop_suppOK (ms : Int) (cm : CMap) (ml tn : Option Int) :
    ∀ (fuel : Nat) (queue : List GroupData) (pool : ElementDict FKey),
      (∀ g ∈ queue, ∀ oe ∈ g.elements, ∀ e, oe = some e → SuppOK ms e) →
      (∀ e ∈ pool.get_elements, SuppOK ms e) →
      ∀ e ∈ (enumLoop ms cm ml tn fuel queue pool).get_elements, SuppOK ms e := by
  intro fuel
  induction fuel with
  | zero => exact fun queue pool _ hpool => hpool
  | succ fuel ih =>
    intro queue pool hq hpool
    cases queue with
    | nil => exact hpool
    | cons g rest =>
      have hpm := @processMasters_OK (SuppOK ms) (SuppOK ms) ms cm pool
        (fun e0 el h0 _ => suppOK_mergeEl h0 el)
        (fun _ _ _ _ q _ hsup => le_of_not_lt hsup)
        g.idx g.elements (ElementDict.empty _) (ElementDict.empty _)
        (hq g (List.mem_cons_self _ _))
        (by intro e he; simp [ElementDict.empty, ElementDict.get_elements] at he)
        (by intro e he; simp [ElementDict.empty, ElementDict.get_elements] at he)
      have hinner : ∀ e ∈ (pmOf ms cm pool g).2.1.get_elements, SuppOK ms e := hpm.1
      have hmasterD : ∀ e ∈ (pmOf ms cm pool g).2.2.get_elements, SuppOK ms e := hpm.2
      have hqp2 : ∀ e ∈ (enumQP ms cm ml tn pool g).2.get_elements, SuppOK ms e := by
        unfold enumQP
        split
        · exact hpool
        · split
          · unfold innerPromotePool
            have hpi := @promoteInner_OK (SuppOK ms) (SuppOK ms) pool
              (pmOf ms cm pool g).2.1 hinner hpool
            apply add_elements_OK (fun e0 el h0 _ => suppOK_mergeEl h0 el) hpi.2
            intro q hqm
            exact hpi.1 q.2 (mem_map_snd _ hqm)
          · exact hpool
      have hpool2 : ∀ e ∈ (enumPool2 ms cm ml tn pool g).get_elements, SuppOK ms e := by
        unfold enumPool2
        split
        · apply add_elements_OK (fun e0 el h0 _ => suppOK_mergeEl h0 el) hqp2
          intro q hqm
          exact hmasterD q.2 (mem_map_snd _ hqm)
        · exact hqp2
      apply ih _ _ _ hpool2
      intro g2 hg2 oe hoe e hoee
      rcases List.mem_append.mp hg2 with h1 | h1
      · revert hoe
        unfold enumQP at h1
        split at h1
        · rcases grouped_shape cm (pmOf ms cm pool g).2.1.get_elements g2 h1 with
            ⟨l, hl, hlm, _⟩
          rw [hl]
          intro hoe
          rcases List.mem_map.mp hoe with ⟨x, hx, hxe⟩
          exact (Option.some.inj (hxe.trans hoee)) ▸ hinner x (hlm x hx)
        · split at h1
          · cases h1
          · cases h1
      · exact hq g2 (List.mem_cons_of_mem _ h1) oe hoe e hoee

/-- The support floor holds in the final frequent pool. -/
theorem execPool2_suppOK (ds : Dataset) (ms : Int) (ml tn : Option Int) (fuel : Nat) :
    ∀ e ∈ (execPool2 ds ms ml tn fuel).get_elements, SuppOK ms e := by
  have hpool1 : ∀ e ∈ (execPool1 ds ms ml tn fuel).get_elements, SuppOK ms e := by
    unfold execPool1
    split
    · apply enumLoop_suppOK
      · intro g hg oe hoe e hoee
        rcases grouped_shape _ _ g hg with ⟨l, hl, hlm, _⟩
        rw [hl] at hoe
        rcases List.mem_map.mp hoe with ⟨x, hx, hxe⟩
        exact (Option.some.inj (hxe.trans hoee)) ▸ (generate_suppOK ds ms ml).2 x (hlm x hx)
      · intro e he
        simp [ElementDict.empty, ElementDict.get_elements] at he
    · intro e he
      simp [ElementDict.empty, ElementDict.get_elements] at he
  unfold execPool2
  split
  · apply add_elements_OK (fun e0 el h0 _ => suppOK_mergeEl h0 el) hpool1
    intro q hqm
    exact (generate_suppOK ds ms ml).1 q.2 (mem_map_snd _ hqm)
  · exact hpool1

/-- C2: for every dataset and every positive minimum support, every
element returned by a successful `execute` has support (distinct-sid
count of its id-list) at least the minimum support. -/
theorem execute_support_floor (ds : Dataset) (s : Int) (hpos : 0 < s) (sortf : Bool)
    (ml tn : Option Int) (fuel : Nat) (out : List Element)
    (hexec : SPADEm.execute ds (some s) sortf ml tn fuel = Except.ok out) :
    ∀ e ∈ out, s ≤ (e.support : Int) := by
  unfold SPADEm.execute at hexec
  split at hexec
  · cases hexec
  · cases hexec
    intro e he
    have hmem : e ∈ (execPool2 ds ((some s).getD 0) ml tn fuel).get_elements := by
      by_cases hsort : sortf = true
      · rw [hsort] at he
        simp only [if_pos rfl] at he
        exact (mem_pySortByKey _ _ _ e).mp he
      · rw [Bool.not_eq_true] at hsort
        rw [hsort] at he
        simpa using he
    exact execPool2_suppOK ds _ ml tn fuel e hmem

/-- Witness for `execute_support_floor` on the scenario-1 dataset. -/
theorem execute_support_floor_witness :
    (0 : Int) < 2
    ∧ SPADEm.execute dsS1 (some 2) false none none 32 = Except.ok s1out
    ∧ ∀ e ∈ s1out, (2 : Int) ≤ (e.support : Int) :=
  ⟨by decide, by rfl,
   execute_support_floor dsS1 2 (by decide) false none none 32 s1out (by rfl)⟩

/-! ## Pattern-length accounting (claim C5)

The canonical sequence of an element carries exactly `sequence_length`
item occurrences; joins grow that count by one; the DFS queue carries
classes of a uniform length strictly below `max_length`. -/

/-- The Python default `prefix or ((),)` is never the empty sequence. -/
theorem pyPfxOrDefault_ne_nil (p : Option Sequence) : pyPfxOrDefault p ≠ [] := by
  rcases p with _ | q
  · simp [pyPfxOrDefault]
  · show (if q = [] then [[]] else q) ≠ []
    by_cases hq : q = []
    · rw [if_pos hq]
      simp
    · rw [if_neg hq]
      exact hq

/-- `prefix or ((),)` and `prefix or ()` hold the same item occurrences
(the extra itemset of the default is empty). -/
theorem itemCount_pyPfxOrDefault (p : Option Sequence) :
    itemCount (pyPfxOrDefault p) = itemCount (pyPfxOrEmpty p) := by
  rcases p with _ | q
  · rfl
  · show itemCount (if q = [] then [[]] else q) = itemCount q
    by_cases hq : q = []
    · rw [if_pos hq, hq]
      rfl
    · rw [if_neg hq]

/-- Appending one item to the last itemset adds one to the item count. -/
theorem itemCount_event_append (i : Item) : ∀ (p : Sequence), p ≠ [] →
    itemCount (p.dropLast ++ [p.getLastD [] ++ [i]]) = itemCount p + 1 := by
  intro p
  unfold itemCount
  induction p with
  | nil => intro h; exact absurd rfl h
  | cons a t ih =>
    intro _
    cases t with
    | nil => simp
    | cons b t2 =>
      have ih2 := ih (by simp)
      rw [List.dropLast_cons₂]
      have hgl : (a :: b :: t2).getLastD [] = (b :: t2).getLastD [] := by
        rw [List.getLastD_eq_getLast?, List.getLastD_eq_getLast?]
        rcases hx : (b :: t2).getLast? with _ | x
        · rw [List.getLast?_eq_none_iff] at hx
          cases hx
        · simp [List.getLast?_cons_cons, hx]
      rw [hgl]
      simp only [List.cons_append, List.map_cons, List.sum_cons]
      rw [ih2]
      simp only [List.map_cons, List.sum_cons]
      omega

/-- `generate_sequence` adds exactly one item occurrence to the prefix. -/
theorem itemCount_generate_sequence (i : Item) (pfx : Option Sequence) (b : Bool) :
    itemCount (Element.generate_sequence i pfx b)
      = itemCount (pyPfxOrDefault pfx) + 1 := by
  cases b with
  | true =>
    show itemCount (pyPfxOrDefault pfx ++ [[i]]) = _
    unfold itemCount
    simp
  | false =>
    show itemCount ((pyPfxOrDefault pfx).dropLast
        ++ [(pyPfxOrDefault pfx).getLastD [] ++ [i]]) = _
    exact itemCount_event_append i _ (pyPfxOrDefault_ne_nil pfx)

/-- The canonical sequence of an element has exactly `sequence_length`
item occurrences: the spec's pattern length is `sequence_length`. -/
theorem itemCount_sequence (e : Element) : itemCount e.sequence = e.sequence_length := by
  unfold Element.sequence Element.sequence_length
  rw [itemCount_generate_sequence, itemCount_pyPfxOrDefault]
  rfl

/-- Merging id-lists never changes the pattern length. -/
theorem sequence_length_mergeEl (e0 el : Element) :
    (mergeEl e0 el).sequence_length = e0.sequence_length := rfl

/-- Adding one witness never changes the pattern length. -/
theorem sequence_length_addEv (e0 : Element) (sid : Int) (eid : Nat) :
    (addEv e0 sid eid).sequence_length = e0.sequence_length := rfl

/-- Every atom produced by `joinAtom` extends the canonical sequence of
one of the two joined elements. -/
theorem joinAtom_pfx {a b : Element} {p q : Event} {o : Item × Sequence × Nat × Nat}
    (h : joinAtom a b p q = some o) : o.2.1 = a.sequence ∨ o.2.1 = b.sequence := by
  unfold joinAtom at h
  split at h
  · cases h
  · split at h
    · split at h
      · cases h
      · split at h
        · cases h
          exact Or.inl rfl
        · cases h
          exact Or.inr rfl
    · split at h
      · split at h
        · cases h
        · cases h
          exact Or.inl rfl
      · split at h
        · cases h
        · cases h
          exact Or.inr rfl

theorem joinStep_eq_none {a b : Element} {p q : Event}
    (h : joinAtom a b p q = none) (out : ElementDict Sequence) :
    joinStep a b p q out = out := by
  unfold joinStep
  rw [h]

theorem joinStep_eq_some {a b : Element} {p q : Event} {o : Item × Sequence × Nat × Nat}
    (h : joinAtom a b p q = some o) (out : ElementDict Sequence) :
    joinStep a b p q out =
      (if out.containsKey (atomSeq o) then out
       else out.set (atomSeq o) (atomElem o)).add_event (atomSeq o) p.sid o.2.2.2 := by
  unfold joinStep
  rw [h]

/-- Every element of a join result is built from atom contributions by
witness additions: any property of the fresh atom elements that survives
`add_event` holds of all join values. -/
theorem join_values {R : Element → Prop} (a b : Element) (cm : Option CMap)
    (haddev : ∀ e0 sid eid, R e0 → R (addEv e0 sid eid))
    (hnew : ∀ p q o, joinAtom a b p q = some o → R (atomElem o)) :
    ∀ e ∈ (Element.join a b cm).get_elements, R e := by
  unfold Element.join
  split
  · intro e he
    simp [ElementDict.empty, ElementDict.get_elements] at he
  · apply foldl_preserve (P := fun (d : ElementDict Sequence) => ∀ e ∈ d.get_elements, R e)
    · intro d p hd
      unfold joinInner
      apply foldl_preserve (P := fun (d2 : ElementDict Sequence) => ∀ e ∈ d2.get_elements, R e)
      · intro d2 q hd2
        rcases hatom : joinAtom a b p q with _ | o
        · rw [joinStep_eq_none hatom]
          exact hd2
        · rw [joinStep_eq_some hatom]
          have hbase : ∀ e ∈ (if d2.containsKey (atomSeq o) then d2
              else d2.set (atomSeq o) (atomElem o)).get_elements, R e := by
            split
            · exact hd2
            · intro e he
              rcases mem_get_elements_set he with h1 | rfl
              · exact hd2 e h1
              · exact hnew p q o hatom
          intro e he
          rcases mem_get_elements_add_event he with h1 | ⟨e0, he0, rfl⟩
          · exact hbase e h1
          · exact haddev e0 _ _ (hbase e0 he0)
      · exact hd
    · intro e he
      simp [ElementDict.empty, ElementDict.get_elements] at he

/-- Joining two elements of pattern length `k` yields elements of
pattern length `k + 1`. -/
theorem join_values_len (a b : Element) (cm : Option CMap) (k : Nat)
    (ha : a.sequence_length = k) (hb : b.sequence_length = k) :
    ∀ e ∈ (Element.join a b cm).get_elements, e.sequence_length = k + 1 := by
  apply join_values
  · intro e0 sid eid h0
    rw [sequence_length_addEv]
    exact h0
  · intro p q o hatom
    have hlen : (atomElem o).sequence_length = itemCount o.2.1 + 1 := rfl
    rcases joinAtom_pfx hatom with hp | hp
    · rw [hlen, hp, itemCount_sequence, ha]
    · rw [hlen, hp, itemCount_sequence, hb]

/-- Every frequent 1-sequence element has pattern length 1. -/
theorem freq1Spec_len {idl : IdLists} {ms : Int} {e : Element}
    (h : Freq1Spec idl ms e) : e.sequence_length = 1 := by
  rcases h with ⟨p, _, _, _, hpfx, _⟩
  unfold Element.sequence_length
  rw [hpfx]
  rfl

/-- The 1-element lookups of `generate_frequent_sequences` always yield
pattern length 1 (present key or default alike). -/
theorem freq1_getD_len (freq1 : ElementDict Item)
    (h1 : ∀ e ∈ freq1.get_elements, e.sequence_length = 1) (it : Item) :
    ((freq1.get it).getD (mkElement it none UNKNOWN_ATOM_TYPE)).sequence_length = 1 := by
  rcases hg : freq1.get it with _ | e
  · rfl
  · exact h1 e (mem_of_get hg)

theorem generate2Inner_len {ms : Int} {acc2 : ElementDict Sequence × CMap × Nat} {k : Nat}
    (hacc2 : ∀ e ∈ acc2.1.get_elements, e.sequence_length = k) {q : Sequence × Element}
    (hq : q.2.sequence_length = k) :
    ∀ e ∈ (generate2Inner ms acc2 q).1.get_elements, e.sequence_length = k := by
  unfold generate2Inner
  split
  · exact hacc2
  · exact update_OK (fun e0 el h0 _ => (sequence_length_mergeEl e0 el).trans h0) hacc2 hq

theorem generate2Step_len {freq1 : ElementDict Item} {ms : Int}
    {acc : ElementDict Sequence × CMap × List Item}
    (h1 : ∀ it, ((freq1.get it).getD (mkElement it none UNKNOWN_ATOM_TYPE)).sequence_length = 1)
    (hacc : ∀ e ∈ acc.1.get_elements, e.sequence_length = 2) (pr : Item × Item) :
    ∀ e ∈ (generate2Step freq1 ms acc pr).1.get_elements, e.sequence_length = 2 := by
  have hjoin := join_values_len ((freq1.get pr.1).getD (mkElement pr.1 none UNKNOWN_ATOM_TYPE))
    ((freq1.get pr.2).getD (mkElement pr.2 none UNKNOWN_ATOM_TYPE)) none 1 (h1 pr.1) (h1 pr.2)
  have he : (generate2Step freq1 ms acc pr).1 =
      ((Element.join ((freq1.get pr.1).getD (mkElement pr.1 none UNKNOWN_ATOM_TYPE))
        ((freq1.get pr.2).getD (mkElement pr.2 none UNKNOWN_ATOM_TYPE)) none).data.foldl
        (generate2Inner ms) (acc.1, acc.2.1, 0)).1 := rfl
  rw [he]
  apply foldl_preserve_mem
    (P := fun (acc2 : ElementDict Sequence × CMap × Nat) =>
      ∀ e ∈ acc2.1.get_elements, e.sequence_length = 2)
    (C := fun (q : Sequence × Element) =>
      q ∈ (Element.join ((freq1.get pr.1).getD (mkElement pr.1 none UNKNOWN_ATOM_TYPE))
        ((freq1.get pr.2).getD (mkElement pr.2 none UNKNOWN_ATOM_TYPE)) none).data)
    _ (fun q hq => hq)
  · intro acc2 q hq hacc2
    exact generate2Inner_len hacc2 (hjoin q.2 (List.mem_map.mpr ⟨q, hq, rfl⟩))
  · exact hacc

/-- Every frequent 2-sequence element has pattern length 2. -/
theorem generate2_len (freq1 : ElementDict Item) (pairs : List (Item × Item)) (ms : Int)
    (h1 : ∀ it, ((freq1.get it).getD (mkElement it none UNKNOWN_ATOM_TYPE)).sequence_length = 1) :
    ∀ e ∈ (generate2 freq1 pairs ms).1.get_elements, e.sequence_length = 2 := by
  unfold generate2
  apply foldl_preserve
    (P := fun (acc : ElementDict Sequence × CMap × List Item) =>
      ∀ e ∈ acc.1.get_elements, e.sequence_length = 2)
  · intro acc pr hacc
    exact generate2Step_len h1 hacc pr
  · intro e he
    simp [ElementDict.empty, ElementDict.get_elements] at he

/-- The two dictionaries built by `generate_frequent_sequences` hold
pattern lengths 1 and 2 respectively. -/
theorem generate_len (ds : Dataset) (ms : Int) (ml : Option Int) :
    (∀ e ∈ (generate_frequent_sequences ds ms ml).1.get_elements, e.sequence_length = 1)
    ∧ (∀ e ∈ (generate_frequent_sequences ds ms ml).2.1.get_elements, e.sequence_length = 2) := by
  have hfreq1 : ∀ e ∈ (buildFreq1 (buildVertical ds).1 ms).get_elements,
      e.sequence_length = 1 :=
    fun e he => freq1Spec_len ((buildFreq1_spec (buildVertical ds).1 ms).2 e he)
  have hgetD := freq1_getD_len _ hfreq1
  unfold generate_frequent_sequences
  split
  · exact ⟨remove_fold_OK hfreq1 _, generate2_len _ _ _ hgetD⟩
  · refine ⟨hfreq1, ?_⟩
    intro e he
    simp [ElementDict.empty, ElementDict.get_elements] at he

/-- C5 queue invariant: a work-queue entry holds live elements of one
uniform pattern length `k` strictly below the length bound, and starts
with a live element. -/
def GroupLen (L : Int) (g : GroupData) : Prop :=
  ∃ k : Nat, (k : Int) < L
    ∧ (∀ oe ∈ g.elements, ∀ e, oe = some e → e.sequence_length = k)
    ∧ ∃ e0 rest, g.elements = some e0 :: rest

theorem currentLenOf_of_shape {g : GroupData} {k : Nat} {e0 : Element}
    {rest : List (Option Element)} (hshape : g.elements = some e0 :: rest)
    (huni : ∀ oe ∈ g.elements, ∀ e, oe = some e → e.sequence_length = k) :
    currentLenOf g.elements = k := by
  have hm : some e0 ∈ g.elements := by
    rw [hshape]
    exact List.mem_cons_self _ _
  rw [hshape]
  show e0.sequence_length = k
  exact huni (some e0) hm e0 rfl

/-- The pattern-length bound is maintained by the whole DFS queue loop:
queue classes stay uniform and strictly below the bound, and everything
promoted into the pool respects it. -/
theorem enumLoop_lenOK (ms : Int) (cm : CMap) (L : Int) (tn : Option Int) :
    ∀ (fuel : Nat) (queue : List GroupData) (pool : ElementDict FKey),
      (∀ g ∈ queue, GroupLen L g) →
      (∀ e ∈ pool.get_elements, (e.sequence_length : Int) ≤ L) →
      ∀ e ∈ (enumLoop ms cm (some L) tn fuel queue pool).get_elements,
        (e.sequence_length : Int) ≤ L := by
  intro fuel
  induction fuel with
  | zero => exact fun queue pool _ hpool => hpool
  | succ fuel ih =>
    intro queue pool hq hpool
    cases queue with
    | nil => exact hpool
    | cons g rest =>
      rcases hq g (List.mem_cons_self _ _) with ⟨k, hkL, huni, e0, rest0, hshape⟩
      have hcur : currentLenOf g.elements = k := currentLenOf_of_shape hshape huni
      have hpm := @processMasters_OK (fun e => e.sequence_length = k)
        (fun e => e.sequence_length = k + 1) ms cm pool
        (fun e1 el h0 _ => (sequence_length_mergeEl e1 el).trans h0)
        (fun master c hm hc q hqm _ =>
          join_values_len master c (some cm) k hm hc q.2 (List.mem_map.mpr ⟨q, hqm, rfl⟩))
        g.idx g.elements (ElementDict.empty _) (ElementDict.empty _)
        huni
        (by intro e he; simp [ElementDict.empty, ElementDict.get_elements] at he)
        (by intro e he; simp [ElementDict.empty, ElementDict.get_elements] at he)
      have hinner : ∀ e ∈ (pmOf ms cm pool g).2.1.get_elements, e.sequence_length = k + 1 :=
        hpm.1
      have hmasterD : ∀ e ∈ (pmOf ms cm pool g).2.2.get_elements, e.sequence_length = k :=
        hpm.2
      have hqp2 : ∀ e ∈ (enumQP ms cm (some L) tn pool g).2.get_elements,
          (e.sequence_length : Int) ≤ L := by
        unfold enumQP
        split
        · exact hpool
        · split
          · unfold innerPromotePool
            have hpi := @promoteInner_OK (fun e => e.sequence_length = k + 1)
              (fun e => (e.sequence_length : Int) ≤ L) pool
              (pmOf ms cm pool g).2.1 hinner hpool
            apply add_elements_OK
              (fun e1 el h0 _ => by rw [show (mergeEl e1 el).sequence_length = e1.sequence_length from rfl]; exact h0)
              hpi.2
            intro q hqm
            have hq2 := hpi.1 q.2 (mem_map_snd _ hqm)
            rw [hq2]
            push_cast
            omega
          · exact hpool
      have hpool2 : ∀ e ∈ (enumPool2 ms cm (some L) tn pool g).get_elements,
          (e.sequence_length : Int) ≤ L := by
        unfold enumPool2
        split
        · apply add_elements_OK
            (fun e1 el h0 _ => by rw [show (mergeEl e1 el).sequence_length = e1.sequence_length from rfl]; exact h0)
            hqp2
          intro q hqm
          have hq2 := hmasterD q.2 (mem_map_snd _ hqm)
          rw [hq2]
          omega
        · exact hqp2
      apply ih _ _ _ hpool2
      intro g2 hg2
      rcases List.mem_append.mp hg2 with h1 | h1
      · revert h1
        unfold enumQP
        split
        · next hcond =>
          intro h1
          have hne : ((k : Int) + 1) ≠ L := by
            have h2 := hcond.2
            rw [hcur] at h2
            simpa [pyNeOptInt] using h2
          rcases grouped_shape cm (pmOf ms cm pool g).2.1.get_elements g2 h1 with
            ⟨l, hl, hlm, hlne⟩
          refine ⟨k + 1, by push_cast; omega, ?_, ?_⟩
          · intro oe hoe e hoee
            rw [hl] at hoe
            rcases List.mem_map.mp hoe with ⟨x, hx, hxe⟩
            exact (Option.some.inj (hxe.trans hoee)) ▸ hinner x (hlm x hx)
          · rcases hx : l with _ | ⟨x, l2⟩
            · exact absurd hx hlne
            · exact ⟨x, l2.map some, by rw [hl, hx]; rfl⟩
        · split
          · intro h1
            cases h1
          · intro h1
            cases h1
      · exact hq g2 (List.mem_cons_of_mem _ h1)

/-- The pattern-length bound holds after the optional DFS enumeration. -/
theorem execPool1_lenOK (ds : Dataset) (ms : Int) (L : Int) (tn : Option Int) (fuel : Nat) :
    ∀ e ∈ (execPool1 ds ms (some L) tn fuel).get_elements, (e.sequence_length : Int) ≤ L := by
  unfold execPool1
  split
  · next hcond =>
    have hL2 : (2 : Int) < L := by
      have h2 := hcond.2
      simpa [pyMlGt2] using h2
    apply enumLoop_lenOK
    · intro g hg
      rcases grouped_shape _ _ g hg with ⟨l, hl, hlm, hlne⟩
      refine ⟨2, by exact_mod_cast hL2, ?_, ?_⟩
      · intro oe hoe e hoee
        rw [hl] at hoe
        rcases List.mem_map.mp hoe with ⟨x, hx, hxe⟩
        exact (Option.some.inj (hxe.trans hoee)) ▸ (generate_len ds ms (some L)).2 x (hlm x hx)
      · rcases hx : l with _ | ⟨x, l2⟩
        · exact absurd hx hlne
        · exact ⟨x, l2.map some, by rw [hl, hx]; rfl⟩
    · intro e he
      simp [ElementDict.empty, ElementDict.get_elements] at he
  · intro e he
    simp [ElementDict.empty, ElementDict.get_elements] at he

/-- The pattern-length bound holds in the final frequent pool whenever
the bound is at least 1 (covering the remaining 1-sequences). -/
theorem execPool2_lenOK (ds : Dataset) (ms : Int) (L : Int) (hL : 1 ≤ L) (tn : Option Int)
    (fuel : Nat) :
    ∀ e ∈ (execPool2 ds ms (some L) tn fuel).get_elements, (e.sequence_length : Int) ≤ L := by
  unfold execPool2
  split
  · apply add_elements_OK
      (fun e1 el h0 _ => by rw [show (mergeEl e1 el).sequence_length = e1.sequence_length from rfl]; exact h0)
      (execPool1_lenOK ds ms L tn fuel)
    intro q hqm
    have hq1 := (generate_len ds ms (some L)).1 q.2 (mem_map_snd _ hqm)
    rw [hq1]
    omega
  · exact execPool1_lenOK ds ms L tn fuel

/-- C5 (amended from the counterexample at `max_length = 0`): for every
dataset, minimum support, and `max_length = L` with `1 ≤ L`, every
element returned by a successful `execute` has pattern length (total
item occurrences of its canonical sequence) at most `L`. -/
theorem execute_length_bound (ds : Dataset) (msv : Option Int) (sortf : Bool) (L : Int)
    (hL : 1 ≤ L) (tn : Option Int) (fuel : Nat) (out : List Element)
    (hexec : SPADEm.execute ds msv sortf (some L) tn fuel = Except.ok out) :
    ∀ e ∈ out, (itemCount e.sequence : Int) ≤ L := by
  unfold SPADEm.execute at hexec
  split at hexec
  · cases hexec
  · cases hexec
    intro e he
    rw [itemCount_sequence]
    have hmem : e ∈ (execPool2 ds (msv.getD 0) (some L) tn fuel).get_elements := by
      by_cases hsort : sortf = true
      · rw [hsort] at he
        simp only [if_pos rfl] at he
        exact (mem_pySortByKey _ _ _ e).mp he
      · rw [Bool.not_eq_true] at hsort
        rw [hsort] at he
        simpa using he
    exact execPool2_lenOK ds _ L hL tn fuel e hmem

/-- `execute` output on scenario 1 with `min_support = 2` and
`max_length = 3`. -/
def s1outMl3 : List Element :=
  ((SPADEm.execute dsS1 (some 2) false (some 3) none 32).toOption).getD []

/-- Witness for `execute_length_bound` on the scenario-1 dataset with
`max_length = 3`. -/
theorem execute_length_bound_witness :
    (1 : Int) ≤ 3
    ∧ SPADEm.execute dsS1 (some 2) false (some 3) none 32 = Except.ok s1outMl3
    ∧ ∀ e ∈ s1outMl3, (itemCount e.sequence : Int) ≤ 3 :=
  ⟨by decide, by rfl,
   execute_length_bound dsS1 (some 2) false 3 (by decide) none 32 s1outMl3 (by rfl)⟩

/-! ## Commutativity of the temporal join (claim C6)

`joinAtom` is symmetric under swapping both the elements and the witness
pair, and each contribution adds the same `(key, sid, eid)` either way;
the two folds differ only in the order the contributions arrive, so they
build the same keys, each holding the same set of witnesses.  Since
`id_list` is a Python `set` (element.py:48), equality of witness sets is
equality of id-lists; the embedding's lists record insertion order,
which the joins need not share, so the source's set equality is stated
as two-way membership. -/

/-- Swapping both the elements and the pair leaves the atom unchanged. -/
theorem joinAtom_swap (a b : Element) (p q : Event) :
    joinAtom b a q p = joinAtom a b p q := by
  unfold joinAtom
  by_cases hsid : p.sid = q.sid
  · have h1 : ¬(q.sid ≠ p.sid) := fun h => h hsid.symm
    have h2 : ¬(p.sid ≠ q.sid) := fun h => h hsid
    rw [if_neg h1, if_neg h2]
    by_cases heid : p.eid = q.eid
    · rw [if_pos heid.symm, if_pos heid]
      by_cases hck : a.conn_type ≠ b.conn_type ∨ a.key_item = b.key_item
      · have hck' : b.conn_type ≠ a.conn_type ∨ b.key_item = a.key_item := by
          rcases hck with h | h
          · exact Or.inl (Ne.symm h)
          · exact Or.inr h.symm
        rw [if_pos hck', if_pos hck]
      · have hconj := hck
        push_neg at hck
        have hck' : ¬(b.conn_type ≠ a.conn_type ∨ b.key_item = a.key_item) := by
          push_neg
          exact ⟨hck.1.symm, fun h => hck.2 h.symm⟩
        rw [if_neg hck', if_neg hconj]
        rcases lt_or_gt_of_ne hck.2 with hlt | hgt
        · rw [if_neg (asymm hlt), if_pos hlt, heid]
        · rw [if_pos hgt, if_neg (asymm hgt), heid]
    · have heid' : ¬(q.eid = p.eid) := fun h => heid h.symm
      rw [if_neg heid', if_neg heid]
      rcases Nat.lt_or_ge p.eid q.eid with hlt | hge
      · have hnot : ¬(q.eid < p.eid) := by omega
        rw [if_neg hnot, if_pos hlt]
      · have hlt2 : q.eid < p.eid := by omega
        have hnot : ¬(p.eid < q.eid) := by omega
        rw [if_pos hlt2, if_neg hnot]
  · rw [if_pos (Ne.symm hsid), if_pos hsid]

/-- A produced atom forces the two witnesses to share their sid. -/
theorem joinAtom_sid {a b : Element} {p q : Event} {o : Item × Sequence × Nat × Nat}
    (h : joinAtom a b p q = some o) : p.sid = q.sid := by
  unfold joinAtom at h
  by_cases hs : p.sid ≠ q.sid
  · rw [if_pos hs] at h
    cases h
  · exact not_not.mp hs

/-- The cmap pruning test is symmetric in its two elements. -/
theorem joinSkipByCmap_swap (a b : Element) (cm : Option CMap) :
    joinSkipByCmap b a cm = joinSkipByCmap a b cm := by
  cases cm with
  | none => rfl
  | some c =>
    have hred : ∀ x y : Element, joinSkipByCmap x y (some c) =
        (if c = [] then false
         else if x.conn_type = EVENT_ATOM_TYPE ∧ y.conn_type = EVENT_ATOM_TYPE then
           decide (x.key_item = y.key_item)
           || (decide (x.key_item < y.key_item)
               && !cmapHasEv c x.key_item y.key_item)
           || (decide (y.key_item < x.key_item)
               && !cmapHasEv c y.key_item x.key_item)
         else if x.conn_type = SEQUENCE_ATOM_TYPE ∧ y.conn_type = EVENT_ATOM_TYPE then
           !cmapHasSq c y.key_item x.key_item
         else if y.conn_type = SEQUENCE_ATOM_TYPE ∧ x.conn_type = EVENT_ATOM_TYPE then
           !cmapHasSq c x.key_item y.key_item
         else false) :=
      fun x y => rfl
    rw [hred, hred]
    by_cases hc : c = []
    · rw [if_pos hc, if_pos hc]
    · rw [if_neg hc, if_neg hc]
      by_cases h1 : a.conn_type = EVENT_ATOM_TYPE ∧ b.conn_type = EVENT_ATOM_TYPE
      · rw [if_pos (⟨h1.2, h1.1⟩ : b.conn_type = EVENT_ATOM_TYPE
          ∧ a.conn_type = EVENT_ATOM_TYPE), if_pos h1]
        by_cases hk : a.key_item = b.key_item
        · simp [hk]
        · rcases lt_or_gt_of_ne hk with hlt | hgt
          · rw [decide_eq_false (fun h => hk (Eq.symm h)), decide_eq_false hk,
              decide_eq_false (asymm hlt), decide_eq_true hlt]
            simp
          · rw [decide_eq_false (fun h => hk (Eq.symm h)), decide_eq_false hk,
              decide_eq_true hgt, decide_eq_false (asymm hgt)]
            simp
      · have h1' : ¬(b.conn_type = EVENT_ATOM_TYPE ∧ a.conn_type = EVENT_ATOM_TYPE) :=
          fun h => h1 ⟨h.2, h.1⟩
        rw [if_neg h1', if_neg h1]
        by_cases h2 : a.conn_type = SEQUENCE_ATOM_TYPE ∧ b.conn_type = EVENT_ATOM_TYPE
        · have hb2 : ¬(b.conn_type = SEQUENCE_ATOM_TYPE ∧ a.conn_type = EVENT_ATOM_TYPE) := by
            rintro ⟨hbs, _⟩
            rw [h2.2] at hbs
            exact absurd hbs (by decide)
          rw [if_neg hb2, if_pos (⟨h2.1, h2.2⟩ : a.conn_type = SEQUENCE_ATOM_TYPE
            ∧ b.conn_type = EVENT_ATOM_TYPE), if_pos h2]
        · by_cases h3 : b.conn_type = SEQUENCE_ATOM_TYPE ∧ a.conn_type = EVENT_ATOM_TYPE
          · rw [if_pos h3, if_neg h2, if_pos h3]
          · rw [if_neg h3, if_neg h2, if_neg h2, if_neg h3]

/-- First join operand of the C6 witness. -/
def aC6 : Element := ⟨10, none, 0, [⟨1, 1⟩, ⟨2, 1⟩]⟩

/-- Second join operand of the C6 witness (its witnesses listed in the
opposite sid order, so the two joins insert them differently). -/
def bC6 : Element := ⟨20, none, 0, [⟨2, 2⟩, ⟨1, 2⟩]⟩

/-- A pair of witnesses contributes the key `s` to the join. -/
def KeyContrib (a b : Element) (s : Sequence) (p q : Event) : Prop :=
  ∃ o, joinAtom a b p q = some o ∧ atomSeq o = s

/-- A pair of witnesses contributes the event `ev` under the key `s`. -/
def EvContrib (a b : Element) (s : Sequence) (ev : Event) (p q : Event) : Prop :=
  ∃ o, joinAtom a b p q = some o ∧ atomSeq o = s ∧ ev = ⟨p.sid, o.2.2.2⟩

theorem KeyContrib_of_EvContrib {a b : Element} {s : Sequence} {ev : Event} {p q : Event}
    (h : EvContrib a b s ev p q) : KeyContrib a b s p q := by
  rcases h with ⟨o, h1, h2, _⟩
  exact ⟨o, h1, h2⟩

/-- One `joinStep` adds exactly the pair's contribution: key presence and
id-list membership after the step are those before plus the atom. -/
theorem joinStep_char (a b : Element) (p q : Event) (out : ElementDict Sequence)
    (s : Sequence) (ev : Event) :
    (((joinStep a b p q out).get s).isSome = true ↔
      ((out.get s).isSome = true ∨ KeyContrib a b s p q))
    ∧ ∀ e, (joinStep a b p q out).get s = some e →
      (ev ∈ e.id_list ↔
        (∃ e0, out.get s = some e0 ∧ ev ∈ e0.id_list) ∨ EvContrib a b s ev p q) := by
  rcases hatom : joinAtom a b p q with _ | o
  · rw [joinStep_eq_none hatom]
    constructor
    · constructor
      · exact fun h => Or.inl h
      · rintro (h | ⟨o, ho, _⟩)
        · exact h
        · rw [hatom] at ho
          cases ho
    · intro e he
      constructor
      · exact fun h => Or.inl ⟨e, he, h⟩
      · rintro (⟨e0, he0, h0⟩ | ⟨o, ho, _⟩)
        · obtain rfl := Option.some.inj (he.symm.trans he0)
          exact h0
        · rw [hatom] at ho
          cases ho
  · rw [joinStep_eq_some hatom]
    by_cases hs : s = atomSeq o
    case neg =>
      have hget : ((if out.containsKey (atomSeq o) then out
          else out.set (atomSeq o) (atomElem o)).add_event (atomSeq o) p.sid o.2.2.2).get s
          = out.get s := by
        rw [get_add_event_other _ hs]
        split
        · rfl
        · exact get_set_other _ hs _
      rw [hget]
      have hnck : ¬ KeyContrib a b s p q := by
        rintro ⟨o2, ho2, hso2⟩
        rw [hatom] at ho2
        obtain rfl := Option.some.inj ho2
        exact hs hso2.symm
      have hnce : ¬ EvContrib a b s ev p q := by
        rintro ⟨o2, ho2, hso2, _⟩
        rw [hatom] at ho2
        obtain rfl := Option.some.inj ho2
        exact hs hso2.symm
      constructor
      · constructor
        · exact fun h => Or.inl h
        · rintro (h | h)
          · exact h
          · exact absurd h hnck
      · intro e he
        constructor
        · exact fun h => Or.inl ⟨e, he, h⟩
        · rintro (⟨e0, he0, h0⟩ | h)
          · obtain rfl := Option.some.inj (he.symm.trans he0)
            exact h0
          · exact absurd h hnce
    case pos =>
      subst hs
      rcases hbase : (if out.containsKey (atomSeq o) then out
          else out.set (atomSeq o) (atomElem o)).get (atomSeq o) with _ | ebase
      · exfalso
        revert hbase
        split
        · next hck =>
          intro hbase
          unfold ElementDict.containsKey at hck
          rw [hbase] at hck
          cases hck
        · intro hbase
          rw [get_set_self] at hbase
          cases hbase
      · have hstep : ((if out.containsKey (atomSeq o) then out
            else out.set (atomSeq o) (atomElem o)).add_event (atomSeq o) p.sid o.2.2.2).get
            (atomSeq o) = some (addEv ebase p.sid o.2.2.2) := get_add_event_self hbase _ _
        rw [hstep]
        constructor
        · constructor
          · intro _
            exact Or.inr ⟨o, hatom, rfl⟩
          · intro _
            rfl
        · intro e he
          obtain rfl := Option.some.inj he
          rw [show (addEv ebase p.sid o.2.2.2).id_list
            = insertEvent ebase.id_list ⟨p.sid, o.2.2.2⟩ from rfl, mem_insertEvent]
          revert hbase
          split
          · next hck =>
            intro hbase
            constructor
            · rintro (h | rfl)
              · exact Or.inl ⟨ebase, hbase, h⟩
              · exact Or.inr ⟨o, hatom, rfl, rfl⟩
            · rintro (⟨e0, he0, h0⟩ | ⟨o2, ho2, _, hev⟩)
              · obtain rfl := Option.some.inj (hbase.symm.trans he0)
                exact Or.inl h0
              · rw [hatom] at ho2
                obtain rfl := Option.some.inj ho2
                exact Or.inr hev
          · next hck =>
            intro hbase
            rw [get_set_self] at hbase
            obtain rfl := Option.some.inj hbase
            have hout : out.get (atomSeq o) = none := by
              unfold ElementDict.containsKey at hck
              rcases hx : out.get (atomSeq o) with _ | e2
              · rfl
              · rw [hx] at hck
                simp at hck
            constructor
            · rintro (h | rfl)
              · simp [atomElem, mkElement] at h
              · exact Or.inr ⟨o, hatom, rfl, rfl⟩
            · rintro (⟨e0, he0, h0⟩ | ⟨o2, ho2, _, hev⟩)
              · rw [hout] at he0
                cases he0
              · rw [hatom] at ho2
                obtain rfl := Option.some.inj ho2
                exact Or.inr hev

/-- The inner join loop accumulates exactly the contributions of its
pair list. -/
theorem joinInner_char (a b : Element) (p : Event) (pairs_j : List Event) (s : Sequence)
    (ev : Event) : ∀ (out : ElementDict Sequence),
    (((joinInner a b p pairs_j out).get s).isSome = true ↔
      ((out.get s).isSome = true ∨ ∃ q ∈ pairs_j, KeyContrib a b s p q))
    ∧ ∀ e, (joinInner a b p pairs_j out).get s = some e →
      (ev ∈ e.id_list ↔
        (∃ e0, out.get s = some e0 ∧ ev ∈ e0.id_list)
        ∨ ∃ q ∈ pairs_j, EvContrib a b s ev p q) := by
  induction pairs_j with
  | nil =>
    intro out
    constructor
    · constructor
      · exact fun h => Or.inl h
      · rintro (h | ⟨q, hq, _⟩)
        · exact h
        · cases hq
    · intro e he
      constructor
      · exact fun h => Or.inl ⟨e, he, h⟩
      · rintro (⟨e0, he0, h0⟩ | ⟨q, hq, _⟩)
        · obtain rfl := Option.some.inj (he.symm.trans he0)
          exact h0
        · cases hq
  | cons q0 t ih =>
    intro out
    have hstep := joinStep_char a b p q0 out s ev
    have hrest := ih (joinStep a b p q0 out)
    have hunf : joinInner a b p (q0 :: t) out = joinInner a b p t (joinStep a b p q0 out) :=
      rfl
    rw [hunf]
    constructor
    · rw [hrest.1, hstep.1]
      constructor
      · rintro ((h | h) | ⟨q, hq, hc⟩)
        · exact Or.inl h
        · exact Or.inr ⟨q0, List.mem_cons_self _ _, h⟩
        · exact Or.inr ⟨q, List.mem_cons_of_mem _ hq, hc⟩
      · rintro (h | ⟨q, hq, hc⟩)
        · exact Or.inl (Or.inl h)
        · rcases List.mem_cons.mp hq with rfl | hq2
          · exact Or.inl (Or.inr hc)
          · exact Or.inr ⟨q, hq2, hc⟩
    · intro e he
      rw [hrest.2 e he]
      constructor
      · rintro (⟨e0, he0, h0⟩ | ⟨q, hq, hc⟩)
        · rcases (hstep.2 e0 he0).mp h0 with h1 | h1
          · exact Or.inl h1
          · exact Or.inr ⟨q0, List.mem_cons_self _ _, h1⟩
        · exact Or.inr ⟨q, List.mem_cons_of_mem _ hq, hc⟩
      · rintro (⟨e0, he0, h0⟩ | ⟨q, hq, hc⟩)
        · rcases hx : (joinStep a b p q0 out).get s with _ | e1
          · exfalso
            have hy : ((joinStep a b p q0 out).get s).isSome = true :=
              hstep.1.mpr (Or.inl (by rw [he0]; rfl))
            rw [hx] at hy
            cases hy
          · exact Or.inl ⟨e1, rfl, (hstep.2 e1 hx).mpr (Or.inl ⟨e0, he0, h0⟩)⟩
        · rcases List.mem_cons.mp hq with heq | hq2
          · rw [heq] at hc
            rcases hx : (joinStep a b p q0 out).get s with _ | e1
            · exfalso
              have hy : ((joinStep a b p q0 out).get s).isSome = true :=
                hstep.1.mpr (Or.inr (KeyContrib_of_EvContrib hc))
              rw [hx] at hy
              cases hy
            · exact Or.inl ⟨e1, rfl, (hstep.2 e1 hx).mpr (Or.inr hc)⟩
          · exact Or.inr ⟨q, hq2, hc⟩

/-- The outer join loop accumulates exactly the contributions of all
pairs of witnesses. -/
theorem join_fold_char (a b : Element) (pairs_i pairs_j : List Event) (s : Sequence)
    (ev : Event) : ∀ (out : ElementDict Sequence),
    (((pairs_i.foldl (fun acc pair_i => joinInner a b pair_i pairs_j acc) out).get s).isSome
        = true ↔
      ((out.get s).isSome = true ∨ ∃ p ∈ pairs_i, ∃ q ∈ pairs_j, KeyContrib a b s p q))
    ∧ ∀ e, (pairs_i.foldl (fun acc pair_i => joinInner a b pair_i pairs_j acc) out).get s
        = some e →
      (ev ∈ e.id_list ↔
        (∃ e0, out.get s = some e0 ∧ ev ∈ e0.id_list)
        ∨ ∃ p ∈ pairs_i, ∃ q ∈ pairs_j, EvContrib a b s ev p q) := by
  induction pairs_i with
  | nil =>
    intro out
    constructor
    · constructor
      · exact fun h => Or.inl h
      · rintro (h | ⟨p, hp, _⟩)
        · exact h
        · cases hp
    · intro e he
      constructor
      · exact fun h => Or.inl ⟨e, he, h⟩
      · rintro (⟨e0, he0, h0⟩ | ⟨p, hp, _⟩)
        · obtain rfl := Option.some.inj (he.symm.trans he0)
          exact h0
        · cases hp
  | cons p0 t ih =>
    intro out
    have hstep := joinInner_char a b p0 pairs_j s ev out
    have hrest := ih (joinInner a b p0 pairs_j out)
    have hunf : (p0 :: t).foldl (fun acc pair_i => joinInner a b pair_i pairs_j acc) out
        = t.foldl (fun acc pair_i => joinInner a b pair_i pairs_j acc)
          (joinInner a b p0 pairs_j out) := rfl
    rw [hunf]
    constructor
    · rw [hrest.1, hstep.1]
      constructor
      · rintro ((h | h) | ⟨p, hp, hc⟩)
        · exact Or.inl h
        · exact Or.inr ⟨p0, List.mem_cons_self _ _, h⟩
        · exact Or.inr ⟨p, List.mem_cons_of_mem _ hp, hc⟩
      · rintro (h | ⟨p, hp, hc⟩)
        · exact Or.inl (Or.inl h)
        · rcases List.mem_cons.mp hp with rfl | hp2
          · exact Or.inl (Or.inr hc)
          · exact Or.inr ⟨p, hp2, hc⟩
    · intro e he
      rw [hrest.2 e he]
      constructor
      · rintro (⟨e0, he0, h0⟩ | ⟨p, hp, hc⟩)
        · rcases (hstep.2 e0 he0).mp h0 with h1 | h1
          · exact Or.inl h1
          · exact Or.inr ⟨p0, List.mem_cons_self _ _, h1⟩
        · exact Or.inr ⟨p, List.mem_cons_of_mem _ hp, hc⟩
      · rintro (⟨e0, he0, h0⟩ | ⟨p, hp, hc⟩)
        · rcases hx : (joinInner a b p0 pairs_j out).get s with _ | e1
          · exfalso
            have hy : ((joinInner a b p0 pairs_j out).get s).isSome = true :=
              hstep.1.mpr (Or.inl (by rw [he0]; rfl))
            rw [hx] at hy
            cases hy
          · exact Or.inl ⟨e1, rfl, (hstep.2 e1 hx).mpr (Or.inl ⟨e0, he0, h0⟩)⟩
        · rcases List.mem_cons.mp hp with heq | hp2
          · rw [heq] at hc
            rcases hc with ⟨q, hq, hc2⟩
            rcases hx : (joinInner a b p0 pairs_j out).get s with _ | e1
            · exfalso
              have hy : ((joinInner a b p0 pairs_j out).get s).isSome = true :=
                hstep.1.mpr (Or.inr ⟨q, hq, KeyContrib_of_EvContrib hc2⟩)
              rw [hx] at hy
              cases hy
            · exact Or.inl ⟨e1, rfl, (hstep.2 e1 hx).mpr (Or.inr ⟨q, hq, hc2⟩)⟩
          · exact Or.inr ⟨p, hp2, hc⟩

/-- Keys and witnesses of a (non-pruned) join are exactly the
contributions of the witness pairs. -/
theorem join_char (a b : Element) (cm : Option CMap) (s : Sequence) (ev : Event)
    (h : joinSkipByCmap a b cm = false) :
    (((Element.join a b cm).get s).isSome = true ↔
      ∃ p ∈ a.id_list, ∃ q ∈ b.id_list, KeyContrib a b s p q)
    ∧ ∀ e, (Element.join a b cm).get s = some e →
      (ev ∈ e.id_list ↔ ∃ p ∈ a.id_list, ∃ q ∈ b.id_list, EvContrib a b s ev p q) := by
  have hjoin : Element.join a b cm = a.id_list.foldl
      (fun acc pair_i => joinInner a b pair_i b.id_list acc) (ElementDict.empty _) := by
    unfold Element.join
    rw [h]
    simp
  rw [hjoin]
  have hmain := join_fold_char a b a.id_list b.id_list s ev (ElementDict.empty _)
  constructor
  · rw [hmain.1]
    constructor
    · rintro (h1 | h1)
      · simp [ElementDict.empty, ElementDict.get, assocGet] at h1
      · exact h1
    · exact fun h1 => Or.inr h1
  · intro e he
    rw [hmain.2 e he]
    constructor
    · rintro (⟨e0, he0, _⟩ | h2)
      · simp [ElementDict.empty, ElementDict.get, assocGet] at he0
      · exact h2
    · exact fun h2 => Or.inr h2

/-- C6: with or without a cmap, `join(a, b)` and `join(b, a)` hold
exactly the same sequence keys and, key for key, equal id-lists:
`id_list` is a set in the source, so id-list equality is agreement on
every witness event, which holds. -/
theorem join_commutative (a b : Element) (cm : Option CMap) (s : Sequence) (ev : Event) :
    (((Element.join a b cm).get s).isSome = true
      ↔ ((Element.join b a cm).get s).isSome = true)
    ∧ ∀ e1 e2, (Element.join a b cm).get s = some e1 →
        (Element.join b a cm).get s = some e2 →
        (ev ∈ e1.id_list ↔ ev ∈ e2.id_list) := by
  by_cases hskip : joinSkipByCmap a b cm = true
  · have hskip2 : joinSkipByCmap b a cm = true := by
      rw [joinSkipByCmap_swap]
      exact hskip
    have h1 : Element.join a b cm = ElementDict.empty _ := by
      unfold Element.join
      rw [hskip]
      simp
    have h2 : Element.join b a cm = ElementDict.empty _ := by
      unfold Element.join
      rw [hskip2]
      simp
    rw [h1, h2]
    constructor
    · exact Iff.rfl
    · intro e1 e2 he1 _
      simp [ElementDict.empty, ElementDict.get, assocGet] at he1
  · have hskip' : joinSkipByCmap a b cm = false := by
      cases hx : joinSkipByCmap a b cm
      · rfl
      · exact absurd hx hskip
    have hskip2 : joinSkipByCmap b a cm = false := by
      rw [joinSkipByCmap_swap]
      exact hskip'
    have hab := join_char a b cm s ev hskip'
    have hba := join_char b a cm s ev hskip2
    have hkey : (∃ p ∈ a.id_list, ∃ q ∈ b.id_list, KeyContrib a b s p q) ↔
        (∃ p ∈ b.id_list, ∃ q ∈ a.id_list, KeyContrib b a s p q) := by
      constructor
      · rintro ⟨p, hp, q, hq, o, ho, hso⟩
        refine ⟨q, hq, p, hp, o, ?_, hso⟩
        rw [joinAtom_swap]
        exact ho
      · rintro ⟨p, hp, q, hq, o, ho, hso⟩
        refine ⟨q, hq, p, hp, o, ?_, hso⟩
        rw [joinAtom_swap b a p q]
        exact ho
    have hev : (∃ p ∈ a.id_list, ∃ q ∈ b.id_list, EvContrib a b s ev p q) ↔
        (∃ p ∈ b.id_list, ∃ q ∈ a.id_list, EvContrib b a s ev p q) := by
      constructor
      · rintro ⟨p, hp, q, hq, o, ho, hso, hev2⟩
        refine ⟨q, hq, p, hp, o, ?_, hso, ?_⟩
        · rw [joinAtom_swap]
          exact ho
        · rw [hev2, joinAtom_sid ho]
      · rintro ⟨p, hp, q, hq, o, ho, hso, hev2⟩
        refine ⟨q, hq, p, hp, o, ?_, hso, ?_⟩
        · rw [joinAtom_swap b a p q]
          exact ho
        · rw [hev2, joinAtom_sid ho]
    constructor
    · rw [hab.1, hba.1]
      exact hkey
    · intro e1 e2 he1 he2
      rw [hab.2 e1 he1, hba.2 e2 he2]
      exact hev

/-- Witness for `join_commutative` on the C6 operands: the shared key
holds witness sets that agree on the event `(1, 2)`. -/
theorem join_commutative_witness :
    ((⟨1, 2⟩ : Event) ∈ (⟨20, some [[10]], 2, [⟨1, 2⟩, ⟨2, 2⟩]⟩ : Element).id_list
      ↔ (⟨1, 2⟩ : Event) ∈ (⟨20, some [[10]], 2, [⟨2, 2⟩, ⟨1, 2⟩]⟩ : Element).id_list) :=
  (join_commutative aC6 bC6 none [[10], [20]] ⟨1, 2⟩).2
    ⟨20, some [[10]], 2, [⟨1, 2⟩, ⟨2, 2⟩]⟩ ⟨20, some [[10]], 2, [⟨2, 2⟩, ⟨1, 2⟩]⟩
    (by rfl) (by rfl)

/-! ## Witness validity (claim C3)

The spec-side occurrence predicate: a pattern occurs in an input
sequence at strictly increasing event ranks, each pattern itemset
contained in the input itemset of its rank, the last one at rank `r`.
Everything below relates the code's id-lists to this predicate. -/

/-- The input itemset the miner matches at event rank `r` of sequence
`sid`. -/
def rankedAt (ds : Dataset) (sid : Int) (r : Nat) : List Item :=
  (rankedOf ds sid).getD r []

/-- `s` occurs in input sequence `sid` with its last itemset matched at
event rank `r`: the spec's "contains as a subsequence ending at rank
`r`". -/
inductive OccursEndAt (ds : Dataset) (sid : Int) : Sequence → Nat → Prop
  | single : ∀ (its : List Item) (r : Nat), its ⊆ rankedAt ds sid r →
      r < (rankedOf ds sid).length → OccursEndAt ds sid [its] r
  | step : ∀ (s : Sequence) (its : List Item) (r r2 : Nat), OccursEndAt ds sid s r →
      r < r2 → its ⊆ rankedAt ds sid r2 → r2 < (rankedOf ds sid).length →
      OccursEndAt ds sid (s ++ [its]) r2

theorem occursEndAt_lt {ds : Dataset} {sid : Int} {s : Sequence} {r : Nat}
    (h : OccursEndAt ds sid s r) : r < (rankedOf ds sid).length := by
  cases h with
  | single its r hsub hr => exact hr
  | step s its r0 r hocc hlt hsub hr => exact hr

theorem occursEndAt_last_subset {ds : Dataset} {sid : Int} {s : Sequence} {r : Nat}
    (h : OccursEndAt ds sid s r) : s.getLastD [] ⊆ rankedAt ds sid r := by
  cases h with
  | single its r hsub hr =>
    simpa using hsub
  | step s its r0 r hocc hlt hsub hr =>
    rw [List.getLastD_concat]
    exact hsub

/-- Adding one more item to the itemset matched last keeps the
occurrence. -/
theorem occursEndAt_extend_last {ds : Dataset} {sid : Int} {s : Sequence} {r : Nat}
    (h : OccursEndAt ds sid s r) {x : Item} (hx : x ∈ rankedAt ds sid r) :
    OccursEndAt ds sid (s.dropLast ++ [s.getLastD [] ++ [x]]) r := by
  cases h with
  | single its r hsub hr =>
    have hsub2 : its ++ [x] ⊆ rankedAt ds sid r := by
      intro y hy
      rcases List.mem_append.mp hy with hy1 | hy1
      · exact hsub hy1
      · rcases List.mem_singleton.mp hy1 with rfl
        exact hx
    simpa using OccursEndAt.single (its ++ [x]) r hsub2 hr
  | step s its r0 r hocc hlt hsub hr =>
    rw [List.dropLast_concat, List.getLastD_concat]
    refine OccursEndAt.step s (its ++ [x]) r0 r hocc hlt ?_ hr
    intro y hy
    rcases List.mem_append.mp hy with hy1 | hy1
    · exact hsub hy1
    · rcases List.mem_singleton.mp hy1 with rfl
      exact hx

/-- `prefix or ((),)` of a present, non-empty prefix. -/
theorem pyPfxOrDefault_some {s : Sequence} (hs : s ≠ []) :
    pyPfxOrDefault (some s) = s := by
  show (if s = [] then [[]] else s) = s
  rw [if_neg hs]

theorem generate_sequence_event (k : Item) (s : Sequence) (hs : s ≠ []) :
    Element.generate_sequence k (some s) false
      = s.dropLast ++ [s.getLastD [] ++ [k]] := by
  show (pyPfxOrDefault (some s)).dropLast
      ++ [(pyPfxOrDefault (some s)).getLastD [] ++ [k]] = _
  rw [pyPfxOrDefault_some hs]

theorem generate_sequence_seqatom (k : Item) (s : Sequence) (hs : s ≠ []) :
    Element.generate_sequence k (some s) true = s ++ [[k]] := by
  show pyPfxOrDefault (some s) ++ [[k]] = _
  rw [pyPfxOrDefault_some hs]

theorem generate_sequence_ne_nil (k : Item) (pfx : Option Sequence) (b : Bool) :
    Element.generate_sequence k pfx b ≠ [] := by
  cases b with
  | true =>
    show pyPfxOrDefault pfx ++ [[k]] ≠ []
    simp
  | false =>
    show (pyPfxOrDefault pfx).dropLast ++ [(pyPfxOrDefault pfx).getLastD [] ++ [k]] ≠ []
    simp

/-- The canonical sequence of an element is never empty. -/
theorem sequence_ne_nil (e : Element) : e.sequence ≠ [] :=
  generate_sequence_ne_nil e.key_item e.pfx _

/-- The key item sits in the last itemset of the canonical sequence. -/
theorem key_mem_last_generate (k : Item) (pfx : Option Sequence) (b : Bool) :
    k ∈ (Element.generate_sequence k pfx b).getLastD [] := by
  cases b with
  | true =>
    show k ∈ (pyPfxOrDefault pfx ++ [[k]]).getLastD []
    rw [List.getLastD_concat]
    simp
  | false =>
    show k ∈ ((pyPfxOrDefault pfx).dropLast
        ++ [(pyPfxOrDefault pfx).getLastD [] ++ [k]]).getLastD []
    rw [List.getLastD_concat]
    simp

theorem key_mem_last (e : Element) : e.key_item ∈ (e.sequence).getLastD [] :=
  key_mem_last_generate e.key_item e.pfx _

/-- The canonical sequence of a prefix-less non-atom element (a frequent
1-sequence) is the singleton pattern of its item. -/
theorem sequence_unknown (e : Element) (hpfx : e.pfx = none)
    (hconn : e.conn_type = UNKNOWN_ATOM_TYPE) : e.sequence = [[e.key_item]] := by
  unfold Element.sequence
  rw [hpfx, hconn]
  rfl

/-- All recorded witnesses of an element are valid occurrences of its
canonical sequence (the claim's property, per element). -/
def ValidEl (ds : Dataset) (e : Element) : Prop :=
  ∀ ev ∈ e.id_list, OccursEndAt ds ev.sid e.sequence ev.eid

theorem validEl_mkElement (ds : Dataset) (k : Item) (pfx : Option Sequence) (conn : Nat) :
    ValidEl ds (mkElement k pfx conn) := by
  intro ev hev
  exact absurd hev (List.not_mem_nil ev)

theorem validEl_mergeEl {ds : Dataset} {e0 el : Element} (h0 : ValidEl ds e0)
    (hel : ValidEl ds el) (hseq : el.sequence = e0.sequence) :
    ValidEl ds (mergeEl e0 el) := by
  intro ev hev
  have hseq2 : (mergeEl e0 el).sequence = e0.sequence := rfl
  rw [hseq2]
  rcases mem_updateIdList.mp hev with h1 | h1
  · exact h0 ev h1
  · rw [← hseq]
    exact hel ev h1

/-- Every atom produced by `joinAtom` from valid witnesses is a valid
occurrence of the generated sequence, ending at the recorded rank. -/
theorem joinAtom_valid (ds : Dataset) {a b : Element} {p q : Event}
    {o : Item × Sequence × Nat × Nat} (ho : joinAtom a b p q = some o)
    (hpa : OccursEndAt ds p.sid a.sequence p.eid)
    (hqb : OccursEndAt ds q.sid b.sequence q.eid) :
    OccursEndAt ds p.sid (atomSeq o) o.2.2.2 := by
  have hsid := joinAtom_sid ho
  rw [← hsid] at hqb
  unfold joinAtom at ho
  split at ho
  · cases ho
  · split at ho
    · next heid =>
      rw [← heid] at hqb
      split at ho
      · cases ho
      · split at ho
        · cases ho
          have hkb : b.key_item ∈ rankedAt ds p.sid p.eid :=
            occursEndAt_last_subset hqb (key_mem_last b)
          have hred : atomSeq (b.key_item, a.sequence, EVENT_ATOM_TYPE, p.eid)
              = Element.generate_sequence b.key_item (some a.sequence) false := rfl
          rw [hred, generate_sequence_event _ _ (sequence_ne_nil a)]
          exact occursEndAt_extend_last hpa hkb
        · cases ho
          have hka : a.key_item ∈ rankedAt ds p.sid p.eid :=
            occursEndAt_last_subset hpa (key_mem_last a)
          have hred : atomSeq (a.key_item, b.sequence, EVENT_ATOM_TYPE, p.eid)
              = Element.generate_sequence a.key_item (some b.sequence) false := rfl
          rw [hred, generate_sequence_event _ _ (sequence_ne_nil b)]
          exact occursEndAt_extend_last hqb hka
    · split at ho
      · next hlt =>
        split at ho
        · cases ho
        · cases ho
          have hkb : b.key_item ∈ rankedAt ds p.sid q.eid :=
            occursEndAt_last_subset hqb (key_mem_last b)
          have hred : atomSeq (b.key_item, a.sequence, SEQUENCE_ATOM_TYPE, q.eid)
              = Element.generate_sequence b.key_item (some a.sequence) true := rfl
          rw [hred, generate_sequence_seqatom _ _ (sequence_ne_nil a)]
          refine OccursEndAt.step a.sequence [b.key_item] p.eid q.eid hpa hlt ?_
            (occursEndAt_lt hqb)
          intro y hy
          rcases List.mem_singleton.mp hy with rfl
          exact hkb
      · next heid hnlt =>
        split at ho
        · cases ho
        · cases ho
          have hlt2 : q.eid < p.eid := by omega
          have hka : a.key_item ∈ rankedAt ds p.sid p.eid :=
            occursEndAt_last_subset hpa (key_mem_last a)
          have hred : atomSeq (a.key_item, b.sequence, SEQUENCE_ATOM_TYPE, p.eid)
              = Element.generate_sequence a.key_item (some b.sequence) true := rfl
          rw [hred, generate_sequence_seqatom _ _ (sequence_ne_nil b)]
          refine OccursEndAt.step b.sequence [a.key_item] q.eid p.eid hqb hlt2 ?_
            (occursEndAt_lt hpa)
          intro y hy
          rcases List.mem_singleton.mp hy with rfl
          exact hka

/-! ## Pair-level dictionary lemmas (key and value together) -/

theorem mem_pair_assocReplace {κ : Type} [DecidableEq κ] {k : κ} {el : Element}
    {l : List (κ × Element)} {x : κ × Element} (h : x ∈ assocReplace k el l) :
    x ∈ l ∨ x = (k, el) := by
  induction l with
  | nil => cases h
  | cons p t ih =>
    unfold assocReplace at h
    split at h
    · next hk =>
      rcases List.mem_cons.mp h with rfl | h1
      · exact Or.inr (by rw [hk])
      · exact Or.inl (List.mem_cons_of_mem _ h1)
    · rcases List.mem_cons.mp h with rfl | h1
      · exact Or.inl (List.mem_cons_self _ _)
      · rcases ih h1 with h2 | h2
        · exact Or.inl (List.mem_cons_of_mem _ h2)
        · exact Or.inr h2

theorem mem_pair_assocMergeIdList {κ : Type} [DecidableEq κ] {k : κ} {evs : List Event}
    {l : List (κ × Element)} {x : κ × Element} (h : x ∈ assocMergeIdList k evs l) :
    x ∈ l ∨ ∃ e0, (k, e0) ∈ l
      ∧ x = (k, { e0 with id_list := updateIdList e0.id_list evs }) := by
  induction l with
  | nil => cases h
  | cons p t ih =>
    unfold assocMergeIdList at h
    split at h
    · next hk =>
      rcases List.mem_cons.mp h with rfl | h1
      · refine Or.inr ⟨p.2, ?_, ?_⟩
        · rw [← hk]
          exact List.mem_cons_self _ _
        · rw [hk]
      · exact Or.inl (List.mem_cons_of_mem _ h1)
    · rcases List.mem_cons.mp h with rfl | h1
      · exact Or.inl (List.mem_cons_self _ _)
      · rcases ih h1 with h2 | ⟨e0, he0, h2⟩
        · exact Or.inl (List.mem_cons_of_mem _ h2)
        · exact Or.inr ⟨e0, List.mem_cons_of_mem _ he0, h2⟩

theorem mem_pair_assocErase {κ : Type} [DecidableEq κ] {k : κ} {l : List (κ × Element)}
    {x : κ × Element} (h : x ∈ assocErase k l) : x ∈ l := by
  induction l with
  | nil => cases h
  | cons p t ih =>
    unfold assocErase at h
    split at h
    · exact List.mem_cons_of_mem _ h
    · rcases List.mem_cons.mp h with rfl | h1
      · exact List.mem_cons_self _ _
      · exact List.mem_cons_of_mem _ (ih h1)

theorem mem_pair_set {κ : Type} [DecidableEq κ] {d : ElementDict κ} {k : κ} {el : Element}
    {x : κ × Element} (h : x ∈ (d.set k el).data) : x ∈ d.data ∨ x = (k, el) := by
  unfold ElementDict.set at h
  split at h
  · exact mem_pair_assocReplace h
  · rcases List.mem_append.mp h with h1 | h1
    · exact Or.inl h1
    · exact Or.inr (List.mem_singleton.mp h1)

theorem mem_pair_update {κ : Type} [DecidableEq κ] {d : ElementDict κ} {k : κ} {el : Element}
    {x : κ × Element} (h : x ∈ (d.update k el).data) :
    x ∈ d.data ∨ x = (k, el) ∨ ∃ e0, (k, e0) ∈ d.data ∧ x = (k, mergeEl e0 el) := by
  unfold ElementDict.update at h
  split at h
  · rcases mem_pair_assocMergeIdList h with h1 | ⟨e0, he0, h1⟩
    · exact Or.inl h1
    · exact Or.inr (Or.inr ⟨e0, he0, h1⟩)
  · rcases mem_pair_set h with h1 | h1
    · exact Or.inl h1
    · exact Or.inr (Or.inl h1)

theorem mem_pair_add_event {κ : Type} [DecidableEq κ] {d : ElementDict κ} {k : κ}
    {sid : Int} {eid : Nat} {x : κ × Element} (h : x ∈ (d.add_event k sid eid).data) :
    x ∈ d.data ∨ ∃ e0, (k, e0) ∈ d.data ∧ x = (k, addEv e0 sid eid) := by
  unfold ElementDict.add_event at h
  split at h
  · rcases mem_pair_assocMergeIdList h with h1 | ⟨e0, he0, h1⟩
    · exact Or.inl h1
    · exact Or.inr ⟨e0, he0, h1⟩
  · exact Or.inl h

theorem mem_pair_remove {κ : Type} [DecidableEq κ] {d : ElementDict κ} {k : κ}
    {x : κ × Element} (h : x ∈ (d.remove k).data) : x ∈ d.data := by
  unfold ElementDict.remove at h
  split at h
  · exact mem_pair_assocErase h
  · exact h

/-- Pair-level invariant preservation for `update`. -/
theorem update_pair_OK {κ : Type} [DecidableEq κ] {P : κ × Element → Prop}
    (hmerge : ∀ k e0 el, P (k, e0) → P (k, el) → P (k, mergeEl e0 el))
    {d : ElementDict κ} (hd : ∀ x ∈ d.data, P x) {k : κ} {el : Element}
    (hel : P (k, el)) : ∀ x ∈ (d.update k el).data, P x := by
  intro x hx
  rcases mem_pair_update hx with h1 | h1 | ⟨e0, he0, rfl⟩
  · exact hd x h1
  · exact h1 ▸ hel
  · exact hmerge k e0 el (hd (k, e0) he0) hel

theorem remove_fold_pair_OK {κ : Type} [DecidableEq κ] {P : κ × Element → Prop}
    {d : ElementDict κ} (hd : ∀ x ∈ d.data, P x) (ks : List κ) :
    ∀ x ∈ (ks.foldl (fun p k => p.remove k) d).data, P x := by
  apply foldl_preserve (P := fun (p : ElementDict κ) => ∀ x ∈ p.data, P x)
  · intro p k hp x hx
    exact hp x (mem_pair_remove hx)
  · exact hd

/-- Pair-level invariant preservation for `add_elements`. -/
theorem add_elements_pair_OK {P : FKey × Element → Prop}
    (hmerge : ∀ k e0 el, P (k, e0) → P (k, el) → P (k, mergeEl e0 el))
    {pool : ElementDict FKey} (hpool : ∀ x ∈ pool.data, P x)
    {entries : List (FKey × Element)} (hent : ∀ q ∈ entries, P q)
    (tn : Option Int) : ∀ x ∈ (add_elements pool entries tn).data, P x := by
  have h1 : ∀ x ∈ (entries.foldl (fun p q => p.update q.1 q.2) pool).data, P x := by
    apply foldl_preserve_mem (P := fun (d : ElementDict FKey) => ∀ x ∈ d.data, P x)
      entries hent
    · intro p q hq hp
      exact update_pair_OK hmerge hp hq
    · exact hpool
  show ∀ x ∈ (if topTruthy tn ∧ ((entries.foldl (fun p q => p.update q.1 q.2) pool).size : Int)
      > topVal tn
    then addTrim (entries.foldl (fun p q => p.update q.1 q.2) pool) tn
    else entries.foldl (fun p q => p.update q.1 q.2) pool).data, P x
  split
  · exact remove_fold_pair_OK h1 _
  · exact h1

/-- Pair-level invariant preservation for the promotion filter. -/
theorem promoteInner_pair_OK {P1 : Sequence × Element → Prop} {P2 : FKey × Element → Prop}
    {pool : ElementDict FKey} {inner : ElementDict Sequence}
    (h1 : ∀ x ∈ inner.data, P1 x) (h2 : ∀ x ∈ pool.data, P2 x) :
    (∀ x ∈ (promoteInner pool inner).1.data, P1 x)
    ∧ (∀ x ∈ (promoteInner pool inner).2.data, P2 x) := by
  unfold promoteInner
  apply foldl_preserve
    (P := fun (acc : ElementDict Sequence × ElementDict FKey) =>
      (∀ x ∈ acc.1.data, P1 x) ∧ (∀ x ∈ acc.2.data, P2 x))
  · intro acc s hacc
    split
    · exact ⟨fun x hx => hacc.1 x (mem_pair_remove hx), hacc.2⟩
    · refine ⟨hacc.1, ?_⟩
      apply foldl_preserve (P := fun (p : ElementDict FKey) => ∀ x ∈ p.data, P2 x)
      · intro p fs hp x hx
        split at hx
        · exact hp x (mem_pair_remove hx)
        · exact hp x hx
      · exact hacc.2
  · exact ⟨h1, h2⟩

/-- The join of two valid elements stores each result under its own
canonical sequence, and everything recorded is a valid occurrence. -/
theorem join_pairValid (ds : Dataset) (a b : Element) (cm : Option CMap)
    (hva : ValidEl ds a) (hvb : ValidEl ds b) :
    ∀ x ∈ (Element.join a b cm).data, x.2.sequence = x.1 ∧ ValidEl ds x.2 := by
  unfold Element.join
  split
  · intro x hx
    cases hx
  · apply foldl_preserve_mem
      (P := fun (d : ElementDict Sequence) => ∀ x ∈ d.data, x.2.sequence = x.1 ∧ ValidEl ds x.2)
      (C := fun p => p ∈ a.id_list) a.id_list (fun p hp => hp)
    · intro d p hp hd
      unfold joinInner
      apply foldl_preserve_mem
        (P := fun (d2 : ElementDict Sequence) =>
          ∀ x ∈ d2.data, x.2.sequence = x.1 ∧ ValidEl ds x.2)
        (C := fun q => q ∈ b.id_list) b.id_list (fun q hq => hq)
      · intro d2 q hq hd2
        rcases hatom : joinAtom a b p q with _ | o
        · rw [joinStep_eq_none hatom]
          exact hd2
        · rw [joinStep_eq_some hatom]
          have hocc : OccursEndAt ds p.sid (atomSeq o) o.2.2.2 :=
            joinAtom_valid ds hatom (hva p hp) (hvb q hq)
          have hbase : ∀ x ∈ (if d2.containsKey (atomSeq o) then d2
              else d2.set (atomSeq o) (atomElem o)).data,
              x.2.sequence = x.1 ∧ ValidEl ds x.2 := by
            split
            · exact hd2
            · intro x hx
              rcases mem_pair_set hx with h1 | rfl
              · exact hd2 x h1
              · exact ⟨rfl, validEl_mkElement ds o.1 (some o.2.1) o.2.2.1⟩
          intro x hx
          rcases mem_pair_add_event hx with h1 | ⟨e0, he0, rfl⟩
          · exact hbase x h1
          · have hb := hbase (atomSeq o, e0) he0
            refine ⟨hb.1, ?_⟩
            intro ev hev
            have hseq : (addEv e0 p.sid o.2.2.2).sequence = e0.sequence := rfl
            rw [hseq]
            rcases mem_insertEvent.mp hev with h2 | rfl
            · exact hb.2 ev h2
            · rw [hb.1]
              exact hocc
      · exact hd
    · intro x hx
      cases hx

/-! ## Semantics of the vertical id-lists -/

/-- What `enumerate` pairs hold: position and list entry. -/
theorem enumFrom_mem {α : Type} :
    ∀ (l : List α) (n i : Nat) (x : α), (i, x) ∈ enumFrom n l →
      ∃ j : Nat, i = n + j ∧ ∃ h : j < l.length, l.get ⟨j, h⟩ = x := by
  intro l
  induction l with
  | nil =>
    intro n i x h
    cases h
  | cons a t ih =>
    intro n i x h
    rcases List.mem_cons.mp h with heq | ht
    · obtain ⟨h1, h2⟩ := Prod.mk.inj heq
      subst h1
      subst h2
      exact ⟨0, by omega, by simp, rfl⟩
    · rcases ih (n + 1) i x ht with ⟨j, hi, hj, hx⟩
      refine ⟨j + 1, by omega, by simpa using Nat.succ_lt_succ hj, ?_⟩
      exact hx

/-- First-match lookup of a present key in a duplicate-free mapping. -/
theorem find?_eq_of_mem_nodup {ds : List (Int × EventMap)}
    (hnd : (ds.map Prod.fst).Nodup) {sid : Int} {evs : EventMap}
    (h : (sid, evs) ∈ ds) :
    ds.find? (fun p => p.1 = sid) = some (sid, evs) := by
  induction ds with
  | nil => cases h
  | cons p t ih =>
    rw [List.map_cons, List.nodup_cons] at hnd
    by_cases hp : p.1 = sid
    · have hfind : (p :: t).find? (fun x => x.1 = sid) = some p :=
        List.find?_cons_of_pos _ (by simp [hp])
      rcases List.mem_cons.mp h with heq | h1
      · rw [hfind, ← heq]
      · exfalso
        have hmem : sid ∈ t.map Prod.fst := List.mem_map.mpr ⟨(sid, evs), h1, rfl⟩
        rw [← hp] at hmem
        exact hnd.1 hmem
    · have hfind : (p :: t).find? (fun x => x.1 = sid) = t.find? (fun x => x.1 = sid) :=
        List.find?_cons_of_neg _ (by simp [hp])
      rcases List.mem_cons.mp h with heq | h1
      · exfalso
        rw [← heq] at hp
        exact hp rfl
      · rw [hfind]
        exact ih hnd.2 h1

/-- With unique sids (a Python `dict`), the ranked itemsets of a listed
sequence are those of its entry. -/
theorem rankedOf_of_mem {ds : Dataset} (hnd : (ds.map Prod.fst).Nodup)
    {sid : Int} {evs : EventMap} (h : (sid, evs) ∈ ds) :
    rankedOf ds sid = rankedItemsets evs := by
  unfold rankedOf
  rw [find?_eq_of_mem_nodup hnd h]

/-- One `idlAdd` call preserves the vertical-format soundness invariant
when the added triple is itself sound. -/
theorem idlAdd_valid {ds : Dataset} {idl : IdLists}
    (h : ∀ p ∈ idl, ∀ qq ∈ p.2, ∀ r ∈ qq.2,
      p.1 ∈ rankedAt ds qq.1 r ∧ r < (rankedOf ds qq.1).length)
    {item : Item} {sid : Int} {ei : Nat}
    (hg : item ∈ rankedAt ds sid ei ∧ ei < (rankedOf ds sid).length) :
    ∀ p ∈ idlAdd idl item sid ei, ∀ qq ∈ p.2, ∀ r ∈ qq.2,
      p.1 ∈ rankedAt ds qq.1 r ∧ r < (rankedOf ds qq.1).length := by
  rcases hi : alistGet item idl with _ | sl
  · rw [idlAdd_eq_new hi]
    intro p hp qq hqq r hr
    rcases List.mem_append.mp hp with h1 | h1
    · exact h p h1 qq hqq r hr
    · rcases List.mem_singleton.mp h1 with rfl
      rcases List.mem_singleton.mp hqq with rfl
      rcases List.mem_singleton.mp hr with rfl
      exact hg
  · have hsl := h (item, sl) (alistGet_mem hi)
    rcases hs : alistGet sid sl with _ | eids
    · rw [idlAdd_eq_newsid hi hs]
      intro p hp qq hqq r hr
      rcases mem_alistSet hp with h1 | rfl
      · exact h p h1 qq hqq r hr
      · rcases List.mem_append.mp hqq with h2 | h2
        · exact hsl qq h2 r hr
        · rcases List.mem_singleton.mp h2 with rfl
          rcases List.mem_singleton.mp hr with rfl
          exact hg
    · have heids := hsl (sid, eids) (alistGet_mem hs)
      rw [idlAdd_eq_oldsid hi hs]
      intro p hp qq hqq r hr
      rcases mem_alistSet hp with h1 | rfl
      · exact h p h1 qq hqq r hr
      · rcases mem_alistSet hqq with h2 | rfl
        · exact hsl qq h2 r hr
        · rcases List.mem_append.mp hr with h3 | h3
          · exact heids r h3
          · rcases List.mem_singleton.mp h3 with rfl
            exact hg

/-- Every triple recorded in the vertical id-lists is sound: the item
really occurs in that sequence at that event rank. -/
theorem buildVertical_valid (ds : Dataset) (hnd : (ds.map Prod.fst).Nodup) :
    ∀ p ∈ (buildVertical ds).1, ∀ qq ∈ p.2, ∀ r ∈ qq.2,
      p.1 ∈ rankedAt ds qq.1 r ∧ r < (rankedOf ds qq.1).length := by
  unfold buildVertical
  apply foldl_preserve_mem
    (P := fun (st : IdLists × List (Int × List Item)) =>
      ∀ p ∈ st.1, ∀ qq ∈ p.2, ∀ r ∈ qq.2,
        p.1 ∈ rankedAt ds qq.1 r ∧ r < (rankedOf ds qq.1).length)
    (C := fun entry => entry ∈ ds) ds (fun e he => he)
  · intro st entry hentry hst
    show ∀ p ∈ ((enumFrom 0 (rankedKeysOf entry.2)).foldl (fun acc2 pr =>
        (pyItemset (lookupEvs pr.2 entry.2)).foldl
          (fun acc3 it => (idlAdd acc3.1 it entry.1 pr.1, seqsAppend acc3.2 entry.1 it))
          acc2)
        (st.1, seqsEnsure st.2 entry.1)).1, ∀ qq ∈ p.2, ∀ r ∈ qq.2,
      p.1 ∈ rankedAt ds qq.1 r ∧ r < (rankedOf ds qq.1).length
    have hrank : rankedOf ds entry.1 = rankedItemsets entry.2 :=
      rankedOf_of_mem hnd hentry
    apply foldl_preserve_mem
      (P := fun (st2 : IdLists × List (Int × List Item)) =>
        ∀ p ∈ st2.1, ∀ qq ∈ p.2, ∀ r ∈ qq.2,
          p.1 ∈ rankedAt ds qq.1 r ∧ r < (rankedOf ds qq.1).length)
      (C := fun pr => pr ∈ enumFrom 0 (rankedKeysOf entry.2)) _ (fun pr hpr => hpr)
    · intro st2 pr hpr hst2
      rcases enumFrom_mem (rankedKeysOf entry.2) 0 pr.1 pr.2 hpr with ⟨j, hij, hj, hget⟩
      have hj0 : j = pr.1 := by omega
      subst hj0
      have hgood : ∀ it ∈ pyItemset (lookupEvs pr.2 entry.2),
          it ∈ rankedAt ds entry.1 pr.1 ∧ pr.1 < (rankedOf ds entry.1).length := by
        intro it hit
        constructor
        · unfold rankedAt
          rw [hrank]
          unfold rankedItemsets
          rw [List.getD_eq_get _ _ (by simpa using hj)]
          have hm : (List.map (fun k => pyItemset (lookupEvs k entry.2))
              (rankedKeysOf entry.2)).get ⟨pr.1, by simpa using hj⟩
              = pyItemset (lookupEvs ((rankedKeysOf entry.2).get ⟨pr.1, hj⟩) entry.2) :=
            List.get_map _
          rw [hm, hget]
          exact hit
        · rw [hrank]
          unfold rankedItemsets
          simpa using hj
      apply foldl_preserve_mem
        (P := fun (st3 : IdLists × List (Int × List Item)) =>
          ∀ p ∈ st3.1, ∀ qq ∈ p.2, ∀ r ∈ qq.2,
            p.1 ∈ rankedAt ds qq.1 r ∧ r < (rankedOf ds qq.1).length)
        (C := fun it => it ∈ pyItemset (lookupEvs pr.2 entry.2)) _ (fun it hit => hit)
      · intro st3 it hit hst3
        exact idlAdd_valid hst3 (hgood it hit)
      · exact hst2
    · exact hst
  · intro p hp
    cases hp

/-- The pairs of the frequent 1-sequence dictionary carry their own item
as key, no prefix, and the unknown atom type. -/
theorem buildFreq1_pair_fields (idl : IdLists) (ms : Int) :
    ∀ x ∈ (buildFreq1 idl ms).data,
      x.2.key_item = x.1 ∧ x.2.pfx = none ∧ x.2.conn_type = UNKNOWN_ATOM_TYPE := by
  unfold buildFreq1
  apply foldl_preserve (P := fun (d : ElementDict Item) => ∀ x ∈ d.data,
    x.2.key_item = x.1 ∧ x.2.pfx = none ∧ x.2.conn_type = UNKNOWN_ATOM_TYPE)
  · intro d p hd
    split
    · exact hd
    · unfold addEventsAll
      apply foldl_preserve (P := fun (d2 : ElementDict Item) => ∀ x ∈ d2.data,
        x.2.key_item = x.1 ∧ x.2.pfx = none ∧ x.2.conn_type = UNKNOWN_ATOM_TYPE)
      · intro d2 q hd2
        unfold addEventsSid
        apply foldl_preserve (P := fun (d3 : ElementDict Item) => ∀ x ∈ d3.data,
          x.2.key_item = x.1 ∧ x.2.pfx = none ∧ x.2.conn_type = UNKNOWN_ATOM_TYPE)
        · intro d3 eid hd3 x hx
          rcases mem_pair_add_event hx with h1 | ⟨e0, he0, rfl⟩
          · exact hd3 x h1
          · exact hd3 (p.1, e0) he0
        · exact hd2
      · intro x hx
        rcases mem_pair_set hx with h1 | rfl
        · exact hd x h1
        · exact ⟨rfl, rfl, rfl⟩
  · intro x hx
    cases hx

/-- Every frequent 1-sequence element carries only valid witnesses. -/
theorem freq1_validEl (ds : Dataset) (hnd : (ds.map Prod.fst).Nodup) (ms : Int) :
    ∀ e ∈ (buildFreq1 (buildVertical ds).1 ms).get_elements, ValidEl ds e := by
  intro e he
  rcases (buildFreq1_spec (buildVertical ds).1 ms).2 e he with
    ⟨p, hp, _, hkey, hpfx, hconn, hwit, _⟩
  intro ev hev
  rcases hwit ev hev with ⟨qq, hqq, hsid, heid⟩
  have hg := buildVertical_valid ds hnd p hp qq hqq ev.eid heid
  rw [sequence_unknown e hpfx hconn, hkey, hsid]
  refine OccursEndAt.single [p.1] ev.eid ?_ hg.2
  intro y hy
  rcases List.mem_singleton.mp hy with rfl
  exact hg.1

theorem freq1_pairValid (ds : Dataset) (hnd : (ds.map Prod.fst).Nodup) (ms : Int) :
    ∀ x ∈ (buildFreq1 (buildVertical ds).1 ms).data,
      x.2.sequence = [[x.1]] ∧ ValidEl ds x.2 := by
  intro x hx
  have hf := buildFreq1_pair_fields _ ms x hx
  refine ⟨?_, ?_⟩
  · rw [sequence_unknown x.2 hf.2.1 hf.2.2, hf.1]
  · exact freq1_validEl ds hnd ms x.2 (List.mem_map.mpr ⟨x, hx, rfl⟩)

/-- The `generate_frequent_sequences` lookups are valid whether the item
is present or defaulted. -/
theorem freq1_getD_validEl (ds : Dataset) {freq1 : ElementDict Item}
    (hv : ∀ e ∈ freq1.get_elements, ValidEl ds e) (it : Item) :
    ValidEl ds ((freq1.get it).getD (mkElement it none UNKNOWN_ATOM_TYPE)) := by
  rcases hg : freq1.get it with _ | e
  · exact validEl_mkElement ds it none UNKNOWN_ATOM_TYPE
  · exact hv e (mem_of_get hg)

/-! ## Validity through candidate generation -/

/-- Merge closure of the keyed validity invariant (both elements stored
under the same key share their canonical sequence). -/
theorem pairSeqValid_merge (ds : Dataset) (k : Sequence) (e0 el : Element)
    (h0 : e0.sequence = k ∧ ValidEl ds e0) (hel : el.sequence = k ∧ ValidEl ds el) :
    (mergeEl e0 el).sequence = k ∧ ValidEl ds (mergeEl e0 el) := by
  refine ⟨h0.1, ?_⟩
  exact validEl_mergeEl h0.2 hel.2 (hel.1.trans h0.1.symm)

theorem generate2Inner_valid (ds : Dataset) {ms : Int}
    {acc2 : ElementDict Sequence × CMap × Nat}
    (hacc2 : ∀ x ∈ acc2.1.data, x.2.sequence = x.1 ∧ ValidEl ds x.2)
    {q : Sequence × Element} (hq : q.2.sequence = q.1 ∧ ValidEl ds q.2) :
    ∀ x ∈ (generate2Inner ms acc2 q).1.data, x.2.sequence = x.1 ∧ ValidEl ds x.2 := by
  unfold generate2Inner
  split
  · exact hacc2
  · exact update_pair_OK (fun k e0 el h0 hel => pairSeqValid_merge ds k e0 el h0 hel) hacc2 hq

theorem generate2Step_valid (ds : Dataset) {freq1 : ElementDict Item} {ms : Int}
    {acc : ElementDict Sequence × CMap × List Item}
    (hv : ∀ it, ValidEl ds ((freq1.get it).getD (mkElement it none UNKNOWN_ATOM_TYPE)))
    (hacc : ∀ x ∈ acc.1.data, x.2.sequence = x.1 ∧ ValidEl ds x.2) (pr : Item × Item) :
    ∀ x ∈ (generate2Step freq1 ms acc pr).1.data, x.2.sequence = x.1 ∧ ValidEl ds x.2 := by
  have hjoin := join_pairValid ds ((freq1.get pr.1).getD (mkElement pr.1 none UNKNOWN_ATOM_TYPE))
    ((freq1.get pr.2).getD (mkElement pr.2 none UNKNOWN_ATOM_TYPE)) none (hv pr.1) (hv pr.2)
  have he : (generate2Step freq1 ms acc pr).1 =
      ((Element.join ((freq1.get pr.1).getD (mkElement pr.1 none UNKNOWN_ATOM_TYPE))
        ((freq1.get pr.2).getD (mkElement pr.2 none UNKNOWN_ATOM_TYPE)) none).data.foldl
        (generate2Inner ms) (acc.1, acc.2.1, 0)).1 := rfl
  rw [he]
  apply foldl_preserve_mem
    (P := fun (acc2 : ElementDict Sequence × CMap × Nat) =>
      ∀ x ∈ acc2.1.data, x.2.sequence = x.1 ∧ ValidEl ds x.2)
    (C := fun (q : Sequence × Element) =>
      q ∈ (Element.join ((freq1.get pr.1).getD (mkElement pr.1 none UNKNOWN_ATOM_TYPE))
        ((freq1.get pr.2).getD (mkElement pr.2 none UNKNOWN_ATOM_TYPE)) none).data)
    _ (fun q hq => hq)
  · intro acc2 q hq hacc2
    exact generate2Inner_valid ds hacc2 (hjoin q hq)
  · exact hacc

theorem generate2_valid (ds : Dataset) (freq1 : ElementDict Item)
    (pairs : List (Item × Item)) (ms : Int)
    (hv : ∀ it, ValidEl ds ((freq1.get it).getD (mkElement it none UNKNOWN_ATOM_TYPE))) :
    ∀ x ∈ (generate2 freq1 pairs ms).1.data, x.2.sequence = x.1 ∧ ValidEl ds x.2 := by
  unfold generate2
  apply foldl_preserve
    (P := fun (acc : ElementDict Sequence × CMap × List Item) =>
      ∀ x ∈ acc.1.data, x.2.sequence = x.1 ∧ ValidEl ds x.2)
  · intro acc pr hacc
    exact generate2Step_valid ds hv hacc pr
  · intro x hx
    cases hx

/-- Keyed validity of both dictionaries built by
`generate_frequent_sequences`. -/
theorem generate_valid (ds : Dataset) (hnd : (ds.map Prod.fst).Nodup) (ms : Int)
    (ml : Option Int) :
    (∀ x ∈ (generate_frequent_sequences ds ms ml).1.data,
      x.2.sequence = [[x.1]] ∧ ValidEl ds x.2)
    ∧ (∀ x ∈ (generate_frequent_sequences ds ms ml).2.1.data,
      x.2.sequence = x.1 ∧ ValidEl ds x.2) := by
  have hfreq1 := freq1_pairValid ds hnd ms
  have hgetD := freq1_getD_validEl ds (freq1_validEl ds hnd ms)
  unfold generate_frequent_sequences
  split
  · exact ⟨remove_fold_pair_OK hfreq1 _, generate2_valid ds _ _ ms hgetD⟩
  · refine ⟨hfreq1, ?_⟩
    intro x hx
    cases hx

/-! ## Validity through the depth-first enumeration -/

/-- The canonical sequence a frequent-pool key stands for. -/
def fkeySeq : FKey → Sequence
  | FKey.item i => [[i]]
  | FKey.seq s => s

theorem pairFkeyValid_merge (ds : Dataset) (k : FKey) (e0 el : Element)
    (h0 : e0.sequence = fkeySeq k ∧ ValidEl ds e0)
    (hel : el.sequence = fkeySeq k ∧ ValidEl ds el) :
    (mergeEl e0 el).sequence = fkeySeq k ∧ ValidEl ds (mergeEl e0 el) :=
  ⟨h0.1, validEl_mergeEl h0.2 hel.2 (hel.1.trans h0.1.symm)⟩

theorem masterJoinFold_valid (ds : Dataset) {ms : Int} {cm : CMap}
    {master : Element} (hvm : ValidEl ds master) {elems : List (Option Element)}
    (helems : ∀ oe ∈ elems, ∀ e, oe = some e → ValidEl ds e)
    {inner : ElementDict Sequence}
    (hinner : ∀ x ∈ inner.data, x.2.sequence = x.1 ∧ ValidEl ds x.2) :
    ∀ x ∈ (masterJoinFold ms cm master elems inner).1.data,
      x.2.sequence = x.1 ∧ ValidEl ds x.2 := by
  unfold masterJoinFold
  apply foldl_preserve_mem
    (P := fun (acc : ElementDict Sequence × Nat) =>
      ∀ x ∈ acc.1.data, x.2.sequence = x.1 ∧ ValidEl ds x.2)
    (C := fun oe => ∀ e, oe = some e → ValidEl ds e) elems helems
  · intro acc cur hcur hacc
    cases cur with
    | none => exact hacc
    | some c =>
      have hjoin := join_pairValid ds master c (some cm) hvm (hcur c rfl)
      apply foldl_preserve_mem
        (P := fun (acc2 : ElementDict Sequence × Nat) =>
          ∀ x ∈ acc2.1.data, x.2.sequence = x.1 ∧ ValidEl ds x.2)
        (C := fun q => q ∈ (Element.join master c (some cm)).data) _ (fun q hq => hq)
      · intro acc2 q hq hacc2
        unfold masterInnerStep
        split
        · exact hacc2
        · exact update_pair_OK (fun k e0 el h0 hel => pairSeqValid_merge ds k e0 el h0 hel)
            hacc2 (hjoin q hq)
      · exact hacc
  · exact hinner

theorem processMasters_valid (ds : Dataset) (ms : Int) (cm : CMap)
    (pool : ElementDict FKey) :
    ∀ (idxs : List Nat) (elems : List (Option Element))
      (inner masterD : ElementDict Sequence),
      (∀ oe ∈ elems, ∀ e, oe = some e → ValidEl ds e) →
      (∀ x ∈ inner.data, x.2.sequence = x.1 ∧ ValidEl ds x.2) →
      (∀ x ∈ masterD.data, x.2.sequence = x.1 ∧ ValidEl ds x.2) →
      (∀ x ∈ (processMasters ms cm pool idxs elems inner masterD).2.1.data,
        x.2.sequence = x.1 ∧ ValidEl ds x.2)
      ∧ (∀ x ∈ (processMasters ms cm pool idxs elems inner masterD).2.2.data,
        x.2.sequence = x.1 ∧ ValidEl ds x.2) := by
  intro idxs
  induction idxs with
  | nil => exact fun elems inner masterD _ hinner hmaster => ⟨hinner, hmaster⟩
  | cons mi rest ih =>
    intro elems inner masterD helems hinner hmaster
    show (∀ x ∈ (match elems.getD mi none with
        | none => processMasters ms cm pool rest (elems.set mi none) inner masterD
        | some master => processMasters ms cm pool rest (elems.set mi none)
            (masterJoinFold ms cm master elems inner).1
            (if (masterJoinFold ms cm master elems inner).2 = 0
                ∧ is_maximal_sequence pool master.sequence
             then masterD.set master.sequence master else masterD)).2.1.data,
        x.2.sequence = x.1 ∧ ValidEl ds x.2)
      ∧ (∀ x ∈ (match elems.getD mi none with
        | none => processMasters ms cm pool rest (elems.set mi none) inner masterD
        | some master => processMasters ms cm pool rest (elems.set mi none)
            (masterJoinFold ms cm master elems inner).1
            (if (masterJoinFold ms cm master elems inner).2 = 0
                ∧ is_maximal_sequence pool master.sequence
             then masterD.set master.sequence master else masterD)).2.2.data,
        x.2.sequence = x.1 ∧ ValidEl ds x.2)
    have helems2 : ∀ oe ∈ elems.set mi none, ∀ e, oe = some e → ValidEl ds e := by
      intro oe hoe e hoee
      rcases mem_set_cases hoe with h1 | rfl
      · exact helems oe h1 e hoee
      · cases hoee
    rcases hget : elems.getD mi none with _ | master
    · exact ih (elems.set mi none) inner masterD helems2 hinner hmaster
    · have hvm : ValidEl ds master := helems (some master) (getD_some_mem hget) master rfl
      apply ih (elems.set mi none) _ _ helems2
      · exact masterJoinFold_valid ds hvm helems hinner
      · split
        · intro x hx
          rcases mem_pair_set hx with h1 | rfl
          · exact hmaster x h1
          · exact ⟨rfl, hvm⟩
        · exact hmaster

/-- Keyed validity is maintained by the whole DFS queue loop. -/
theorem enumLoop_valid (ds : Dataset) (ms : Int) (cm : CMap) (ml tn : Option Int) :
    ∀ (fuel : Nat) (queue : List GroupData) (pool : ElementDict FKey),
      (∀ g ∈ queue, ∀ oe ∈ g.elements, ∀ e, oe = some e → ValidEl ds e) →
      (∀ x ∈ pool.data, x.2.sequence = fkeySeq x.1 ∧ ValidEl ds x.2) →
      ∀ x ∈ (enumLoop ms cm ml tn fuel queue pool).data,
        x.2.sequence = fkeySeq x.1 ∧ ValidEl ds x.2 := by
  intro fuel
  induction fuel with
  | zero => exact fun queue pool _ hpool => hpool
  | succ fuel ih =>
    intro queue pool hq hpool
    cases queue with
    | nil => exact hpool
    | cons g rest =>
      have hpm := processMasters_valid ds ms cm pool g.idx g.elements
        (ElementDict.empty _) (ElementDict.empty _)
        (hq g (List.mem_cons_self _ _))
        (by intro x hx; cases hx)
        (by intro x hx; cases hx)
      have hinner : ∀ x ∈ (pmOf ms cm pool g).2.1.data,
          x.2.sequence = x.1 ∧ ValidEl ds x.2 := hpm.1
      have hmasterD : ∀ x ∈ (pmOf ms cm pool g).2.2.data,
          x.2.sequence = x.1 ∧ ValidEl ds x.2 := hpm.2
      have hinnerV : ∀ e ∈ (pmOf ms cm pool g).2.1.get_elements, ValidEl ds e := by
        intro e he
        rcases List.mem_map.mp he with ⟨x, hx, rfl⟩
        exact (hinner x hx).2
      have hqp2 : ∀ x ∈ (enumQP ms cm ml tn pool g).2.data,
          x.2.sequence = fkeySeq x.1 ∧ ValidEl ds x.2 := by
        unfold enumQP
        split
        · exact hpool
        · split
          · unfold innerPromotePool
            have hpi := @promoteInner_pair_OK
              (fun (x : Sequence × Element) => x.2.sequence = x.1 ∧ ValidEl ds x.2)
              (fun (x : FKey × Element) => x.2.sequence = fkeySeq x.1 ∧ ValidEl ds x.2)
              pool (pmOf ms cm pool g).2.1 hinner hpool
            apply add_elements_pair_OK
              (fun k e0 el h0 hel => pairFkeyValid_merge ds k e0 el h0 hel) hpi.2
            intro q hqm
            rcases List.mem_map.mp hqm with ⟨q0, hq0, rfl⟩
            exact hpi.1 q0 hq0
          · exact hpool
      have hpool2 : ∀ x ∈ (enumPool2 ms cm ml tn pool g).data,
          x.2.sequence = fkeySeq x.1 ∧ ValidEl ds x.2 := by
        unfold enumPool2
        split
        · apply add_elements_pair_OK
            (fun k e0 el h0 hel => pairFkeyValid_merge ds k e0 el h0 hel) hqp2
          intro q hqm
          rcases List.mem_map.mp hqm with ⟨q0, hq0, rfl⟩
          exact hmasterD q0 hq0
        · exact hqp2
      apply ih _ _ _ hpool2
      intro g2 hg2 oe hoe e hoee
      rcases List.mem_append.mp hg2 with h1 | h1
      · revert hoe
        unfold enumQP at h1
        split at h1
        · rcases grouped_shape cm (pmOf ms cm pool g).2.1.get_elements g2 h1 with
            ⟨l, hl, hlm, _⟩
          rw [hl]
          intro hoe
          rcases List.mem_map.mp hoe with ⟨x, hx, hxe⟩
          exact (Option.some.inj (hxe.trans hoee)) ▸ hinnerV x (hlm x hx)
        · split at h1
          · cases h1
          · cases h1
      · exact hq g2 (List.mem_cons_of_mem _ h1) oe hoe e hoee

theorem execPool1_valid (ds : Dataset) (hnd : (ds.map Prod.fst).Nodup) (ms : Int)
    (ml tn : Option Int) (fuel : Nat) :
    ∀ x ∈ (execPool1 ds ms ml tn fuel).data,
      x.2.sequence = fkeySeq x.1 ∧ ValidEl ds x.2 := by
  unfold execPool1
  split
  · apply enumLoop_valid
    · intro g hg oe hoe e hoee
      rcases grouped_shape _ _ g hg with ⟨l, hl, hlm, _⟩
      rw [hl] at hoe
      rcases List.mem_map.mp hoe with ⟨x, hx, hxe⟩
      have hx2 := hlm x hx
      rcases List.mem_map.mp hx2 with ⟨x0, hx0, rfl⟩
      exact (Option.some.inj (hxe.trans hoee)) ▸ ((generate_valid ds hnd ms ml).2 x0 hx0).2
    · intro x hx
      cases hx
  · intro x hx
    cases hx

theorem execPool2_valid (ds : Dataset) (hnd : (ds.map Prod.fst).Nodup) (ms : Int)
    (ml tn : Option Int) (fuel : Nat) :
    ∀ x ∈ (execPool2 ds ms ml tn fuel).data,
      x.2.sequence = fkeySeq x.1 ∧ ValidEl ds x.2 := by
  unfold execPool2
  split
  · apply add_elements_pair_OK
      (fun k e0 el h0 hel => pairFkeyValid_merge ds k e0 el h0 hel)
      (execPool1_valid ds hnd ms ml tn fuel)
    intro q hqm
    rcases List.mem_map.mp hqm with ⟨q0, hq0, rfl⟩
    exact (generate_valid ds hnd ms ml).1 q0 hq0
  · exact execPool1_valid ds hnd ms ml tn fuel

/-- C3: for every dataset (with the unique sids a Python `dict`
guarantees), every element returned by a successful `execute` carries
only valid witnesses: each `(sid, r)` of its id-list marks an occurrence
of its canonical sequence in input sequence `sid` ending at event rank
`r`. -/
theorem execute_witness_validity (ds : Dataset) (hnd : (ds.map Prod.fst).Nodup)
    (msv : Option Int) (sortf : Bool) (ml tn : Option Int) (fuel : Nat)
    (out : List Element)
    (hexec : SPADEm.execute ds msv sortf ml tn fuel = Except.ok out) :
    ∀ e ∈ out, ∀ ev ∈ e.id_list, OccursEndAt ds ev.sid e.sequence ev.eid := by
  unfold SPADEm.execute at hexec
  split at hexec
  · cases hexec
  · cases hexec
    intro e he
    have hmem : e ∈ (execPool2 ds (msv.getD 0) ml tn fuel).get_elements := by
      by_cases hsort : sortf = true
      · rw [hsort] at he
        simp only [if_pos rfl] at he
        exact (mem_pySortByKey _ _ _ e).mp he
      · rw [Bool.not_eq_true] at hsort
        rw [hsort] at he
        simpa using he
    rcases List.mem_map.mp hmem with ⟨x, hx, rfl⟩
    exact (execPool2_valid ds hnd (msv.getD 0) ml tn fuel x hx).2

/-- Witness for `execute_witness_validity` on the scenario-1 dataset. -/
theorem execute_witness_validity_witness :
    (dsS1.map Prod.fst).Nodup
    ∧ SPADEm.execute dsS1 (some 2) false none none 32 = Except.ok s1out
    ∧ ∀ e ∈ s1out, ∀ ev ∈ e.id_list, OccursEndAt dsS1 ev.sid e.sequence ev.eid :=
  ⟨by decide, by rfl,
   execute_witness_validity dsS1 (by decide) (some 2) false none none 32 s1out (by rfl)⟩
